import Mathlib

/-!
# Verification of `combine_segments.generate_curves`

A shallow embedding of `src/combine_segments.py`, which reconstructs open and
closed curves from an unordered collection of line segments.

Coordinates are modelled as rationals (`ℚ`); the Python floats are IEEE
doubles, but every arithmetic operation used by the program (subtraction,
absolute value, comparison) is exact on the dyadic inputs the claims are
about, so `ℚ` is a faithful carrier for them.

The embedding models, in order of the source:
* the array conversion / reshape of the input (`asarray3`, `Arr3`,
  `basePoint`), including the `ValueError`s numpy raises on ragged nested
  lists, on a reshape whose size does not match, and on `np.lexsort` given
  zero key arrays;
* the endpoint matcher: a stable lexicographic sort of all endpoint indices
  (`np.lexsort` is stable; Mathlib's `List.insertionSort` with a total `≤`
  comparator is stable as well, so both produce the same index order),
  the adjacent-within-tolerance scan with wraparound (`equalIdxPairs`), and
  the two direction dictionaries built by dict comprehension with
  last-write-wins semantics (`insertKV`, `firstDict`, `secondDict`);
* the curve assembler: the available-endpoint dictionary (`popitem` pops the
  most recently inserted key, which for keys inserted as `0,…,P-1` with no
  reinsertion is the largest remaining key; we therefore store the keys in
  reversed insertion order and pop the head), the right-extension and
  left-extension loops, and the `KeyError` channel (`Err.keyError k`
  carries the missing key, matching `int(str(e))` in the handler).
-/

namespace CombineSegments

/-- A point: one n-dimensional coordinate vector (a row of `base_points`). -/
abbrev Pt := List ℚ

/-- Decides `a - b < tol` on rationals by cross-multiplying with the (positive)
denominators.  The library's rational subtraction is irreducible to the
kernel, so the embedding decides the comparison on numerators and
denominators directly; `ratSubLt_iff` below proves it equivalent to the
arithmetic comparison `a - b < tol` that the source performs. -/
def ratSubLt (a b tol : ℚ) : Bool :=
  decide ((a.num * b.den - b.num * a.den) * tol.den < tol.num * (a.den * b.den))

/-- `np.all(np.abs(p - q) < tolerance)`: Chebyshev-style closeness, strict on
every axis (`|a - b| < tol` is `a - b < tol ∧ b - a < tol`). -/
def allClose (tol : ℚ) (p q : Pt) : Bool :=
  (List.zipWith (fun a b => ratSubLt a b tol && ratSubLt b a tol) p q).all id

/-- Lexicographic comparison of coordinate vectors, most significant axis
first: the order produced by
`np.lexsort([base_points[:,idx] for idx in reversed(range(num_dimensions))])`. -/
def lexLe : Pt → Pt → Bool
  | [], _ => true
  | _ :: _, [] => false
  | a :: p, b :: q => if a < b then true else if b < a then false else lexLe p q

/-- An ndarray as the program sees it: only `shape[-1]` (the coordinate
dimension) and the flat data buffer are ever consulted by the source. -/
structure Arr3 where
  n : ℕ
  data : List ℚ
deriving DecidableEq, Repr

/-- `num_points = line_segments_arr.size // 2`. -/
def numPoints (a : Arr3) : ℕ := a.data.length / 2

/-- Row `i` of `base_points = line_segments_arr.reshape((num_points, num_dimensions))`. -/
def basePoint (a : Arr3) (i : ℕ) : Pt := (a.data.drop (i * a.n)).take a.n

/-- The comparator used to sort endpoint indices by their coordinates. -/
def idxLe (a : Arr3) (i j : ℕ) : Prop := lexLe (basePoint a i) (basePoint a j) = true

instance (a : Arr3) : DecidableRel (idxLe a) := fun _ _ => by
  unfold idxLe; infer_instance

/-- `ind_for_sorting` applied to the index column: endpoint indices in stable
lexicographic order of their coordinates. -/
def sortedIdx (a : Arr3) : List ℕ :=
  (List.range (numPoints a)).insertionSort (idxLe a)

/-- `np.roll(·, 1, axis=0)` on a list. -/
def rollOne (l : List ℕ) : List ℕ :=
  match l.getLast? with
  | none => []
  | some x => x :: l.dropLast

/-- `equal_idx_pairs`: for every position of the sorted order (with wraparound
from the last point to the first), the pair (predecessor index, index) when the
two coordinate vectors agree within tolerance on every axis. -/
def equalIdxPairs (a : Arr3) (tol : ℚ) : List (ℕ × ℕ) :=
  (List.zip (rollOne (sortedIdx a)) (sortedIdx a)).filter
    (fun ij => allClose tol (basePoint a ij.1) (basePoint a ij.2))

/-- The pairs of consecutive entries of a list that satisfy a (boolean)
relation: the non-wraparound part of the adjacent-within-tolerance scan,
in a form amenable to induction. -/
def adjPairs (cl : ℕ → ℕ → Bool) : List ℕ → List (ℕ × ℕ)
  | [] => []
  | [_] => []
  | x :: y :: t => if cl x y then (x, y) :: adjPairs cl (y :: t) else adjPairs cl (y :: t)

/-- Python dict insertion: an existing key is overwritten in place, a new key
is appended. -/
def insertKV : List (ℕ × ℕ) → ℕ → ℕ → List (ℕ × ℕ)
  | [], k, v => [(k, v)]
  | (a, b) :: t, k, v => if a = k then (k, v) :: t else (a, b) :: insertKV t k v

/-- A dict comprehension over a list of pairs. -/
def buildDict (ps : List (ℕ × ℕ)) : List (ℕ × ℕ) :=
  ps.foldl (fun d p => insertKV d p.1 p.2) []

/-- `first_equal_dict = {c: v for c, v in equal_idx_pairs}`. -/
def firstDict (a : Arr3) (tol : ℚ) : List (ℕ × ℕ) :=
  buildDict (equalIdxPairs a tol)

/-- `second_equal_dict = {v: c for c, v in equal_idx_pairs}`. -/
def secondDict (a : Arr3) (tol : ℚ) : List (ℕ × ℕ) :=
  buildDict ((equalIdxPairs a tol).map (fun p => (p.2, p.1)))

/-- The exceptions the program can raise.  `keyError k` is a `KeyError` whose
argument is the missing key (`int(str(e))` recovers `k`); `valueError` is any
of numpy's `ValueError`s (ragged input, incompatible reshape, `lexsort` with
no keys); `noFuel` is an artifact of the fuelled outer loop and is proved
unreachable. -/
inductive Err where
  | keyError (k : ℕ)
  | valueError
  | indexError
  | noFuel
deriving DecidableEq, Repr

/-- The mutable working state of the assembler. -/
structure St where
  firstD : List (ℕ × ℕ)
  secondD : List (ℕ × ℕ)
  endD : List ℕ
deriving DecidableEq, Repr

/-- `d[k]` as a total lookup. -/
def lookupKV : List (ℕ × ℕ) → ℕ → Option ℕ
  | [], _ => none
  | (a, b) :: t, k => if a = k then some b else lookupKV t k

/-- Removal of a key known (or assumed) present; removes the first entry with
that key. -/
def eraseKey : List (ℕ × ℕ) → ℕ → List (ℕ × ℕ)
  | [], _ => []
  | (a, b) :: t, k => if a = k then t else (a, b) :: eraseKey t k

/-- `del d[k]` on an equivalence dictionary: raises `KeyError k` when absent. -/
def delKV (l : List (ℕ × ℕ)) (k : ℕ) : Except Err (List (ℕ × ℕ)) :=
  if (lookupKV l k).isSome then .ok (eraseKey l k) else .error (.keyError k)

/-- `del end_point_dict[k]`: raises `KeyError k` when absent. -/
def delEnd (l : List ℕ) (k : ℕ) : Except Err (List ℕ) :=
  if k ∈ l then .ok (l.erase k) else .error (.keyError k)

/-- The other endpoint of the segment owning endpoint `j`
(`j - 1` when `j` is odd, else `j + 1`). -/
def sib (j : ℕ) : ℕ := if j % 2 = 1 then j - 1 else j + 1

/-- The oriented equivalence classes consumed along a right-extension walk:
starting from frontier `cs`, each step pairs the current frontier with the
next partner `w` and moves the frontier to `sib w`. -/
def chainClasses (cs : ℕ) : List ℕ → List (ℕ × ℕ)
  | [] => []
  | w :: t => (cs, w) :: chainClasses (sib w) t

/-- Orientation-normalised endpoint pair (smaller index first). -/
def norm2 (q : ℕ × ℕ) : ℕ × ℕ := if q.1 ≤ q.2 then q else (q.2, q.1)

/-- The right-extension loop (`while True:` on the right endpoint,
source lines 137–194).  `cf` is `current_first_endpoint` (fixed here),
`cs` is `current_second_endpoint`, `seg` is `current_segment`.
Returns the state, the extended segment, and `skip_left_check`.
The loop is fuelled for structural recursion; every entry of
`first_equal_dict` consumed permits one more iteration, so the fuel passed
by the outer loop is proved sufficient (`Err.noFuel` is unreachable). -/
def rightLoop : ℕ → St → ℕ → ℕ → List ℕ → Except Err (St × List ℕ × Bool)
  | 0, _, _, _, _ => .error .noFuel
  | fuel + 1, st, cf, cs, seg =>
    match lookupKV st.firstD cs with
    | some corr => do
      -- right_first_check
      let f1 := eraseKey st.firstD cs
      let s1 ← delKV st.secondD corr
      if corr = cf then pure (⟨f1, s1, st.endD⟩, seg, true)
      else do
        let e1 ← delEnd st.endD corr
        let fv := sib corr
        let seg1 := seg ++ [fv]
        if fv = cf then pure (⟨f1, s1, e1⟩, seg1, true)
        else do
          let e2 ← delEnd e1 fv
          rightLoop fuel ⟨f1, s1, e2⟩ cf fv seg1
    | none =>
      match lookupKV st.secondD cs with
      | some corr => do
        -- right_second_check
        let s1 := eraseKey st.secondD cs
        let f1 ← delKV st.firstD corr
        if corr = cf then pure (⟨f1, s1, st.endD⟩, seg, true)
        else do
          let e1 ← delEnd st.endD corr
          let fv := sib corr
          let seg1 := seg ++ [fv]
          if fv = cf then pure (⟨f1, s1, e1⟩, seg1, true)
          else do
            let e2 ← delEnd e1 fv
            rightLoop fuel ⟨f1, s1, e2⟩ cf fv seg1
      | none => pure (st, seg, false)

/-- The left-extension loop (source lines 198–244).  `cf` is the moving
`current_first_endpoint`; note that, like the source, it *appends* the new
endpoint to `seg`. -/
def leftLoop : ℕ → St → ℕ → List ℕ → Except Err (St × List ℕ)
  | 0, _, _, _ => .error .noFuel
  | fuel + 1, st, cf, seg =>
    match lookupKV st.firstD cf with
    | some corr => do
      let f1 := eraseKey st.firstD cf
      let s1 ← delKV st.secondD corr
      let e1 ← delEnd st.endD corr
      let fv := sib corr
      let seg1 := seg ++ [fv]
      let e2 ← delEnd e1 fv
      leftLoop fuel ⟨f1, s1, e2⟩ fv seg1
    | none =>
      match lookupKV st.secondD cf with
      | some corr => do
        let s1 := eraseKey st.secondD cf
        let f1 ← delKV st.firstD corr
        let e1 ← delEnd st.endD corr
        let fv := sib corr
        let seg1 := seg ++ [fv]
        let e2 ← delEnd e1 fv
        leftLoop fuel ⟨f1, s1, e2⟩ fv seg1
      | none => pure (st, seg)

/-- The outer assembly loop (`while len(end_point_dict) > 0:`), fuelled.
`popitem` pops the head of `endD` (see the module comment); the seed segment's
other endpoint is then deleted, the right and left extension loops run, and
the finished index segment is appended to `acc`. -/
def outerLoop : ℕ → St → List (List ℕ) → Except Err (List (List ℕ))
  | _, ⟨_, _, []⟩, acc => .ok acc
  | 0, ⟨_, _, _ :: _⟩, _ => .error .noFuel
  | fuel + 1, ⟨f, s, j :: rest⟩, acc =>
    let cf := if j % 2 = 1 then j - 1 else j
    let cs := if j % 2 = 1 then j else j + 1
    let sibKey := if j % 2 = 1 then j - 1 else j + 1
    match delEnd rest sibKey with
    | .error e => .error e
    | .ok e1 =>
      match rightLoop (f.length + 1) ⟨f, s, e1⟩ cf cs [cf, cs] with
      | .error e => .error e
      | .ok (st1, seg1, skip) =>
        if skip then outerLoop fuel st1 (acc ++ [seg1])
        else
          match leftLoop (st1.firstD.length + 1) st1 cf seg1 with
          | .error e => .error e
          | .ok (st2, seg2) => outerLoop fuel st2 (acc ++ [seg2])

/-- The assembler's initial state. -/
def initSt (a : Arr3) (tol : ℚ) : St :=
  ⟨firstDict a tol, secondDict a tol, (List.range (numPoints a)).reverse⟩

/-- The whole `try:` block: runs the assembly and returns the curves as lists
of endpoint indices, or the first `KeyError`. -/
def runAssembly (a : Arr3) (tol : ℚ) : Except Err (List (List ℕ)) :=
  outerLoop (numPoints a) (initSt a tol) []

/-- `generate_curves` on an ndarray input.  The `.ok` payload is the returned
`curves_list` (rows of `base_points` indexed by each curve) together with the
point printed by the `except KeyError` handler, if any; `.error .valueError`
is an uncaught numpy `ValueError` (incompatible reshape, or `np.lexsort`
called with zero key arrays when `num_dimensions = 0`); `.error .indexError`
is the uncaught `IndexError` raised inside the handler itself by
`base_points[int(str(e))]` when the `KeyError` key is not a row index of
`base_points`. -/
def generate_curves (a : Arr3) (tol : ℚ) :
    Except Err (List (List Pt) × Option Pt) :=
  if numPoints a * a.n = a.data.length then
    if a.n = 0 then .error .valueError
    else
      match runAssembly a tol with
      | .ok segs => .ok (segs.map (fun c => c.map (basePoint a)), none)
      | .error (.keyError k) =>
          if k < numPoints a then .ok ([], some (basePoint a k))
          else .error .indexError
      | .error e => .error e
  else .error .valueError

/-- `np.asarray` on a nested-list input: modelled library semantics — a
regular nesting of shape `(N, k, n)` becomes a flat buffer with `shape[-1]`
recorded; a ragged nesting raises `ValueError`.  An empty outer list has
shape `(0,)`, and segments with zero points give shape `(N, 0)`; in both
cases `shape[-1] = 0`. -/
def asarray3 (ls : List (List (List ℚ))) : Except Err Arr3 :=
  match ls with
  | [] => .ok ⟨0, []⟩
  | s₀ :: _ =>
    match s₀ with
    | [] =>
      if ls.all (fun s => s.isEmpty) then .ok ⟨0, []⟩ else .error .valueError
    | p₀ :: _ =>
      if ls.all (fun s => s.length = s₀.length &&
           s.all (fun p => p.length = p₀.length)) then
        .ok ⟨p₀.length, ls.flatten.flatten⟩
      else .error .valueError

/-- `generate_curves` on a nested-list input (the `np.asarray` path). -/
def generate_curvesL (ls : List (List (List ℚ))) (tol : ℚ) :
    Except Err (List (List Pt) × Option Pt) :=
  match asarray3 ls with
  | .error e => .error e
  | .ok a => generate_curves a tol

/-- Convenience: the array of a list of genuine two-point segments of
dimension `n`. -/
def segsArr (n : ℕ) (segs : List (Pt × Pt)) : Arr3 :=
  ⟨n, segs.flatMap (fun s => s.1 ++ s.2)⟩

/-- The endpoint indices mentioned by an equivalence dictionary, in order. -/
def pairMentions (q : List (ℕ × ℕ)) : List ℕ := q.flatMap (fun p => [p.1, p.2])

/-- The segment owning endpoint `j` (segment `i` owns endpoints `2i`, `2i+1`). -/
def segOf (j : ℕ) : ℕ := j / 2

/-- The set of input segments consumed into a curve, read off its endpoint
index list. -/
def curveSegs (c : List ℕ) : Finset ℕ := (c.map segOf).toFinset

/-- The set of input segments consumed by a list of curves. -/
def unionSegs (cs : List (List ℕ)) : Finset ℕ :=
  cs.foldr (fun c A => curveSegs c ∪ A) ∅

/-- The structural invariant of the pair dictionaries: every endpoint is
mentioned at most once overall (each location is shared by at most two
endpoints and each endpoint lies in at most one recorded pair), and
`second_equal_dict` is the entry-wise swap of `first_equal_dict`. -/
def InvPairs (fd sd : List (ℕ × ℕ)) : Prop :=
  (pairMentions fd).Nodup ∧ sd = fd.map (fun p => (p.2, p.1))

/-- The structural invariant of the available-endpoint dictionary: no
duplicates, all endpoints in range, and closed under taking the sibling
endpoint of the same segment. -/
def InvEnd (endD : List ℕ) (P : ℕ) : Prop :=
  endD.Nodup ∧ (∀ x ∈ endD, x < P) ∧ (∀ j ∈ endD, sib j ∈ endD)

instance instDecEqExcept {ε α : Type} [DecidableEq ε] [DecidableEq α] :
    DecidableEq (Except ε α) := fun x y =>
  match x, y with
  | .ok a, .ok b =>
    if h : a = b then isTrue (by rw [h]) else isFalse (by simp [h])
  | .error a, .error b =>
    if h : a = b then isTrue (by rw [h]) else isFalse (by simp [h])
  | .ok _, .error _ => isFalse (by simp)
  | .error _, .ok _ => isFalse (by simp)

/-!
## Theorems

First, arithmetic facts connecting the kernel-computable comparison
`ratSubLt` with the rational comparison the source performs, then basic
facts about the dictionary operations and the loops.
-/

theorem rat_num_eq_mul_den (q : ℚ) : (q.num : ℚ) = q * q.den := by
  have hd : ((q.den : ℚ)) ≠ 0 := Nat.cast_ne_zero.mpr q.den_nz
  calc (q.num : ℚ) = (q.num / q.den) * q.den := by rw [div_mul_cancel₀ _ hd]
    _ = q * q.den := by rw [Rat.num_div_den q]

/-- `ratSubLt` decides exactly `a - b < tol`. -/
theorem ratSubLt_iff (a b tol : ℚ) : ratSubLt a b tol = true ↔ a - b < tol := by
  unfold ratSubLt
  rw [decide_eq_true_iff]
  have hD : (0:ℚ) < (a.den : ℚ) * b.den * tol.den := by positivity
  rw [← @Int.cast_lt ℚ]
  push_cast
  rw [rat_num_eq_mul_den a, rat_num_eq_mul_den b, rat_num_eq_mul_den tol]
  rw [show (a * a.den * (b.den:ℚ) - b * b.den * a.den) * tol.den
        = (a - b) * ((a.den:ℚ) * b.den * tol.den) from by ring,
      show tol * (tol.den:ℚ) * ((a.den:ℚ) * b.den)
        = tol * ((a.den:ℚ) * b.den * tol.den) from by ring]
  exact mul_lt_mul_right hD

/-- The per-axis test of the endpoint matcher decides `|a - b| < tol`. -/
theorem absSub_lt_iff (a b tol : ℚ) :
    (ratSubLt a b tol && ratSubLt b a tol) = true ↔ |a - b| < tol := by
  rw [Bool.and_eq_true, ratSubLt_iff, ratSubLt_iff, abs_sub_lt_iff]

theorem delEnd_ok_iff {l : List ℕ} {k : ℕ} {l' : List ℕ} :
    delEnd l k = .ok l' ↔ k ∈ l ∧ l' = l.erase k := by
  unfold delEnd
  split
  · rename_i hm
    simp [hm, eq_comm]
  · rename_i hm
    simp [hm]

theorem delEnd_error_iff {l : List ℕ} {k : ℕ} {e : Err} :
    delEnd l k = .error e ↔ k ∉ l ∧ e = .keyError k := by
  unfold delEnd
  split
  · rename_i hm
    simp [hm]
  · rename_i hm
    simp [hm, eq_comm]

theorem delEnd_ok_length {l l' : List ℕ} {k : ℕ} (h : delEnd l k = .ok l') :
    l'.length < l.length := by
  obtain ⟨hm, rfl⟩ := delEnd_ok_iff.mp h
  rw [List.length_erase_of_mem hm]
  have := List.length_pos_of_mem hm
  omega

theorem delKV_ok_iff {l : List (ℕ × ℕ)} {k : ℕ} {l' : List (ℕ × ℕ)} :
    delKV l k = .ok l' ↔ (lookupKV l k).isSome ∧ l' = eraseKey l k := by
  unfold delKV
  split
  · rename_i hm
    simp [hm, eq_comm]
  · rename_i hm
    simp [hm]

theorem delKV_error_iff {l : List (ℕ × ℕ)} {k : ℕ} {e : Err} :
    delKV l k = .error e ↔ lookupKV l k = none ∧ e = .keyError k := by
  unfold delKV
  split
  · rename_i hm
    simp only [Option.isSome_iff_exists] at hm
    obtain ⟨v, hv⟩ := hm
    simp [hv]
  · rename_i hm
    simp [Option.not_isSome_iff_eq_none.mp (by simpa using hm), eq_comm]

theorem eraseKey_length_of_lookup {l : List (ℕ × ℕ)} {k v : ℕ}
    (h : lookupKV l k = some v) : (eraseKey l k).length < l.length := by
  induction l with
  | nil => simp [lookupKV] at h
  | cons p t ih =>
    obtain ⟨a, b⟩ := p
    by_cases hk : a = k
    · simp [eraseKey, hk]
    · simp only [lookupKV, if_neg hk] at h
      simp only [eraseKey, if_neg hk, List.length_cons]
      exact Nat.succ_lt_succ (ih h)

theorem delKV_ok_length {l l' : List (ℕ × ℕ)} {k : ℕ}
    (h : delKV l k = .ok l') : l'.length < l.length := by
  obtain ⟨hs, rfl⟩ := delKV_ok_iff.mp h
  obtain ⟨v, hv⟩ := Option.isSome_iff_exists.mp hs
  exact eraseKey_length_of_lookup hv

theorem exceptBind_ok {ε α β : Type} (a : α) (f : α → Except ε β) :
    (Except.ok a : Except ε α) >>= f = f a := rfl

theorem exceptBind_error {ε α β : Type} (e : ε) (f : α → Except ε β) :
    (Except.error e : Except ε α) >>= f = .error e := rfl

theorem exceptPure {ε α : Type} (a : α) : (pure a : Except ε α) = .ok a := rfl

/-- A successful right-extension pass never grows the available-endpoint set. -/
theorem rightLoop_ok_endD_le :
    ∀ (fuel : ℕ) (st : St) (cf cs : ℕ) (seg : List ℕ) (st' : St) (seg' : List ℕ) (b : Bool),
      rightLoop fuel st cf cs seg = .ok (st', seg', b) → st'.endD.length ≤ st.endD.length := by
  intro fuel
  induction fuel with
  | zero => intro st cf cs seg st' seg' b h; simp [rightLoop] at h
  | succ fuel ih =>
    intro st cf cs seg st' seg' b h
    rw [rightLoop] at h
    cases hc : lookupKV st.firstD cs with
    | some corr =>
      rw [hc] at h
      cases hd : delKV st.secondD corr with
      | error e => simp only [hd, exceptBind_error] at h; cases h
      | ok s1 =>
        simp only [hd, exceptBind_ok] at h
        by_cases hcf : corr = cf
        · simp only [if_pos hcf, exceptPure] at h
          cases h
          exact le_refl _
        · rw [if_neg hcf] at h
          cases he1 : delEnd st.endD corr with
          | error e => simp only [he1, exceptBind_error] at h; cases h
          | ok e1 =>
            simp only [he1, exceptBind_ok] at h
            by_cases hfv : sib corr = cf
            · simp only [if_pos hfv, exceptPure] at h
              cases h
              exact le_of_lt (delEnd_ok_length he1)
            · rw [if_neg hfv] at h
              cases he2 : delEnd e1 (sib corr) with
              | error e => simp only [he2, exceptBind_error] at h; cases h
              | ok e2 =>
                simp only [he2, exceptBind_ok] at h
                calc st'.endD.length ≤ e2.length := ih _ _ _ _ _ _ _ h
                  _ ≤ e1.length := le_of_lt (delEnd_ok_length he2)
                  _ ≤ st.endD.length := le_of_lt (delEnd_ok_length he1)
    | none =>
      rw [hc] at h
      cases hc2 : lookupKV st.secondD cs with
      | some corr =>
        rw [hc2] at h
        cases hd : delKV st.firstD corr with
        | error e => simp only [hd, exceptBind_error] at h; cases h
        | ok f1 =>
          simp only [hd, exceptBind_ok] at h
          by_cases hcf : corr = cf
          · simp only [if_pos hcf, exceptPure] at h
            cases h
            exact le_refl _
          · rw [if_neg hcf] at h
            cases he1 : delEnd st.endD corr with
            | error e => simp only [he1, exceptBind_error] at h; cases h
            | ok e1 =>
              simp only [he1, exceptBind_ok] at h
              by_cases hfv : sib corr = cf
              · simp only [if_pos hfv, exceptPure] at h
                cases h
                exact le_of_lt (delEnd_ok_length he1)
              · rw [if_neg hfv] at h
                cases he2 : delEnd e1 (sib corr) with
                | error e => simp only [he2, exceptBind_error] at h; cases h
                | ok e2 =>
                  simp only [he2, exceptBind_ok] at h
                  calc st'.endD.length ≤ e2.length := ih _ _ _ _ _ _ _ h
                    _ ≤ e1.length := le_of_lt (delEnd_ok_length he2)
                    _ ≤ st.endD.length := le_of_lt (delEnd_ok_length he1)
      | none =>
        rw [hc2] at h
        simp only [exceptPure] at h
        cases h
        exact le_refl _

/-- The right-extension loop can exhaust its fuel only if given no more fuel
than there are entries in `first_equal_dict`; the caller always passes one
more. -/
theorem rightLoop_noFuel_bound :
    ∀ (fuel : ℕ) (st : St) (cf cs : ℕ) (seg : List ℕ),
      rightLoop fuel st cf cs seg = .error .noFuel → fuel ≤ st.firstD.length := by
  intro fuel
  induction fuel with
  | zero => intro st cf cs seg _; exact Nat.zero_le _
  | succ fuel ih =>
    intro st cf cs seg h
    rw [rightLoop] at h
    cases hc : lookupKV st.firstD cs with
    | some corr =>
      rw [hc] at h
      cases hd : delKV st.secondD corr with
      | error e =>
        simp only [hd, exceptBind_error] at h
        cases h
        obtain ⟨-, he⟩ := delKV_error_iff.mp hd
        cases he
      | ok s1 =>
        simp only [hd, exceptBind_ok] at h
        by_cases hcf : corr = cf
        · simp only [if_pos hcf, exceptPure] at h; cases h
        · rw [if_neg hcf] at h
          cases he1 : delEnd st.endD corr with
          | error e =>
            simp only [he1, exceptBind_error] at h
            cases h
            obtain ⟨-, he⟩ := delEnd_error_iff.mp he1
            cases he
          | ok e1 =>
            simp only [he1, exceptBind_ok] at h
            by_cases hfv : sib corr = cf
            · simp only [if_pos hfv, exceptPure] at h; cases h
            · rw [if_neg hfv] at h
              cases he2 : delEnd e1 (sib corr) with
              | error e =>
                simp only [he2, exceptBind_error] at h
                cases h
                obtain ⟨-, he⟩ := delEnd_error_iff.mp he2
                cases he
              | ok e2 =>
                simp only [he2, exceptBind_ok] at h
                have h1 := ih _ _ _ _ h
                have h2 := eraseKey_length_of_lookup hc
                dsimp only at h1
                omega
    | none =>
      rw [hc] at h
      cases hc2 : lookupKV st.secondD cs with
      | some corr =>
        rw [hc2] at h
        cases hd : delKV st.firstD corr with
        | error e =>
          simp only [hd, exceptBind_error] at h
          cases h
          obtain ⟨-, he⟩ := delKV_error_iff.mp hd
          cases he
        | ok f1 =>
          simp only [hd, exceptBind_ok] at h
          by_cases hcf : corr = cf
          · simp only [if_pos hcf, exceptPure] at h; cases h
          · rw [if_neg hcf] at h
            cases he1 : delEnd st.endD corr with
            | error e =>
              simp only [he1, exceptBind_error] at h
              cases h
              obtain ⟨-, he⟩ := delEnd_error_iff.mp he1
              cases he
            | ok e1 =>
              simp only [he1, exceptBind_ok] at h
              by_cases hfv : sib corr = cf
              · simp only [if_pos hfv, exceptPure] at h; cases h
              · rw [if_neg hfv] at h
                cases he2 : delEnd e1 (sib corr) with
                | error e =>
                  simp only [he2, exceptBind_error] at h
                  cases h
                  obtain ⟨-, he⟩ := delEnd_error_iff.mp he2
                  cases he
                | ok e2 =>
                  simp only [he2, exceptBind_ok] at h
                  have h1 := ih _ _ _ _ h
                  have h2 := delKV_ok_length hd
                  dsimp only at h1
                  omega
      | none =>
        rw [hc2] at h
        simp only [exceptPure] at h
        cases h

/-- A successful left-extension pass never grows the available-endpoint set. -/
theorem leftLoop_ok_endD_le :
    ∀ (fuel : ℕ) (st : St) (cf : ℕ) (seg : List ℕ) (st' : St) (seg' : List ℕ),
      leftLoop fuel st cf seg = .ok (st', seg') → st'.endD.length ≤ st.endD.length := by
  intro fuel
  induction fuel with
  | zero => intro st cf seg st' seg' h; simp [leftLoop] at h
  | succ fuel ih =>
    intro st cf seg st' seg' h
    rw [leftLoop] at h
    cases hc : lookupKV st.firstD cf with
    | some corr =>
      rw [hc] at h
      cases hd : delKV st.secondD corr with
      | error e => simp only [hd, exceptBind_error] at h; cases h
      | ok s1 =>
        simp only [hd, exceptBind_ok] at h
        cases he1 : delEnd st.endD corr with
        | error e => simp only [he1, exceptBind_error] at h; cases h
        | ok e1 =>
          simp only [he1, exceptBind_ok] at h
          cases he2 : delEnd e1 (sib corr) with
          | error e => simp only [he2, exceptBind_error] at h; cases h
          | ok e2 =>
            simp only [he2, exceptBind_ok] at h
            calc st'.endD.length ≤ e2.length := ih _ _ _ _ _ h
              _ ≤ e1.length := le_of_lt (delEnd_ok_length he2)
              _ ≤ st.endD.length := le_of_lt (delEnd_ok_length he1)
    | none =>
      rw [hc] at h
      cases hc2 : lookupKV st.secondD cf with
      | some corr =>
        rw [hc2] at h
        cases hd : delKV st.firstD corr with
        | error e => simp only [hd, exceptBind_error] at h; cases h
        | ok f1 =>
          simp only [hd, exceptBind_ok] at h
          cases he1 : delEnd st.endD corr with
          | error e => simp only [he1, exceptBind_error] at h; cases h
          | ok e1 =>
            simp only [he1, exceptBind_ok] at h
            cases he2 : delEnd e1 (sib corr) with
            | error e => simp only [he2, exceptBind_error] at h; cases h
            | ok e2 =>
              simp only [he2, exceptBind_ok] at h
              calc st'.endD.length ≤ e2.length := ih _ _ _ _ _ h
                _ ≤ e1.length := le_of_lt (delEnd_ok_length he2)
                _ ≤ st.endD.length := le_of_lt (delEnd_ok_length he1)
      | none =>
        rw [hc2] at h
        simp only [exceptPure] at h
        cases h
        exact le_refl _

/-- The left-extension loop can exhaust its fuel only if given no more fuel
than there are entries in `first_equal_dict`. -/
theorem leftLoop_noFuel_bound :
    ∀ (fuel : ℕ) (st : St) (cf : ℕ) (seg : List ℕ),
      leftLoop fuel st cf seg = .error .noFuel → fuel ≤ st.firstD.length := by
  intro fuel
  induction fuel with
  | zero => intro st cf seg _; exact Nat.zero_le _
  | succ fuel ih =>
    intro st cf seg h
    rw [leftLoop] at h
    cases hc : lookupKV st.firstD cf with
    | some corr =>
      rw [hc] at h
      cases hd : delKV st.secondD corr with
      | error e =>
        simp only [hd, exceptBind_error] at h
        cases h
        obtain ⟨-, he⟩ := delKV_error_iff.mp hd
        cases he
      | ok s1 =>
        simp only [hd, exceptBind_ok] at h
        cases he1 : delEnd st.endD corr with
        | error e =>
          simp only [he1, exceptBind_error] at h
          cases h
          obtain ⟨-, he⟩ := delEnd_error_iff.mp he1
          cases he
        | ok e1 =>
          simp only [he1, exceptBind_ok] at h
          cases he2 : delEnd e1 (sib corr) with
          | error e =>
            simp only [he2, exceptBind_error] at h
            cases h
            obtain ⟨-, he⟩ := delEnd_error_iff.mp he2
            cases he
          | ok e2 =>
            simp only [he2, exceptBind_ok] at h
            have h1 := ih _ _ _ h
            have h2 := eraseKey_length_of_lookup hc
            dsimp only at h1
            omega
    | none =>
      rw [hc] at h
      cases hc2 : lookupKV st.secondD cf with
      | some corr =>
        rw [hc2] at h
        cases hd : delKV st.firstD corr with
        | error e =>
          simp only [hd, exceptBind_error] at h
          cases h
          obtain ⟨-, he⟩ := delKV_error_iff.mp hd
          cases he
        | ok f1 =>
          simp only [hd, exceptBind_ok] at h
          cases he1 : delEnd st.endD corr with
          | error e =>
            simp only [he1, exceptBind_error] at h
            cases h
            obtain ⟨-, he⟩ := delEnd_error_iff.mp he1
            cases he
          | ok e1 =>
            simp only [he1, exceptBind_ok] at h
            cases he2 : delEnd e1 (sib corr) with
            | error e =>
              simp only [he2, exceptBind_error] at h
              cases h
              obtain ⟨-, he⟩ := delEnd_error_iff.mp he2
              cases he
            | ok e2 =>
              simp only [he2, exceptBind_ok] at h
              have h1 := ih _ _ _ h
              have h2 := delKV_ok_length hd
              dsimp only at h1
              omega
      | none =>
        rw [hc2] at h
        simp only [exceptPure] at h
        cases h

/-- The outer loop can exhaust its fuel only if given less fuel than there are
available endpoints: each iteration consumes at least the popped endpoint. -/
theorem outerLoop_noFuel_bound :
    ∀ (fuel : ℕ) (st : St) (acc : List (List ℕ)),
      outerLoop fuel st acc = .error .noFuel → fuel < st.endD.length := by
  intro fuel
  induction fuel with
  | zero =>
    intro st acc h
    obtain ⟨f, s, endD⟩ := st
    cases endD with
    | nil => simp [outerLoop] at h
    | cons j rest => simp
  | succ fuel ih =>
    intro st acc h
    obtain ⟨f, s, endD⟩ := st
    cases endD with
    | nil => simp [outerLoop] at h
    | cons j rest =>
      rw [outerLoop] at h
      dsimp only at h ⊢
      cases hd : delEnd rest (if j % 2 = 1 then j - 1 else j + 1) with
      | error e =>
        rw [hd] at h
        cases h
        obtain ⟨-, he⟩ := delEnd_error_iff.mp hd
        cases he
      | ok e1 =>
        rw [hd] at h
        dsimp only at h
        cases hr : rightLoop (f.length + 1)
            ⟨f, s, e1⟩ (if j % 2 = 1 then j - 1 else j)
            (if j % 2 = 1 then j else j + 1)
            [if j % 2 = 1 then j - 1 else j, if j % 2 = 1 then j else j + 1] with
        | error e =>
          rw [hr] at h
          dsimp only at h
          cases h
          have := rightLoop_noFuel_bound _ _ _ _ _ hr
          dsimp only at this
          omega
        | ok res =>
          obtain ⟨st1, seg1, skip⟩ := res
          rw [hr] at h
          dsimp only at h
          cases skip with
          | true =>
            simp only [if_pos rfl] at h
            have h1 := ih _ _ h
            have h2 := rightLoop_ok_endD_le _ _ _ _ _ _ _ _ hr
            have h3 := delEnd_ok_length hd
            dsimp only at h2
            simp only [List.length_cons]
            omega
          | false =>
            simp only [Bool.false_eq_true, if_neg (by exact fun hh => hh)] at h
            cases hl : leftLoop (st1.firstD.length + 1) st1
                (if j % 2 = 1 then j - 1 else j) seg1 with
            | error e =>
              rw [hl] at h
              dsimp only at h
              cases h
              have := leftLoop_noFuel_bound _ _ _ _ hl
              omega
            | ok res2 =>
              obtain ⟨st2, seg2⟩ := res2
              rw [hl] at h
              dsimp only at h
              have h1 := ih _ _ h
              have h2 := rightLoop_ok_endD_le _ _ _ _ _ _ _ _ hr
              have h25 := leftLoop_ok_endD_le _ _ _ _ _ _ hl
              have h3 := delEnd_ok_length hd
              dsimp only at h2
              simp only [List.length_cons]
              omega

/-- The right-extension loop never raises numpy's `ValueError`: its only
exception channel is `KeyError` (besides fuel exhaustion). -/
theorem rightLoop_not_valueError :
    ∀ (fuel : ℕ) (st : St) (cf cs : ℕ) (seg : List ℕ),
      rightLoop fuel st cf cs seg ≠ .error .valueError := by
  intro fuel
  induction fuel with
  | zero => intro st cf cs seg h; simp [rightLoop] at h
  | succ fuel ih =>
    intro st cf cs seg h
    rw [rightLoop] at h
    cases hc : lookupKV st.firstD cs with
    | some corr =>
      rw [hc] at h
      cases hd : delKV st.secondD corr with
      | error e =>
        simp only [hd, exceptBind_error] at h
        obtain ⟨-, he⟩ := delKV_error_iff.mp hd
        rw [he] at h
        simp at h
      | ok s1 =>
        simp only [hd, exceptBind_ok] at h
        by_cases hcf : corr = cf
        · simp only [if_pos hcf, exceptPure] at h; cases h
        · rw [if_neg hcf] at h
          cases he1 : delEnd st.endD corr with
          | error e =>
            simp only [he1, exceptBind_error] at h
            obtain ⟨-, he⟩ := delEnd_error_iff.mp he1
            rw [he] at h
            simp at h
          | ok e1 =>
            simp only [he1, exceptBind_ok] at h
            by_cases hfv : sib corr = cf
            · simp only [if_pos hfv, exceptPure] at h; cases h
            · rw [if_neg hfv] at h
              cases he2 : delEnd e1 (sib corr) with
              | error e =>
                simp only [he2, exceptBind_error] at h
                obtain ⟨-, he⟩ := delEnd_error_iff.mp he2
                rw [he] at h
                simp at h
              | ok e2 =>
                simp only [he2, exceptBind_ok] at h
                exact ih _ _ _ _ h
    | none =>
      rw [hc] at h
      cases hc2 : lookupKV st.secondD cs with
      | some corr =>
        rw [hc2] at h
        cases hd : delKV st.firstD corr with
        | error e =>
          simp only [hd, exceptBind_error] at h
          obtain ⟨-, he⟩ := delKV_error_iff.mp hd
          rw [he] at h
          simp at h
        | ok f1 =>
          simp only [hd, exceptBind_ok] at h
          by_cases hcf : corr = cf
          · simp only [if_pos hcf, exceptPure] at h; cases h
          · rw [if_neg hcf] at h
            cases he1 : delEnd st.endD corr with
            | error e =>
              simp only [he1, exceptBind_error] at h
              obtain ⟨-, he⟩ := delEnd_error_iff.mp he1
              rw [he] at h
              simp at h
            | ok e1 =>
              simp only [he1, exceptBind_ok] at h
              by_cases hfv : sib corr = cf
              · simp only [if_pos hfv, exceptPure] at h; cases h
              · rw [if_neg hfv] at h
                cases he2 : delEnd e1 (sib corr) with
                | error e =>
                  simp only [he2, exceptBind_error] at h
                  obtain ⟨-, he⟩ := delEnd_error_iff.mp he2
                  rw [he] at h
                  simp at h
                | ok e2 =>
                  simp only [he2, exceptBind_ok] at h
                  exact ih _ _ _ _ h
      | none =>
        rw [hc2] at h
        simp only [exceptPure] at h
        cases h

/-- The left-extension loop never raises numpy's `ValueError`. -/
theorem leftLoop_not_valueError :
    ∀ (fuel : ℕ) (st : St) (cf : ℕ) (seg : List ℕ),
      leftLoop fuel st cf seg ≠ .error .valueError := by
  intro fuel
  induction fuel with
  | zero => intro st cf seg h; simp [leftLoop] at h
  | succ fuel ih =>
    intro st cf seg h
    rw [leftLoop] at h
    cases hc : lookupKV st.firstD cf with
    | some corr =>
      rw [hc] at h
      cases hd : delKV st.secondD corr with
      | error e =>
        simp only [hd, exceptBind_error] at h
        obtain ⟨-, he⟩ := delKV_error_iff.mp hd
        rw [he] at h
        simp at h
      | ok s1 =>
        simp only [hd, exceptBind_ok] at h
        cases he1 : delEnd st.endD corr with
        | error e =>
          simp only [he1, exceptBind_error] at h
          obtain ⟨-, he⟩ := delEnd_error_iff.mp he1
          rw [he] at h
          simp at h
        | ok e1 =>
          simp only [he1, exceptBind_ok] at h
          cases he2 : delEnd e1 (sib corr) with
          | error e =>
            simp only [he2, exceptBind_error] at h
            obtain ⟨-, he⟩ := delEnd_error_iff.mp he2
            rw [he] at h
            simp at h
          | ok e2 =>
            simp only [he2, exceptBind_ok] at h
            exact ih _ _ _ h
    | none =>
      rw [hc] at h
      cases hc2 : lookupKV st.secondD cf with
      | some corr =>
        rw [hc2] at h
        cases hd : delKV st.firstD corr with
        | error e =>
          simp only [hd, exceptBind_error] at h
          obtain ⟨-, he⟩ := delKV_error_iff.mp hd
          rw [he] at h
          simp at h
        | ok f1 =>
          simp only [hd, exceptBind_ok] at h
          cases he1 : delEnd st.endD corr with
          | error e =>
            simp only [he1, exceptBind_error] at h
            obtain ⟨-, he⟩ := delEnd_error_iff.mp he1
            rw [he] at h
            simp at h
          | ok e1 =>
            simp only [he1, exceptBind_ok] at h
            cases he2 : delEnd e1 (sib corr) with
            | error e =>
              simp only [he2, exceptBind_error] at h
              obtain ⟨-, he⟩ := delEnd_error_iff.mp he2
              rw [he] at h
              simp at h
            | ok e2 =>
              simp only [he2, exceptBind_ok] at h
              exact ih _ _ _ h
      | none =>
        rw [hc2] at h
        simp only [exceptPure] at h
        cases h

/-- The assembly loop never raises numpy's `ValueError`: the only errors it
can surface are `KeyError`s. -/
theorem outerLoop_not_valueError :
    ∀ (fuel : ℕ) (st : St) (acc : List (List ℕ)),
      outerLoop fuel st acc ≠ .error .valueError := by
  intro fuel
  induction fuel with
  | zero =>
    intro st acc h
    obtain ⟨f, s, endD⟩ := st
    cases endD with
    | nil => simp [outerLoop] at h
    | cons j rest => simp [outerLoop] at h
  | succ fuel ih =>
    intro st acc h
    obtain ⟨f, s, endD⟩ := st
    cases endD with
    | nil => simp [outerLoop] at h
    | cons j rest =>
      rw [outerLoop] at h
      try dsimp only at h
      cases hd : delEnd rest (if j % 2 = 1 then j - 1 else j + 1) with
      | error e =>
        rw [hd] at h
        try dsimp only at h
        obtain ⟨-, he⟩ := delEnd_error_iff.mp hd
        rw [he] at h
        simp at h
      | ok e1 =>
        rw [hd] at h
        try dsimp only at h
        cases hr : rightLoop (f.length + 1)
            ⟨f, s, e1⟩ (if j % 2 = 1 then j - 1 else j)
            (if j % 2 = 1 then j else j + 1)
            [if j % 2 = 1 then j - 1 else j, if j % 2 = 1 then j else j + 1] with
        | error e =>
          rw [hr] at h
          try dsimp only at h
          cases h
          exact rightLoop_not_valueError _ _ _ _ _ hr
        | ok r =>
          obtain ⟨st1, seg1, skip⟩ := r
          rw [hr] at h
          try dsimp only at h
          cases skip with
          | true =>
            simp only [if_pos rfl] at h
            exact ih _ _ h
          | false =>
            simp only [Bool.false_eq_true, if_neg (by exact fun hh => hh)] at h
            cases hl : leftLoop (st1.firstD.length + 1) st1
                (if j % 2 = 1 then j - 1 else j) seg1 with
            | error e =>
              rw [hl] at h
              try dsimp only at h
              cases h
              exact leftLoop_not_valueError _ _ _ _ hl
            | ok r2 =>
              obtain ⟨st2, seg2⟩ := r2
              rw [hl] at h
              try dsimp only at h
              exact ih _ _ h

/-- The right-extension loop never raises a bare `IndexError` either: every
error it produces is a `KeyError` (besides fuel exhaustion). -/
theorem rightLoop_not_indexError :
    ∀ (fuel : ℕ) (st : St) (cf cs : ℕ) (seg : List ℕ),
      rightLoop fuel st cf cs seg ≠ .error .indexError := by
  intro fuel
  induction fuel with
  | zero => intro st cf cs seg h; simp [rightLoop] at h
  | succ fuel ih =>
    intro st cf cs seg h
    rw [rightLoop] at h
    cases hc : lookupKV st.firstD cs with
    | some corr =>
      rw [hc] at h
      cases hd : delKV st.secondD corr with
      | error e =>
        simp only [hd, exceptBind_error] at h
        obtain ⟨-, he⟩ := delKV_error_iff.mp hd
        rw [he] at h
        simp at h
      | ok s1 =>
        simp only [hd, exceptBind_ok] at h
        by_cases hcf : corr = cf
        · simp only [if_pos hcf, exceptPure] at h; cases h
        · rw [if_neg hcf] at h
          cases he1 : delEnd st.endD corr with
          | error e =>
            simp only [he1, exceptBind_error] at h
            obtain ⟨-, he⟩ := delEnd_error_iff.mp he1
            rw [he] at h
            simp at h
          | ok e1 =>
            simp only [he1, exceptBind_ok] at h
            by_cases hfv : sib corr = cf
            · simp only [if_pos hfv, exceptPure] at h; cases h
            · rw [if_neg hfv] at h
              cases he2 : delEnd e1 (sib corr) with
              | error e =>
                simp only [he2, exceptBind_error] at h
                obtain ⟨-, he⟩ := delEnd_error_iff.mp he2
                rw [he] at h
                simp at h
              | ok e2 =>
                simp only [he2, exceptBind_ok] at h
                exact ih _ _ _ _ h
    | none =>
      rw [hc] at h
      cases hc2 : lookupKV st.secondD cs with
      | some corr =>
        rw [hc2] at h
        cases hd : delKV st.firstD corr with
        | error e =>
          simp only [hd, exceptBind_error] at h
          obtain ⟨-, he⟩ := delKV_error_iff.mp hd
          rw [he] at h
          simp at h
        | ok f1 =>
          simp only [hd, exceptBind_ok] at h
          by_cases hcf : corr = cf
          · simp only [if_pos hcf, exceptPure] at h; cases h
          · rw [if_neg hcf] at h
            cases he1 : delEnd st.endD corr with
            | error e =>
              simp only [he1, exceptBind_error] at h
              obtain ⟨-, he⟩ := delEnd_error_iff.mp he1
              rw [he] at h
              simp at h
            | ok e1 =>
              simp only [he1, exceptBind_ok] at h
              by_cases hfv : sib corr = cf
              · simp only [if_pos hfv, exceptPure] at h; cases h
              · rw [if_neg hfv] at h
                cases he2 : delEnd e1 (sib corr) with
                | error e =>
                  simp only [he2, exceptBind_error] at h
                  obtain ⟨-, he⟩ := delEnd_error_iff.mp he2
                  rw [he] at h
                  simp at h
                | ok e2 =>
                  simp only [he2, exceptBind_ok] at h
                  exact ih _ _ _ _ h
      | none =>
        rw [hc2] at h
        simp only [exceptPure] at h
        cases h

/-- The left-extension loop never raises a bare `IndexError`. -/
theorem leftLoop_not_indexError :
    ∀ (fuel : ℕ) (st : St) (cf : ℕ) (seg : List ℕ),
      leftLoop fuel st cf seg ≠ .error .indexError := by
  intro fuel
  induction fuel with
  | zero => intro st cf seg h; simp [leftLoop] at h
  | succ fuel ih =>
    intro st cf seg h
    rw [leftLoop] at h
    cases hc : lookupKV st.firstD cf with
    | some corr =>
      rw [hc] at h
      cases hd : delKV st.secondD corr with
      | error e =>
        simp only [hd, exceptBind_error] at h
        obtain ⟨-, he⟩ := delKV_error_iff.mp hd
        rw [he] at h
        simp at h
      | ok s1 =>
        simp only [hd, exceptBind_ok] at h
        cases he1 : delEnd st.endD corr with
        | error e =>
          simp only [he1, exceptBind_error] at h
          obtain ⟨-, he⟩ := delEnd_error_iff.mp he1
          rw [he] at h
          simp at h
        | ok e1 =>
          simp only [he1, exceptBind_ok] at h
          cases he2 : delEnd e1 (sib corr) with
          | error e =>
            simp only [he2, exceptBind_error] at h
            obtain ⟨-, he⟩ := delEnd_error_iff.mp he2
            rw [he] at h
            simp at h
          | ok e2 =>
            simp only [he2, exceptBind_ok] at h
            exact ih _ _ _ h
    | none =>
      rw [hc] at h
      cases hc2 : lookupKV st.secondD cf with
      | some corr =>
        rw [hc2] at h
        cases hd : delKV st.firstD corr with
        | error e =>
          simp only [hd, exceptBind_error] at h
          obtain ⟨-, he⟩ := delKV_error_iff.mp hd
          rw [he] at h
          simp at h
        | ok f1 =>
          simp only [hd, exceptBind_ok] at h
          cases he1 : delEnd st.endD corr with
          | error e =>
            simp only [he1, exceptBind_error] at h
            obtain ⟨-, he⟩ := delEnd_error_iff.mp he1
            rw [he] at h
            simp at h
          | ok e1 =>
            simp only [he1, exceptBind_ok] at h
            cases he2 : delEnd e1 (sib corr) with
            | error e =>
              simp only [he2, exceptBind_error] at h
              obtain ⟨-, he⟩ := delEnd_error_iff.mp he2
              rw [he] at h
              simp at h
            | ok e2 =>
              simp only [he2, exceptBind_ok] at h
              exact ih _ _ _ h
      | none =>
        rw [hc2] at h
        simp only [exceptPure] at h
        cases h

/-- The assembly loop never raises a bare `IndexError`: the only errors it
can surface are `KeyError`s (the handler's own `IndexError` arises later,
outside the `try` block's loops). -/
theorem outerLoop_not_indexError :
    ∀ (fuel : ℕ) (st : St) (acc : List (List ℕ)),
      outerLoop fuel st acc ≠ .error .indexError := by
  intro fuel
  induction fuel with
  | zero =>
    intro st acc h
    obtain ⟨f, s, endD⟩ := st
    cases endD with
    | nil => simp [outerLoop] at h
    | cons j rest => simp [outerLoop] at h
  | succ fuel ih =>
    intro st acc h
    obtain ⟨f, s, endD⟩ := st
    cases endD with
    | nil => simp [outerLoop] at h
    | cons j rest =>
      rw [outerLoop] at h
      try dsimp only at h
      cases hd : delEnd rest (if j % 2 = 1 then j - 1 else j + 1) with
      | error e =>
        rw [hd] at h
        try dsimp only at h
        obtain ⟨-, he⟩ := delEnd_error_iff.mp hd
        rw [he] at h
        simp at h
      | ok e1 =>
        rw [hd] at h
        try dsimp only at h
        cases hr : rightLoop (f.length + 1)
            ⟨f, s, e1⟩ (if j % 2 = 1 then j - 1 else j)
            (if j % 2 = 1 then j else j + 1)
            [if j % 2 = 1 then j - 1 else j, if j % 2 = 1 then j else j + 1] with
        | error e =>
          rw [hr] at h
          try dsimp only at h
          cases h
          exact rightLoop_not_indexError _ _ _ _ _ hr
        | ok r =>
          obtain ⟨st1, seg1, skip⟩ := r
          rw [hr] at h
          try dsimp only at h
          cases skip with
          | true =>
            simp only [if_pos rfl] at h
            exact ih _ _ h
          | false =>
            simp only [Bool.false_eq_true, if_neg (by exact fun hh => hh)] at h
            cases hl : leftLoop (st1.firstD.length + 1) st1
                (if j % 2 = 1 then j - 1 else j) seg1 with
            | error e =>
              rw [hl] at h
              try dsimp only at h
              cases h
              exact leftLoop_not_indexError _ _ _ _ hl
            | ok r2 =>
              obtain ⟨st2, seg2⟩ := r2
              rw [hl] at h
              try dsimp only at h
              exact ih _ _ h

/-- Every successful outer-loop run extends the accumulator, by one curve per
iteration; in particular a run started on a non-empty available-endpoint set
returns at least one curve. -/
theorem outerLoop_ok_append :
    ∀ (fuel : ℕ) (st : St) (acc res : List (List ℕ)),
      outerLoop fuel st acc = .ok res →
      ∃ t, res = acc ++ t ∧ (t = [] ↔ st.endD = []) := by
  intro fuel
  induction fuel with
  | zero =>
    intro st acc res h
    obtain ⟨f, s, endD⟩ := st
    cases endD with
    | nil =>
      simp only [outerLoop] at h
      cases h
      exact ⟨[], by simp⟩
    | cons j rest => simp [outerLoop] at h
  | succ fuel ih =>
    intro st acc res h
    obtain ⟨f, s, endD⟩ := st
    cases endD with
    | nil =>
      simp only [outerLoop] at h
      cases h
      exact ⟨[], by simp⟩
    | cons j rest =>
      rw [outerLoop] at h
      try dsimp only at h
      cases hd : delEnd rest (if j % 2 = 1 then j - 1 else j + 1) with
      | error e => rw [hd] at h; cases h
      | ok e1 =>
        rw [hd] at h
        try dsimp only at h
        cases hr : rightLoop (f.length + 1)
            ⟨f, s, e1⟩ (if j % 2 = 1 then j - 1 else j)
            (if j % 2 = 1 then j else j + 1)
            [if j % 2 = 1 then j - 1 else j, if j % 2 = 1 then j else j + 1] with
        | error e => rw [hr] at h; cases h
        | ok r =>
          obtain ⟨st1, seg1, skip⟩ := r
          rw [hr] at h
          try dsimp only at h
          cases skip with
          | true =>
            simp only [if_pos rfl] at h
            obtain ⟨t, rfl, -⟩ := ih _ _ _ h
            exact ⟨seg1 :: t, by simp, by simp⟩
          | false =>
            simp only [Bool.false_eq_true, if_neg (by exact fun hh => hh)] at h
            cases hl : leftLoop (st1.firstD.length + 1) st1
                (if j % 2 = 1 then j - 1 else j) seg1 with
            | error e => rw [hl] at h; cases h
            | ok r2 =>
              obtain ⟨st2, seg2⟩ := r2
              rw [hl] at h
              try dsimp only at h
              obtain ⟨t, rfl, -⟩ := ih _ _ _ h
              exact ⟨seg2 :: t, by simp, by simp⟩

end CombineSegments

namespace CombineSegments

/-- C7: `generate_curves` terminates on every input: the fuel given to the
outer loop (one unit per available endpoint, which strictly shrinks every
iteration) and to the extension loops (one unit per equivalence entry) is
never exhausted, and the loops halt once the available-endpoint set is empty
or a `KeyError` is detected. -/
theorem generate_curves_no_fuel_exhaustion (a : Arr3) (tol : ℚ) :
    generate_curves a tol ≠ .error .noFuel := by
  unfold generate_curves
  split
  · split
    · simp
    · cases hr : runAssembly a tol with
      | ok segs => simp
      | error e =>
        cases e with
        | keyError k =>
          dsimp only
          split <;> simp
        | valueError =>
          dsimp only
          decide
        | indexError =>
          dsimp only
          decide
        | noFuel =>
          have hb := outerLoop_noFuel_bound _ _ _ hr
          simp only [initSt, List.length_reverse, List.length_range] at hb
          exact absurd hb (by omega)
  · decide

/-- C1: when the assembly raises `KeyError k`, `generate_curves` discards
every curve produced so far and never returns a partial list.  When the key
indexes a row of `base_points` — which holds whenever the removal of an
already-consumed endpoint key fired, the claim's invalid-topology scenario —
the call returns the empty list and surfaces the offending point's
coordinates `base_points[k]`.  When the key is out of range (possible only
for inputs with an odd point count, which have no sibling for the last
endpoint), the handler itself crashes: `base_points[int(str(e))]` raises an
uncaught `IndexError` and the function returns nothing at all. -/
theorem generate_curves_aborts_on_invalid_topology (a : Arr3) (tol : ℚ) (k : ℕ)
    (hre : numPoints a * a.n = a.data.length) (hn : a.n ≠ 0)
    (herr : runAssembly a tol = .error (.keyError k)) :
    (k < numPoints a →
      generate_curves a tol = .ok ([], some (basePoint a k))) ∧
    (numPoints a ≤ k → generate_curves a tol = .error .indexError) := by
  unfold generate_curves
  rw [if_pos hre, if_neg hn, herr]
  constructor
  · intro hk
    dsimp only
    rw [if_pos hk]
  · intro hk
    dsimp only
    rw [if_neg (by omega)]

/-- Witness for C1, exercising both branches: a star topology (three
segments sharing the location `(0,0)`) aborts with the in-range `KeyError 2`
and returns no curves, surfacing `[0,0]`; the one-point input `⟨2, [1,2]⟩`
(Python `[[[1,2]]]`) aborts with the out-of-range `KeyError 1` and the
handler crashes with the uncaught `IndexError`. -/
theorem generate_curves_aborts_on_invalid_topology_witness :
    (runAssembly (segsArr 2 [([0,0],[1,1]), ([0,0],[2,2]), ([0,0],[3,3])]) 1
        = .error (.keyError 2) ∧
      generate_curves (segsArr 2 [([0,0],[1,1]), ([0,0],[2,2]), ([0,0],[3,3])]) 1
        = .ok ([], some [0, 0])) ∧
    (runAssembly (⟨2, [1, 2]⟩ : Arr3) 1 = .error (.keyError 1) ∧
      generate_curves (⟨2, [1, 2]⟩ : Arr3) 1 = .error .indexError) :=
  ⟨⟨by decide,
    (generate_curves_aborts_on_invalid_topology _ 1 2 (by decide) (by decide)
      (by decide)).1 (by decide)⟩,
   ⟨by decide,
    (generate_curves_aborts_on_invalid_topology _ 1 1 (by decide) (by decide)
      (by decide)).2 (by decide)⟩⟩

/-- C2 (code bug): the extend-left phase *appends* points at the end of the
chain (source line 231 `current_segment.append(final_value)`) instead of
prepending.  On the two-segment chain `(0,0)-(1,1)-(2,2)` the emitted curve is
`[(1,1),(2,2),(0,0)]`: its consecutive points `(2,2),(0,0)` are endpoints of
no input segment and are not coincident (second conjunct), contradicting both
the claim and the source's own docstring ("all connected curves"). -/
theorem generate_curves_left_extension_appends :
    generate_curves (segsArr 2 [([0,0],[1,1]), ([1,1],[2,2])]) 1
        = .ok ([[[1,1],[2,2],[0,0]]], none) ∧
    allClose 1 [2,2] [0,0] = false :=
  ⟨by decide, by decide⟩

/-- C8 (code bug): shuffling the input changes the output beyond reversal.
The same two-segment open chain input in its two orders yields
`[(1,1),(2,2),(0,0)]` and `[(0,0),(1,1),(2,2)]`, which differ and are not
reversals of each other; the final conjunct records that the curve is open
(first and last points differ), so the claim's rotation allowance for closed
curves does not apply. -/
theorem generate_curves_output_depends_on_input_order :
    generate_curves (segsArr 2 [([0,0],[1,1]), ([1,1],[2,2])]) 1
        = .ok ([[[1,1],[2,2],[0,0]]], none) ∧
    generate_curves (segsArr 2 [([1,1],[2,2]), ([0,0],[1,1])]) 1
        = .ok ([[[0,0],[1,1],[2,2]]], none) ∧
    ([[1,1],[2,2],[0,0]] : List Pt) ≠ [[0,0],[1,1],[2,2]] ∧
    ([[1,1],[2,2],[0,0]] : List Pt) ≠ ([[0,0],[1,1],[2,2]] : List Pt).reverse ∧
    ([[1,1],[2,2],[0,0]] : List Pt).head? ≠ ([[1,1],[2,2],[0,0]] : List Pt).getLast? :=
  ⟨by decide, by decide, by decide, by decide, by decide⟩

/-- C10: an input of shape `(0, 2, n)` with `n ≥ 1` (no segments) returns the
empty list without raising any error and with no topology diagnostic. -/
theorem generate_curves_zero_segments_ok (n : ℕ) (hn : 1 ≤ n) (tol : ℚ) :
    generate_curves (⟨n, []⟩ : Arr3) tol = .ok ([], none) := by
  have h0 : numPoints ⟨n, []⟩ = 0 := by simp [numPoints]
  have hrun : runAssembly (⟨n, []⟩ : Arr3) tol = .ok [] := by
    unfold runAssembly initSt
    rw [h0]
    simp [outerLoop]
  unfold generate_curves
  rw [if_pos (by rw [h0]; simp), if_neg (by dsimp only; omega), hrun]
  rfl

/-- Witness for C10 at `n = 2`. -/
theorem generate_curves_zero_segments_ok_witness :
    generate_curves (⟨2, []⟩ : Arr3) 5 = .ok ([], none) :=
  generate_curves_zero_segments_ok 2 (by decide) 5

/-- Counterexample to C5 as stated: the empty input (shape `(0,2,2)`) returns
the empty list with no topology error detected — so an empty result does not
imply that a location shared by more than two endpoints was found. -/
theorem generate_curves_empty_list_without_topology_error :
    generate_curves (⟨2, []⟩ : Arr3) 1 = .ok ([], none) ∧ (⟨2, []⟩ : Arr3).data = [] :=
  ⟨by decide, rfl⟩

/-- C5 (amended): a successful call returns the empty curve list iff either
the `KeyError` diagnostic fired (invalid topology was detected) or the input
contains no points at all. -/
theorem generate_curves_empty_iff_error_or_no_segments (a : Arr3) (tol : ℚ)
    (cs : List (List Pt)) (d : Option Pt)
    (h : generate_curves a tol = .ok (cs, d)) :
    cs = [] ↔ (d.isSome ∨ a.data = []) := by
  unfold generate_curves at h
  split at h
  · rename_i hre
    split at h
    · cases h
    · rename_i hn
      cases hr : runAssembly a tol with
      | ok segs =>
        rw [hr] at h
        try dsimp only at h
        cases h
        obtain ⟨t, hteq, ht⟩ := outerLoop_ok_append _ _ _ _ hr
        simp only [initSt] at ht
        simp only [List.nil_append] at hteq
        rw [hteq]
        constructor
        · intro hml
          right
          have ht0 : t = [] := by simpa using hml
          have h0 : (List.range (numPoints a)).reverse = [] := ht.mp ht0
          have hnp : numPoints a = 0 := by simpa using h0
          have hlen : a.data.length = 0 := by
            rw [← hre, hnp]
            ring
          exact List.length_eq_zero.mp hlen
        · intro hdat
          rcases hdat with hdat | hdat
          · simp at hdat
          · have hnp : numPoints a = 0 := by simp [numPoints, hdat]
            have ht0 : t = [] := ht.mpr (by simp [hnp])
            simp [ht0]
      | error e =>
        cases e with
        | keyError k =>
          rw [hr] at h
          try dsimp only at h
          split at h
          · cases h
            simp
          · cases h
        | valueError => exact absurd hr (outerLoop_not_valueError _ _ _)
        | indexError => exact absurd hr (outerLoop_not_indexError _ _ _)
        | noFuel =>
          exfalso
          have hb := outerLoop_noFuel_bound _ _ _ hr
          simp only [initSt, List.length_reverse, List.length_range] at hb
          omega
  · cases h

/-- Witness for the amended C5: a one-segment input returns one curve, no
diagnostic, and non-empty data, instantiating the iff. -/
theorem generate_curves_empty_iff_witness :
    (([[[0,0],[1,1]]] : List (List Pt)) = []
      ↔ ((none : Option Pt)).isSome ∨ ((segsArr 2 [([0,0],[1,1])]).data = [])) :=
  generate_curves_empty_iff_error_or_no_segments (segsArr 2 [([0,0],[1,1])]) 1 _ _ (by decide)

/-- Counterexample to C9 as stated: a malformed input whose segments have
*three* points each (shape `(2,3,2)`, not decomposable into point pairs) is
not rejected: its flat size is compatible with the reshape, so the traversal
runs and returns three curves that pair points across segment boundaries. -/
theorem generate_curvesL_nonpairable_shape_no_failfast :
    generate_curvesL [[[0,0],[1,1],[2,2]],[[3,3],[4,4],[5,5]]] 1
      = .ok ([[[4,4],[5,5]], [[2,2],[3,3]], [[0,0],[1,1]]], none) := by decide

/-- C9 (amended): on a nested-list input, an uncaught `ValueError` (the
input-validation failure channel, distinct from the caught-`KeyError`
topology diagnostic) occurs before any traversal, and it occurs exactly when
the nesting is ragged, or the flat size is incompatible with the
`(size//2, n)` reshape, or the coordinate dimension is zero (`np.lexsort`
with no keys).  All other inputs proceed into traversal. -/
theorem generate_curvesL_valueError_iff (ls : List (List (List ℚ))) (tol : ℚ) :
    generate_curvesL ls tol = .error .valueError ↔
      (asarray3 ls = .error .valueError ∨
        ∃ a, asarray3 ls = .ok a ∧
          (¬ numPoints a * a.n = a.data.length ∨ a.n = 0)) := by
  unfold generate_curvesL
  cases ha : asarray3 ls with
  | error e =>
    have he : e = .valueError := by
      unfold asarray3 at ha
      split at ha
      · cases ha
      · split at ha
        · split at ha
          · cases ha
          · cases ha; rfl
        · split at ha
          · cases ha
          · cases ha; rfl
    subst he
    simp
  | ok a =>
    dsimp only
    constructor
    · intro h
      right
      refine ⟨a, rfl, ?_⟩
      unfold generate_curves at h
      split at h
      · rename_i hre
        split at h
        · rename_i hn
          exact Or.inr hn
        · exfalso
          cases hr : runAssembly a tol with
          | ok segs => rw [hr] at h; cases h
          | error e =>
            cases e with
            | keyError k =>
              rw [hr] at h
              try dsimp only at h
              split at h
              · cases h
              · cases h
            | valueError => exact absurd hr (outerLoop_not_valueError _ _ _)
            | indexError => exact absurd hr (outerLoop_not_indexError _ _ _)
            | noFuel =>
              have hb := outerLoop_noFuel_bound _ _ _ hr
              simp only [initSt, List.length_reverse, List.length_range] at hb
              omega
      · rename_i hre
        exact Or.inl hre
    · intro h
      rcases h with h | ⟨a2, ha2, h⟩
      · cases h
      · cases ha2
        unfold generate_curves
        rcases h with h | h
        · rw [if_neg h]
        · by_cases hre2 : numPoints a * a.n = a.data.length
          · rw [if_pos hre2, if_pos h]
          · rw [if_neg hre2]

end CombineSegments

namespace CombineSegments

theorem sortedIdx_perm (a : Arr3) : (sortedIdx a).Perm (List.range (numPoints a)) :=
  List.perm_insertionSort _ _

theorem sortedIdx_length (a : Arr3) : (sortedIdx a).length = numPoints a := by
  rw [(sortedIdx_perm a).length_eq, List.length_range]

theorem mem_sortedIdx {a : Arr3} {i : ℕ} : i ∈ sortedIdx a ↔ i < numPoints a := by
  rw [(sortedIdx_perm a).mem_iff, List.mem_range]

theorem sortedIdx_nodup (a : Arr3) : (sortedIdx a).Nodup :=
  ((sortedIdx_perm a).nodup_iff).mpr (List.nodup_range _)

theorem rollOne_length (l : List ℕ) : (rollOne l).length = l.length := by
  unfold rollOne
  cases hl : l.getLast? with
  | none =>
    have : l = [] := by simpa using hl
    simp [this]
  | some x =>
    have hne : l ≠ [] := by
      intro h
      rw [h] at hl
      simp at hl
    have hpos : 0 < l.length := List.length_pos.mpr hne
    simp only [List.length_cons, List.length_dropLast]
    omega

theorem rollOne_subset {l : List ℕ} {x : ℕ} (h : x ∈ rollOne l) : x ∈ l := by
  unfold rollOne at h
  cases hl : l.getLast? with
  | none => rw [hl] at h; cases h
  | some y =>
    rw [hl] at h
    rcases List.mem_cons.mp h with h | h
    · subst h
      have hy : x ∈ l.getLast? := by simp [hl]
      obtain ⟨h2, h3⟩ := List.mem_getLast?_eq_getLast hy
      rw [h3]
      exact List.getLast_mem h2
    · exact (List.dropLast_sublist l).subset h

theorem basePoint_length (a : Arr3) (hre : numPoints a * a.n = a.data.length)
    {i : ℕ} (hi : i < numPoints a) : (basePoint a i).length = a.n := by
  unfold basePoint
  rw [List.length_take, List.length_drop]
  have h1 : (i + 1) * a.n ≤ numPoints a * a.n := Nat.mul_le_mul_right _ hi
  rw [Nat.succ_mul] at h1
  omega

theorem allClose_iff_forall (tol : ℚ) :
    ∀ (p q : Pt), p.length = q.length →
      (allClose tol p q = true ↔ ∀ ax < p.length, |p.getD ax 0 - q.getD ax 0| < tol)
  | [], [], _ => by simp [allClose]
  | [], y :: ys, h => by simp at h
  | x :: xs, [], h => by simp at h
  | x :: xs, y :: ys, h => by
    have hlen : xs.length = ys.length := by simpa using h
    have ih := allClose_iff_forall tol xs ys hlen
    simp only [allClose, List.zipWith_cons_cons, List.all_cons, Bool.and_eq_true] at *
    constructor
    · rintro ⟨h1, h2⟩ ax hax
      cases ax with
      | zero =>
        simpa using (absSub_lt_iff x y tol).mp h1
      | succ ax =>
        simp only [List.getD_cons_succ]
        exact ih.mp h2 ax (by simpa using hax)
    · intro hall
      refine ⟨(absSub_lt_iff x y tol).mpr ?_, ih.mpr ?_⟩
      · simpa using hall 0 (by simp)
      · intro ax hax
        simpa using hall (ax + 1) (by simpa using hax)

end CombineSegments

namespace CombineSegments

/-- C4: for every position of the lexicographically sorted endpoint order
(including the wraparound position 0, which compares the first sorted point
with the last), the matcher records the adjacent pair as equivalent iff on
every axis the absolute coordinate difference is strictly less than the
tolerance.  Combined with `ratSubLt_iff`, two points differing by exactly the
tolerance on some axis are not merged; points differing by less on every axis
are merged. -/
theorem equalIdxPairs_adjacent_iff (a : Arr3) (tol : ℚ)
    (hre : numPoints a * a.n = a.data.length) (pos : ℕ) (hpos : pos < numPoints a) :
    ((rollOne (sortedIdx a)).getD pos 0, (sortedIdx a).getD pos 0) ∈ equalIdxPairs a tol
      ↔ ∀ ax < a.n,
          |(basePoint a ((rollOne (sortedIdx a)).getD pos 0)).getD ax 0
            - (basePoint a ((sortedIdx a).getD pos 0)).getD ax 0| < tol := by
  have hlen : (sortedIdx a).length = numPoints a := sortedIdx_length a
  have hlenr : (rollOne (sortedIdx a)).length = numPoints a := by
    rw [rollOne_length, hlen]
  have hposr : pos < (rollOne (sortedIdx a)).length := by omega
  have hposs : pos < (sortedIdx a).length := by omega
  have hi : (rollOne (sortedIdx a)).getD pos 0 < numPoints a := by
    rw [List.getD_eq_getElem _ _ hposr]
    exact mem_sortedIdx.mp (rollOne_subset (List.getElem_mem _))
  have hj : (sortedIdx a).getD pos 0 < numPoints a := by
    rw [List.getD_eq_getElem _ _ hposs]
    exact mem_sortedIdx.mp (List.getElem_mem _)
  have hleni : (basePoint a ((rollOne (sortedIdx a)).getD pos 0)).length = a.n :=
    basePoint_length a hre hi
  have hlenj : (basePoint a ((sortedIdx a).getD pos 0)).length = a.n :=
    basePoint_length a hre hj
  have hz : pos < (List.zip (rollOne (sortedIdx a)) (sortedIdx a)).length := by
    rw [List.length_zip]
    omega
  have hmemzip : ((rollOne (sortedIdx a)).getD pos 0, (sortedIdx a).getD pos 0)
      ∈ List.zip (rollOne (sortedIdx a)) (sortedIdx a) := by
    rw [List.getD_eq_getElem _ _ hposr, List.getD_eq_getElem _ _ hposs]
    have hget : (List.zip (rollOne (sortedIdx a)) (sortedIdx a))[pos]
        = ((rollOne (sortedIdx a))[pos], (sortedIdx a)[pos]) := List.getElem_zip
    rw [← hget]
    exact List.getElem_mem _
  unfold equalIdxPairs
  rw [List.mem_filter]
  constructor
  · rintro ⟨-, hp⟩
    simp only at hp
    have h2 := (allClose_iff_forall tol _ _ (by rw [hleni, hlenj])).mp hp
    rwa [hleni] at h2
  · intro hall
    refine ⟨hmemzip, ?_⟩
    simp only
    exact (allClose_iff_forall tol _ _ (by rw [hleni, hlenj])).mpr (by rwa [hleni])

end CombineSegments

namespace CombineSegments

/-- Witness for C4, both boundary directions at tolerance 1: sorted-adjacent
endpoints `(10,0)` and `(10,1)` differ by exactly the tolerance on axis 1 and
are not merged; exactly coincident endpoints `(10,0)`, `(10,0)` are merged. -/
theorem equalIdxPairs_adjacent_iff_witness :
    ((1:ℕ), (2:ℕ)) ∉ equalIdxPairs (segsArr 2 [([0,0],[10,0]), ([10,1],[20,0])]) 1 ∧
    ((1:ℕ), (2:ℕ)) ∈ equalIdxPairs (segsArr 2 [([0,0],[10,0]), ([10,0],[20,0])]) 1 := by
  constructor
  · intro hmem
    have e1 : (rollOne (sortedIdx (segsArr 2 [([0,0],[10,0]), ([10,1],[20,0])]))).getD 2 0 = 1 := by
      decide
    have e2 : (sortedIdx (segsArr 2 [([0,0],[10,0]), ([10,1],[20,0])])).getD 2 0 = 2 := by
      decide
    have h := (equalIdxPairs_adjacent_iff (segsArr 2 [([0,0],[10,0]), ([10,1],[20,0])]) 1
        (by decide) 2 (by decide)).mp (by rw [e1, e2]; exact hmem)
    have h1 := h 1 (by decide)
    rw [e1, e2] at h1
    have b1 : (basePoint (segsArr 2 [([0,0],[10,0]), ([10,1],[20,0])]) 1).getD 1 0 = 0 := by
      decide
    have b2 : (basePoint (segsArr 2 [([0,0],[10,0]), ([10,1],[20,0])]) 2).getD 1 0 = 1 := by
      decide
    rw [b1, b2] at h1
    norm_num at h1
  · have e1 : (rollOne (sortedIdx (segsArr 2 [([0,0],[10,0]), ([10,0],[20,0])]))).getD 2 0 = 1 := by
      decide
    have e2 : (sortedIdx (segsArr 2 [([0,0],[10,0]), ([10,0],[20,0])])).getD 2 0 = 2 := by
      decide
    have h := (equalIdxPairs_adjacent_iff (segsArr 2 [([0,0],[10,0]), ([10,0],[20,0])]) 1
        (by decide) 2 (by decide)).mpr ?_
    · rw [e1, e2] at h
      exact h
    · intro ax hax
      rw [e1, e2]
      have hbb : basePoint (segsArr 2 [([0,0],[10,0]), ([10,0],[20,0])]) 1
          = basePoint (segsArr 2 [([0,0],[10,0]), ([10,0],[20,0])]) 2 := by decide
      rw [hbb]
      simp

end CombineSegments

namespace CombineSegments

theorem sib_sib (j : ℕ) : sib (sib j) = j := by
  unfold sib
  rcases Nat.mod_two_eq_zero_or_one j with h | h
  · have h1 : (j + 1) % 2 = 1 := by omega
    simp [h, h1]
  · have h0 : (j - 1) % 2 = 0 := by omega
    simp [h, h0]
    omega

theorem sib_ne (j : ℕ) : sib j ≠ j := by
  unfold sib
  rcases Nat.mod_two_eq_zero_or_one j with h | h <;> (simp [h]; try omega)

theorem segOf_sib (j : ℕ) : segOf (sib j) = segOf j := by
  unfold segOf sib
  rcases Nat.mod_two_eq_zero_or_one j with h | h <;> (simp [h]; try omega)

theorem segOf_eq_iff (x y : ℕ) : segOf x = segOf y ↔ (y = x ∨ y = sib x) := by
  unfold segOf sib
  rcases Nat.mod_two_eq_zero_or_one x with h | h <;> (simp [h]; try omega)

end CombineSegments

namespace CombineSegments

theorem mem_pairMentions {l : List (ℕ × ℕ)} {x : ℕ} :
    x ∈ pairMentions l ↔ ∃ p ∈ l, x = p.1 ∨ x = p.2 := by
  unfold pairMentions
  simp [List.mem_flatMap]

theorem mem_pairMentions_left {l : List (ℕ × ℕ)} {x y : ℕ} (h : (x, y) ∈ l) :
    x ∈ pairMentions l :=
  mem_pairMentions.mpr ⟨(x, y), h, Or.inl rfl⟩

theorem mem_pairMentions_right {l : List (ℕ × ℕ)} {x y : ℕ} (h : (x, y) ∈ l) :
    y ∈ pairMentions l :=
  mem_pairMentions.mpr ⟨(x, y), h, Or.inr rfl⟩

theorem eraseKey_sublist (l : List (ℕ × ℕ)) (k : ℕ) : (eraseKey l k).Sublist l := by
  induction l with
  | nil => simp [eraseKey]
  | cons p t ih =>
    obtain ⟨a, b⟩ := p
    unfold eraseKey
    split
    · exact (List.sublist_cons_self _ _)
    · exact ih.cons₂ _

theorem pairMentions_sublist {l' l : List (ℕ × ℕ)} (h : l'.Sublist l) :
    (pairMentions l').Sublist (pairMentions l) := by
  unfold pairMentions
  induction h with
  | slnil => simp
  | cons p h ih => exact ih.trans (List.sublist_append_right _ _)
  | cons₂ p h ih => exact List.Sublist.append (List.Sublist.refl _) ih

theorem lookupKV_mem {l : List (ℕ × ℕ)} {k v : ℕ} (h : lookupKV l k = some v) :
    (k, v) ∈ l := by
  induction l with
  | nil => simp [lookupKV] at h
  | cons p t ih =>
    obtain ⟨a, b⟩ := p
    unfold lookupKV at h
    split at h
    · rename_i ha
      cases h
      subst ha
      exact List.mem_cons_self _ _
    · exact List.mem_cons_of_mem _ (ih h)

theorem lookupKV_eq_none_iff {l : List (ℕ × ℕ)} {k : ℕ} :
    lookupKV l k = none ↔ ∀ v, (k, v) ∉ l := by
  induction l with
  | nil => simp [lookupKV]
  | cons p t ih =>
    obtain ⟨a, b⟩ := p
    unfold lookupKV
    split
    · rename_i ha
      subst ha
      simp
      exact ⟨b, fun hb => absurd rfl hb⟩
    · rename_i ha
      simp only [ih, List.mem_cons]
      constructor
      · intro h v hv
        rcases hv with hv | hv
        · cases hv; exact ha rfl
        · exact h v hv
      · intro h v hv
        exact h v (Or.inr hv)

theorem mentions_nodup_ne {l : List (ℕ × ℕ)} (hnd : (pairMentions l).Nodup)
    {x y : ℕ} (h : (x, y) ∈ l) : x ≠ y := by
  induction l with
  | nil => simp at h
  | cons p t ih =>
    obtain ⟨a, b⟩ := p
    unfold pairMentions at hnd
    simp only [List.flatMap_cons, List.cons_append, List.nil_append] at hnd
    rcases List.mem_cons.mp h with h | h
    · cases h
      intro hxy
      subst hxy
      simp at hnd
    · exact ih (hnd.of_cons.of_cons) h

end CombineSegments

namespace CombineSegments

theorem lookupKV_of_mem {l : List (ℕ × ℕ)} (hnd : (pairMentions l).Nodup)
    {k v : ℕ} (h : (k, v) ∈ l) : lookupKV l k = some v := by
  induction l with
  | nil => simp at h
  | cons p t ih =>
    obtain ⟨a, b⟩ := p
    unfold pairMentions at hnd
    simp only [List.flatMap_cons, List.cons_append, List.nil_append] at hnd
    rcases List.mem_cons.mp h with h | h
    · cases h
      unfold lookupKV
      simp
    · have hk : k ∈ pairMentions t := mem_pairMentions_left h
      have ha : a ≠ k := by
        intro haa
        subst haa
        exact (List.nodup_cons.mp hnd).1
          (List.mem_cons_of_mem _ (by simpa [pairMentions] using hk))
      unfold lookupKV
      rw [if_neg ha]
      exact ih (hnd.of_cons.of_cons) h

end CombineSegments

namespace CombineSegments

theorem mem_uniq_head {t : List (ℕ × ℕ)} {a b k v : ℕ}
    (hnd : (pairMentions ((a, b) :: t)).Nodup) (hak : a = k) (h : (k, v) ∈ (a, b) :: t) :
    b = v := by
  subst hak
  unfold pairMentions at hnd
  simp only [List.flatMap_cons, List.cons_append, List.nil_append] at hnd
  rcases List.mem_cons.mp h with h | h
  · injection h with h1 h2
    exact h2.symm
  · exfalso
    exact (List.nodup_cons.mp hnd).1
      (List.mem_cons_of_mem _ (by simpa [pairMentions] using mem_pairMentions_left h))

theorem erase_mentions {l : List (ℕ × ℕ)} (hnd : (pairMentions l).Nodup)
    {k v : ℕ} (h : (k, v) ∈ l) :
    ∀ z ∈ pairMentions (eraseKey l k), z ∈ pairMentions l ∧ z ≠ k ∧ z ≠ v := by
  induction l with
  | nil => simp at h
  | cons p t ih =>
    obtain ⟨a, b⟩ := p
    have hnd' := hnd
    unfold pairMentions at hnd'
    simp only [List.flatMap_cons, List.cons_append, List.nil_append] at hnd'
    intro z hz
    by_cases hak : a = k
    · have hbv : b = v := mem_uniq_head hnd hak h
      subst hak
      subst hbv
      unfold eraseKey at hz
      rw [if_pos rfl] at hz
      refine ⟨(pairMentions_sublist (List.sublist_cons_self _ _)).subset hz, ?_, ?_⟩
      · intro hzk
        subst hzk
        exact (List.nodup_cons.mp hnd').1
          (List.mem_cons_of_mem _ (by simpa [pairMentions] using hz))
      · intro hzv
        subst hzv
        exact (List.nodup_cons.mp (List.nodup_cons.mp hnd').2).1
          (by simpa [pairMentions] using hz)
    · have hmem : (k, v) ∈ t := by
        rcases List.mem_cons.mp h with h | h
        · injection h with h1 h2
          exact absurd h1.symm hak
        · exact h
      have hkt : k ∈ pairMentions t := mem_pairMentions_left hmem
      have hvt : v ∈ pairMentions t := mem_pairMentions_right hmem
      unfold eraseKey at hz
      rw [if_neg hak] at hz
      have hz' : z = a ∨ z = b ∨ z ∈ pairMentions (eraseKey t k) := by
        simpa [pairMentions] using hz
      have hna : a ∉ (b :: pairMentions t) := by
        simpa [pairMentions] using (List.nodup_cons.mp hnd').1
      have hnb : b ∉ pairMentions t := by
        simpa [pairMentions] using (List.nodup_cons.mp (List.nodup_cons.mp hnd').2).1
      rcases hz' with rfl | rfl | hz' 
      · refine ⟨by simp [pairMentions], ?_, ?_⟩
        · exact hak
        · intro hzv
          subst hzv
          exact hna (List.mem_cons_of_mem _ hvt)
      · refine ⟨by simp [pairMentions], ?_, ?_⟩
        · intro hzk
          subst hzk
          exact hnb hkt
        · intro hzv
          subst hzv
          exact hnb hvt
      · obtain ⟨hz1, hz2, hz3⟩ := ih (hnd'.of_cons.of_cons) hmem z hz'
        exact ⟨(pairMentions_sublist (List.sublist_cons_self _ _)).subset hz1, hz2, hz3⟩

end CombineSegments

namespace CombineSegments

theorem swap_erase_comm {l : List (ℕ × ℕ)} (hnd : (pairMentions l).Nodup)
    {k v : ℕ} (h : (k, v) ∈ l) :
    eraseKey (l.map (fun p => (p.2, p.1))) v = (eraseKey l k).map (fun p => (p.2, p.1)) := by
  induction l with
  | nil => simp at h
  | cons p t ih =>
    obtain ⟨a, b⟩ := p
    have hnd' := hnd
    unfold pairMentions at hnd'
    simp only [List.flatMap_cons, List.cons_append, List.nil_append] at hnd'
    by_cases hak : a = k
    · have hbv : b = v := mem_uniq_head hnd hak h
      subst hak
      subst hbv
      simp only [List.map_cons]
      unfold eraseKey
      rw [if_pos rfl, if_pos rfl]
    · have hmem : (k, v) ∈ t := by
        rcases List.mem_cons.mp h with h | h
        · injection h with h1 h2
          exact absurd h1.symm hak
        · exact h
      have hbv : b ≠ v := by
        intro hbb
        subst hbb
        exact (List.nodup_cons.mp (List.nodup_cons.mp hnd').2).1
          (by simpa [pairMentions] using mem_pairMentions_right hmem)
      simp only [List.map_cons]
      unfold eraseKey
      rw [if_neg hbv, if_neg hak]
      simp only [List.map_cons]
      rw [ih (hnd'.of_cons.of_cons) hmem]

theorem swap_mentions_perm (l : List (ℕ × ℕ)) :
    (pairMentions (l.map (fun p => (p.2, p.1)))).Perm (pairMentions l) := by
  induction l with
  | nil => simp [pairMentions]
  | cons p t ih =>
    obtain ⟨a, b⟩ := p
    simp only [List.map_cons]
    unfold pairMentions
    simp only [List.flatMap_cons, List.cons_append, List.nil_append]
    exact ((ih.cons _).cons _).trans (List.Perm.swap _ _ _)

theorem lookup2_none_iff {fd : List (ℕ × ℕ)} {x : ℕ} :
    (lookupKV fd x = none ∧ lookupKV (fd.map (fun p => (p.2, p.1))) x = none)
      ↔ x ∉ pairMentions fd := by
  rw [lookupKV_eq_none_iff, lookupKV_eq_none_iff]
  constructor
  · rintro ⟨h1, h2⟩ hx
    rcases mem_pairMentions.mp hx with ⟨⟨a, b⟩, hm, hab⟩
    rcases hab with rfl | rfl
    · exact h1 b hm
    · exact h2 a (List.mem_map.mpr ⟨(a, x), hm, rfl⟩)
  · intro hx
    constructor
    · intro v hv
      exact hx (mem_pairMentions_left hv)
    · intro v hv
      rcases List.mem_map.mp hv with ⟨⟨c, d⟩, hm, he⟩
      injection he with h1 h2
      subst h1
      subst h2
      exact hx (mem_pairMentions_right hm)

end CombineSegments

namespace CombineSegments

theorem swap_nodup {fd : List (ℕ × ℕ)} (h : (pairMentions fd).Nodup) :
    (pairMentions (fd.map (fun p => (p.2, p.1)))).Nodup :=
  ((swap_mentions_perm fd).nodup_iff).mpr h

theorem rightLoop_spec :
    ∀ (fuel : ℕ) (st : St) (cf cs : ℕ) (seg : List ℕ) (P : ℕ),
      st.firstD.length < fuel →
      InvPairs st.firstD st.secondD →
      InvEnd st.endD P →
      (∀ x ∈ pairMentions st.firstD, x ∈ st.endD ∨ x = cf ∨ x = cs) →
      cf ∉ st.endD → cs ∉ st.endD →
      ∃ (st' : St) (ext : List ℕ) (skip : Bool),
        rightLoop fuel st cf cs seg = .ok (st', seg ++ ext, skip) ∧
        InvPairs st'.firstD st'.secondD ∧
        InvEnd st'.endD P ∧
        ext.Nodup ∧
        (∀ x ∈ ext, x ∈ st.endD) ∧
        (∀ x ∈ ext, sib x ∉ ext) ∧
        (∀ j, j ∈ st'.endD ↔ (j ∈ st.endD ∧ j ∉ ext ∧ sib j ∉ ext)) ∧
        st'.endD.length + 2 * ext.length = st.endD.length ∧
        (∀ x ∈ pairMentions st'.firstD, x ∈ st'.endD ∨ (skip = false ∧ x = cf)) ∧
        cf ∉ st'.endD := by
  intro fuel
  induction fuel with
  | zero =>
    intro st cf cs seg P hfuel
    exact absurd hfuel (by omega)
  | succ fuel ih =>
    rintro st cf cs seg P hfuel ⟨hndm, hswap⟩ ⟨hnde, hbnd, hsib⟩ hment hcf hcs
    cases hc : lookupKV st.firstD cs with
    | some corr =>
      -- right_first_check branch
      have hpair : (cs, corr) ∈ st.firstD := lookupKV_mem hc
      have hnecs : cs ≠ corr := mentions_nodup_ne hndm hpair
      have hnds : (pairMentions st.secondD).Nodup := by
        rw [hswap]; exact swap_nodup hndm
      have hpair2 : (corr, cs) ∈ st.secondD := by
        rw [hswap]
        exact List.mem_map.mpr ⟨(cs, corr), hpair, rfl⟩
      have hlook2 : lookupKV st.secondD corr = some cs := lookupKV_of_mem hnds hpair2
      have hdel2 : delKV st.secondD corr = .ok (eraseKey st.secondD corr) := by
        unfold delKV
        rw [hlook2]
        simp
      have hs1 : eraseKey st.secondD corr = (eraseKey st.firstD cs).map (fun p => (p.2, p.1)) := by
        rw [hswap]
        exact swap_erase_comm hndm hpair
      have hf1nd : (pairMentions (eraseKey st.firstD cs)).Nodup :=
        (pairMentions_sublist (eraseKey_sublist _ _)).nodup hndm
      have hf1m := erase_mentions hndm hpair
      have hf1len : (eraseKey st.firstD cs).length < st.firstD.length :=
        eraseKey_length_of_lookup hc
      by_cases hcorrcf : corr = cf
      · -- closed curve: both dictionary entries removed, stop
        subst hcorrcf
        refine ⟨⟨eraseKey st.firstD cs, eraseKey st.secondD corr, st.endD⟩, [], true,
          ?_, ⟨hf1nd, hs1⟩, ⟨hnde, hbnd, hsib⟩, by simp, by simp, by simp, by simp, by simp,
          ?_, hcf⟩
        · rw [rightLoop, hc]
          dsimp only
          rw [hdel2]
          simp only [exceptBind_ok, if_pos rfl, if_true, exceptPure, List.append_nil]
        · intro x hx
          obtain ⟨hx1, hx2, hx3⟩ := hf1m x hx
          rcases hment x hx1 with h | h | h
          · exact Or.inl h
          · exact absurd h hx3
          · exact absurd h hx2
      · -- extend to the sibling of the matched endpoint
        have hcorrend : corr ∈ st.endD := by
          rcases hment corr (mem_pairMentions_right hpair) with h | h | h
          · exact h
          · exact absurd h hcorrcf
          · exact absurd h.symm hnecs
        have hdelE1 : delEnd st.endD corr = .ok (st.endD.erase corr) := by
          unfold delEnd
          rw [if_pos hcorrend]
        have hfvend : sib corr ∈ st.endD := hsib corr hcorrend
        have hfvne : sib corr ≠ corr := sib_ne corr
        have hfve1 : sib corr ∈ st.endD.erase corr :=
          (List.Nodup.mem_erase_iff hnde).mpr ⟨hfvne, hfvend⟩
        have hfvcf : ¬ sib corr = cf := by
          intro h
          rw [h] at hfvend
          exact hcf hfvend
        have hdelE2 : delEnd (st.endD.erase corr) (sib corr)
            = .ok ((st.endD.erase corr).erase (sib corr)) := by
          unfold delEnd
          rw [if_pos hfve1]
        have hstep : rightLoop (fuel + 1) st cf cs seg
            = rightLoop fuel ⟨eraseKey st.firstD cs, eraseKey st.secondD corr,
                (st.endD.erase corr).erase (sib corr)⟩ cf (sib corr) (seg ++ [sib corr]) := by
          rw [rightLoop, hc]
          dsimp only
          rw [hdel2]
          simp only [exceptBind_ok]
          rw [if_neg hcorrcf, hdelE1]
          simp only [exceptBind_ok]
          rw [if_neg hfvcf, hdelE2]
          simp only [exceptBind_ok]
        -- properties of the shrunken end dictionary
        have hmem_e2 : ∀ j, j ∈ (st.endD.erase corr).erase (sib corr)
            ↔ (j ∈ st.endD ∧ j ≠ corr ∧ j ≠ sib corr) := by
          intro j
          rw [List.Nodup.mem_erase_iff (hnde.erase _), List.Nodup.mem_erase_iff hnde]
          tauto
        have hnde2 : ((st.endD.erase corr).erase (sib corr)).Nodup := (hnde.erase _).erase _
        have hsib2 : ∀ j ∈ (st.endD.erase corr).erase (sib corr),
            sib j ∈ (st.endD.erase corr).erase (sib corr) := by
          intro j hj
          obtain ⟨hj1, hj2, hj3⟩ := (hmem_e2 j).mp hj
          refine (hmem_e2 (sib j)).mpr ⟨hsib j hj1, ?_, ?_⟩
          · intro h
            exact hj3 (by rw [← h, sib_sib])
          · intro h
            have := congrArg sib h
            rw [sib_sib, sib_sib] at this
            exact hj2 this
        have hment2 : ∀ x ∈ pairMentions (eraseKey st.firstD cs),
            x ∈ (st.endD.erase corr).erase (sib corr) ∨ x = cf ∨ x = sib corr := by
          intro x hx
          obtain ⟨hx1, hx2, hx3⟩ := hf1m x hx
          rcases hment x hx1 with h | h | h
          · by_cases hxfv : x = sib corr
            · exact Or.inr (Or.inr hxfv)
            · exact Or.inl ((hmem_e2 x).mpr ⟨h, hx3, hxfv⟩)
          · exact Or.inr (Or.inl h)
          · exact absurd h hx2
        have hcf2 : cf ∉ (st.endD.erase corr).erase (sib corr) := by
          intro h
          exact hcf ((hmem_e2 cf).mp h).1
        have hfv2 : sib corr ∉ (st.endD.erase corr).erase (sib corr) := by
          intro h
          exact absurd rfl ((hmem_e2 _).mp h).2.2
        obtain ⟨st', ext', skip, hrun, hinvp, hinve, hextnd, hextmem, hextsib, hiff, hlen,
            hmpost, hcfpost⟩ :=
          ih ⟨eraseKey st.firstD cs, eraseKey st.secondD corr,
            (st.endD.erase corr).erase (sib corr)⟩ cf (sib corr) (seg ++ [sib corr]) P
            (by dsimp only; omega)
            ⟨hf1nd, hs1⟩
            ⟨hnde2, fun x hx => hbnd x ((hmem_e2 x).mp hx).1, hsib2⟩
            hment2 hcf2 hfv2
        refine ⟨st', sib corr :: ext', skip, ?_, hinvp, hinve, ?_, ?_, ?_, ?_, ?_, hmpost,
          hcfpost⟩
        · rw [hstep, hrun]
          simp
        · -- nodup of the extension
          refine List.nodup_cons.mpr ⟨?_, hextnd⟩
          intro h
          exact hfv2 (hextmem _ h)
        · -- extension inside the original endD
          intro x hx
          rcases List.mem_cons.mp hx with rfl | hx
          · exact hfvend
          · exact ((hmem_e2 x).mp (hextmem x hx)).1
        · -- no two extension members are siblings
          intro x hx
          rcases List.mem_cons.mp hx with rfl | hx
          · intro hmem
            rcases List.mem_cons.mp hmem with h | h
            · rw [sib_sib] at h
              exact sib_ne corr h.symm
            · have := (hmem_e2 _).mp (hextmem _ h)
              rw [sib_sib] at this
              exact this.2.1 rfl
          · intro hmem
            rcases List.mem_cons.mp hmem with h | h
            · have hx2 := (hmem_e2 x).mp (hextmem x hx)
              have h2 := congrArg sib h
              rw [sib_sib, sib_sib] at h2
              exact hx2.2.1 h2
            · exact hextsib x hx h
        · -- membership characterisation of the final endD
          intro j
          rw [hiff j, hmem_e2 j]
          constructor
          · rintro ⟨⟨hj1, hj2, hj3⟩, hj4, hj5⟩
            refine ⟨hj1, ?_, ?_⟩
            · intro h
              rcases List.mem_cons.mp h with h | h
              · exact hj3 h
              · exact hj4 h
            · intro h
              rcases List.mem_cons.mp h with h | h
              · have h2 := congrArg sib h
                rw [sib_sib, sib_sib] at h2
                exact hj2 h2
              · exact hj5 h
          · rintro ⟨hj1, hj2, hj3⟩
            have hjfv : j ≠ sib corr := fun h => hj2 (h ▸ List.mem_cons_self _ _)
            have hjcorr : j ≠ corr := by
              intro h
              exact hj3 (by rw [h]; exact List.mem_cons_self _ _)
            refine ⟨⟨hj1, hjcorr, hjfv⟩, ?_, ?_⟩
            · intro h
              exact hj2 (List.mem_cons_of_mem _ h)
            · intro h
              exact hj3 (List.mem_cons_of_mem _ h)
        · have l1 : (st.endD.erase corr).length = st.endD.length - 1 :=
            List.length_erase_of_mem hcorrend
          have l2 : ((st.endD.erase corr).erase (sib corr)).length
              = (st.endD.erase corr).length - 1 := List.length_erase_of_mem hfve1
          have l3 : 0 < (st.endD.erase corr).length := List.length_pos_of_mem hfve1
          have l4 : 0 < st.endD.length := List.length_pos_of_mem hcorrend
          dsimp only at hlen
          simp only [List.length_cons]
          omega
    | none =>
      cases hc2 : lookupKV st.secondD cs with
      | some corr =>
        -- right_second_check branch
        have hpair2m : (cs, corr) ∈ st.secondD := lookupKV_mem hc2
        have hpair : (corr, cs) ∈ st.firstD := by
          rw [hswap] at hpair2m
          obtain ⟨⟨a, b⟩, hp, he⟩ := List.mem_map.mp hpair2m
          simp only [Prod.mk.injEq] at he
          obtain ⟨h1, h2⟩ := he
          subst h1
          subst h2
          exact hp
        have hnecs : corr ≠ cs := mentions_nodup_ne hndm hpair
        have hlook1 : lookupKV st.firstD corr = some cs := lookupKV_of_mem hndm hpair
        have hdel1 : delKV st.firstD corr = .ok (eraseKey st.firstD corr) := by
          unfold delKV
          rw [hlook1]
          simp
        have hs1 : eraseKey st.secondD cs = (eraseKey st.firstD corr).map (fun p => (p.2, p.1)) := by
          rw [hswap]
          exact swap_erase_comm hndm hpair
        have hf1nd : (pairMentions (eraseKey st.firstD corr)).Nodup :=
          (pairMentions_sublist (eraseKey_sublist _ _)).nodup hndm
        have hf1m := erase_mentions hndm hpair
        have hf1len : (eraseKey st.firstD corr).length < st.firstD.length :=
          eraseKey_length_of_lookup hlook1
        by_cases hcorrcf : corr = cf
        · -- closed curve found via the reversed dictionary
          subst hcorrcf
          refine ⟨⟨eraseKey st.firstD corr, eraseKey st.secondD cs, st.endD⟩, [], true,
            ?_, ⟨hf1nd, hs1⟩, ⟨hnde, hbnd, hsib⟩, by simp, by simp, by simp, by simp, by simp,
            ?_, hcf⟩
          · rw [rightLoop, hc]
            dsimp only
            rw [hc2]
            dsimp only
            rw [hdel1]
            simp only [exceptBind_ok, if_pos rfl, if_true, exceptPure, List.append_nil]
          · intro x hx
            obtain ⟨hx1, hx2, hx3⟩ := hf1m x hx
            rcases hment x hx1 with h | h | h
            · exact Or.inl h
            · exact absurd h hx2
            · exact absurd h hx3
        · -- extend to the sibling of the matched endpoint
          have hcorrend : corr ∈ st.endD := by
            rcases hment corr (mem_pairMentions_left hpair) with h | h | h
            · exact h
            · exact absurd h hcorrcf
            · exact absurd h hnecs
          have hdelE1 : delEnd st.endD corr = .ok (st.endD.erase corr) := by
            unfold delEnd
            rw [if_pos hcorrend]
          have hfvend : sib corr ∈ st.endD := hsib corr hcorrend
          have hfvne : sib corr ≠ corr := sib_ne corr
          have hfve1 : sib corr ∈ st.endD.erase corr :=
            (List.Nodup.mem_erase_iff hnde).mpr ⟨hfvne, hfvend⟩
          have hfvcf : ¬ sib corr = cf := by
            intro h
            rw [h] at hfvend
            exact hcf hfvend
          have hdelE2 : delEnd (st.endD.erase corr) (sib corr)
              = .ok ((st.endD.erase corr).erase (sib corr)) := by
            unfold delEnd
            rw [if_pos hfve1]
          have hstep : rightLoop (fuel + 1) st cf cs seg
              = rightLoop fuel ⟨eraseKey st.firstD corr, eraseKey st.secondD cs,
                  (st.endD.erase corr).erase (sib corr)⟩ cf (sib corr) (seg ++ [sib corr]) := by
            rw [rightLoop, hc]
            dsimp only
            rw [hc2]
            dsimp only
            rw [hdel1]
            simp only [exceptBind_ok]
            rw [if_neg hcorrcf, hdelE1]
            simp only [exceptBind_ok]
            rw [if_neg hfvcf, hdelE2]
            simp only [exceptBind_ok]
          have hmem_e2 : ∀ j, j ∈ (st.endD.erase corr).erase (sib corr)
              ↔ (j ∈ st.endD ∧ j ≠ corr ∧ j ≠ sib corr) := by
            intro j
            rw [List.Nodup.mem_erase_iff (hnde.erase _), List.Nodup.mem_erase_iff hnde]
            tauto
          have hnde2 : ((st.endD.erase corr).erase (sib corr)).Nodup := (hnde.erase _).erase _
          have hsib2 : ∀ j ∈ (st.endD.erase corr).erase (sib corr),
              sib j ∈ (st.endD.erase corr).erase (sib corr) := by
            intro j hj
            obtain ⟨hj1, hj2, hj3⟩ := (hmem_e2 j).mp hj
            refine (hmem_e2 (sib j)).mpr ⟨hsib j hj1, ?_, ?_⟩
            · intro h
              exact hj3 (by rw [← h, sib_sib])
            · intro h
              have := congrArg sib h
              rw [sib_sib, sib_sib] at this
              exact hj2 this
          have hment2 : ∀ x ∈ pairMentions (eraseKey st.firstD corr),
              x ∈ (st.endD.erase corr).erase (sib corr) ∨ x = cf ∨ x = sib corr := by
            intro x hx
            obtain ⟨hx1, hx2, hx3⟩ := hf1m x hx
            rcases hment x hx1 with h | h | h
            · by_cases hxfv : x = sib corr
              · exact Or.inr (Or.inr hxfv)
              · exact Or.inl ((hmem_e2 x).mpr ⟨h, hx2, hxfv⟩)
            · exact Or.inr (Or.inl h)
            · exact absurd h hx3
          have hcf2 : cf ∉ (st.endD.erase corr).erase (sib corr) := by
            intro h
            exact hcf ((hmem_e2 cf).mp h).1
          have hfv2 : sib corr ∉ (st.endD.erase corr).erase (sib corr) := by
            intro h
            exact absurd rfl ((hmem_e2 _).mp h).2.2
          obtain ⟨st', ext', skip, hrun, hinvp, hinve, hextnd, hextmem, hextsib, hiff, hlen,
              hmpost, hcfpost⟩ :=
            ih ⟨eraseKey st.firstD corr, eraseKey st.secondD cs,
              (st.endD.erase corr).erase (sib corr)⟩ cf (sib corr) (seg ++ [sib corr]) P
              (by dsimp only; omega)
              ⟨hf1nd, hs1⟩
              ⟨hnde2, fun x hx => hbnd x ((hmem_e2 x).mp hx).1, hsib2⟩
              hment2 hcf2 hfv2
          refine ⟨st', sib corr :: ext', skip, ?_, hinvp, hinve, ?_, ?_, ?_, ?_, ?_, hmpost,
            hcfpost⟩
          · rw [hstep, hrun]
            simp
          · refine List.nodup_cons.mpr ⟨?_, hextnd⟩
            intro h
            exact hfv2 (hextmem _ h)
          · intro x hx
            rcases List.mem_cons.mp hx with rfl | hx
            · exact hfvend
            · exact ((hmem_e2 x).mp (hextmem x hx)).1
          · intro x hx
            rcases List.mem_cons.mp hx with rfl | hx
            · intro hmem
              rcases List.mem_cons.mp hmem with h | h
              · rw [sib_sib] at h
                exact sib_ne corr h.symm
              · have := (hmem_e2 _).mp (hextmem _ h)
                rw [sib_sib] at this
                exact this.2.1 rfl
            · intro hmem
              rcases List.mem_cons.mp hmem with h | h
              · have hx2 := (hmem_e2 x).mp (hextmem x hx)
                have h2 := congrArg sib h
                rw [sib_sib, sib_sib] at h2
                exact hx2.2.1 h2
              · exact hextsib x hx h
          · intro j
            rw [hiff j, hmem_e2 j]
            constructor
            · rintro ⟨⟨hj1, hj2, hj3⟩, hj4, hj5⟩
              refine ⟨hj1, ?_, ?_⟩
              · intro h
                rcases List.mem_cons.mp h with h | h
                · exact hj3 h
                · exact hj4 h
              · intro h
                rcases List.mem_cons.mp h with h | h
                · have h2 := congrArg sib h
                  rw [sib_sib, sib_sib] at h2
                  exact hj2 h2
                · exact hj5 h
            · rintro ⟨hj1, hj2, hj3⟩
              have hjfv : j ≠ sib corr := fun h => hj2 (h ▸ List.mem_cons_self _ _)
              have hjcorr : j ≠ corr := by
                intro h
                exact hj3 (by rw [h]; exact List.mem_cons_self _ _)
              refine ⟨⟨hj1, hjcorr, hjfv⟩, ?_, ?_⟩
              · intro h
                exact hj2 (List.mem_cons_of_mem _ h)
              · intro h
                exact hj3 (List.mem_cons_of_mem _ h)
          · have l1 : (st.endD.erase corr).length = st.endD.length - 1 :=
              List.length_erase_of_mem hcorrend
            have l2 : ((st.endD.erase corr).erase (sib corr)).length
                = (st.endD.erase corr).length - 1 := List.length_erase_of_mem hfve1
            have l3 : 0 < (st.endD.erase corr).length := List.length_pos_of_mem hfve1
            have l4 : 0 < st.endD.length := List.length_pos_of_mem hcorrend
            dsimp only at hlen
            simp only [List.length_cons]
            omega
      | none =>
        refine ⟨st, [], false, ?_, ⟨hndm, hswap⟩, ⟨hnde, hbnd, hsib⟩, by simp, by simp,
          by simp, by simp, by simp, ?_, hcf⟩
        · rw [rightLoop, hc]
          dsimp only
          rw [hc2]
          simp [exceptPure]
        · intro x hx
          have hxcs : x ≠ cs := by
            intro h
            subst h
            have : x ∉ pairMentions st.firstD := by
              apply lookup2_none_iff.mp
              refine ⟨hc, ?_⟩
              rw [← hswap]
              exact hc2
            exact this hx
          rcases hment x hx with h | h | h
          · exact Or.inl h
          · exact Or.inr ⟨rfl, h⟩
          · exact absurd h hxcs

end CombineSegments

namespace CombineSegments

theorem leftLoop_spec :
    ∀ (fuel : ℕ) (st : St) (cf : ℕ) (seg : List ℕ) (P : ℕ),
      st.firstD.length < fuel →
      InvPairs st.firstD st.secondD →
      InvEnd st.endD P →
      (∀ x ∈ pairMentions st.firstD, x ∈ st.endD ∨ x = cf) →
      cf ∉ st.endD →
      ∃ (st' : St) (ext : List ℕ),
        leftLoop fuel st cf seg = .ok (st', seg ++ ext) ∧
        InvPairs st'.firstD st'.secondD ∧
        InvEnd st'.endD P ∧
        ext.Nodup ∧
        (∀ x ∈ ext, x ∈ st.endD) ∧
        (∀ x ∈ ext, sib x ∉ ext) ∧
        (∀ j, j ∈ st'.endD ↔ (j ∈ st.endD ∧ j ∉ ext ∧ sib j ∉ ext)) ∧
        st'.endD.length + 2 * ext.length = st.endD.length ∧
        (∀ x ∈ pairMentions st'.firstD, x ∈ st'.endD) := by
  intro fuel
  induction fuel with
  | zero =>
    intro st cf seg P hfuel
    exact absurd hfuel (by omega)
  | succ fuel ih =>
    rintro st cf seg P hfuel ⟨hndm, hswap⟩ ⟨hnde, hbnd, hsib⟩ hment hcf
    cases hc : lookupKV st.firstD cf with
    | some corr =>
      have hpair : (cf, corr) ∈ st.firstD := lookupKV_mem hc
      have hnecf : cf ≠ corr := mentions_nodup_ne hndm hpair
      have hnds : (pairMentions st.secondD).Nodup := by
        rw [hswap]; exact swap_nodup hndm
      have hpair2 : (corr, cf) ∈ st.secondD := by
        rw [hswap]
        exact List.mem_map.mpr ⟨(cf, corr), hpair, rfl⟩
      have hlook2 : lookupKV st.secondD corr = some cf := lookupKV_of_mem hnds hpair2
      have hdel2 : delKV st.secondD corr = .ok (eraseKey st.secondD corr) := by
        unfold delKV
        rw [hlook2]
        simp
      have hs1 : eraseKey st.secondD corr = (eraseKey st.firstD cf).map (fun p => (p.2, p.1)) := by
        rw [hswap]
        exact swap_erase_comm hndm hpair
      have hf1nd : (pairMentions (eraseKey st.firstD cf)).Nodup :=
        (pairMentions_sublist (eraseKey_sublist _ _)).nodup hndm
      have hf1m := erase_mentions hndm hpair
      have hf1len : (eraseKey st.firstD cf).length < st.firstD.length :=
        eraseKey_length_of_lookup hc
      have hcorrend : corr ∈ st.endD := by
        rcases hment corr (mem_pairMentions_right hpair) with h | h
        · exact h
        · exact absurd h.symm hnecf
      have hdelE1 : delEnd st.endD corr = .ok (st.endD.erase corr) := by
        unfold delEnd
        rw [if_pos hcorrend]
      have hfvend : sib corr ∈ st.endD := hsib corr hcorrend
      have hfvne : sib corr ≠ corr := sib_ne corr
      have hfve1 : sib corr ∈ st.endD.erase corr :=
        (List.Nodup.mem_erase_iff hnde).mpr ⟨hfvne, hfvend⟩
      have hdelE2 : delEnd (st.endD.erase corr) (sib corr)
          = .ok ((st.endD.erase corr).erase (sib corr)) := by
        unfold delEnd
        rw [if_pos hfve1]
      have hstep : leftLoop (fuel + 1) st cf seg
          = leftLoop fuel ⟨eraseKey st.firstD cf, eraseKey st.secondD corr,
              (st.endD.erase corr).erase (sib corr)⟩ (sib corr) (seg ++ [sib corr]) := by
        rw [leftLoop, hc]
        dsimp only
        rw [hdel2]
        simp only [exceptBind_ok]
        rw [hdelE1]
        simp only [exceptBind_ok]
        rw [hdelE2]
        simp only [exceptBind_ok]
      have hmem_e2 : ∀ j, j ∈ (st.endD.erase corr).erase (sib corr)
          ↔ (j ∈ st.endD ∧ j ≠ corr ∧ j ≠ sib corr) := by
        intro j
        rw [List.Nodup.mem_erase_iff (hnde.erase _), List.Nodup.mem_erase_iff hnde]
        tauto
      have hnde2 : ((st.endD.erase corr).erase (sib corr)).Nodup := (hnde.erase _).erase _
      have hsib2 : ∀ j ∈ (st.endD.erase corr).erase (sib corr),
          sib j ∈ (st.endD.erase corr).erase (sib corr) := by
        intro j hj
        obtain ⟨hj1, hj2, hj3⟩ := (hmem_e2 j).mp hj
        refine (hmem_e2 (sib j)).mpr ⟨hsib j hj1, ?_, ?_⟩
        · intro h
          exact hj3 (by rw [← h, sib_sib])
        · intro h
          have := congrArg sib h
          rw [sib_sib, sib_sib] at this
          exact hj2 this
      have hment2 : ∀ x ∈ pairMentions (eraseKey st.firstD cf),
          x ∈ (st.endD.erase corr).erase (sib corr) ∨ x = sib corr := by
        intro x hx
        obtain ⟨hx1, hx2, hx3⟩ := hf1m x hx
        rcases hment x hx1 with h | h
        · by_cases hxfv : x = sib corr
          · exact Or.inr hxfv
          · exact Or.inl ((hmem_e2 x).mpr ⟨h, hx3, hxfv⟩)
        · exact absurd h hx2
      have hfv2 : sib corr ∉ (st.endD.erase corr).erase (sib corr) := by
        intro h
        exact absurd rfl ((hmem_e2 _).mp h).2.2
      obtain ⟨st', ext', hrun, hinvp, hinve, hextnd, hextmem, hextsib, hiff, hlen, hmpost⟩ :=
        ih ⟨eraseKey st.firstD cf, eraseKey st.secondD corr,
          (st.endD.erase corr).erase (sib corr)⟩ (sib corr) (seg ++ [sib corr]) P
          (by dsimp only; omega)
          ⟨hf1nd, hs1⟩
          ⟨hnde2, fun x hx => hbnd x ((hmem_e2 x).mp hx).1, hsib2⟩
          hment2 hfv2
      refine ⟨st', sib corr :: ext', ?_, hinvp, hinve, ?_, ?_, ?_, ?_, ?_, hmpost⟩
      · rw [hstep, hrun]
        simp
      · refine List.nodup_cons.mpr ⟨?_, hextnd⟩
        intro h
        exact hfv2 (hextmem _ h)
      · intro x hx
        rcases List.mem_cons.mp hx with rfl | hx
        · exact hfvend
        · exact ((hmem_e2 x).mp (hextmem x hx)).1
      · intro x hx
        rcases List.mem_cons.mp hx with rfl | hx
        · intro hmem
          rcases List.mem_cons.mp hmem with h | h
          · rw [sib_sib] at h
            exact sib_ne corr h.symm
          · have := (hmem_e2 _).mp (hextmem _ h)
            rw [sib_sib] at this
            exact this.2.1 rfl
        · intro hmem
          rcases List.mem_cons.mp hmem with h | h
          · have hx2 := (hmem_e2 x).mp (hextmem x hx)
            have h2 := congrArg sib h
            rw [sib_sib, sib_sib] at h2
            exact hx2.2.1 h2
          · exact hextsib x hx h
      · intro j
        rw [hiff j, hmem_e2 j]
        constructor
        · rintro ⟨⟨hj1, hj2, hj3⟩, hj4, hj5⟩
          refine ⟨hj1, ?_, ?_⟩
          · intro h
            rcases List.mem_cons.mp h with h | h
            · exact hj3 h
            · exact hj4 h
          · intro h
            rcases List.mem_cons.mp h with h | h
            · have h2 := congrArg sib h
              rw [sib_sib, sib_sib] at h2
              exact hj2 h2
            · exact hj5 h
        · rintro ⟨hj1, hj2, hj3⟩
          have hjfv : j ≠ sib corr := fun h => hj2 (h ▸ List.mem_cons_self _ _)
          have hjcorr : j ≠ corr := by
            intro h
            exact hj3 (by rw [h]; exact List.mem_cons_self _ _)
          refine ⟨⟨hj1, hjcorr, hjfv⟩, ?_, ?_⟩
          · intro h
            exact hj2 (List.mem_cons_of_mem _ h)
          · intro h
            exact hj3 (List.mem_cons_of_mem _ h)
      · have l1 : (st.endD.erase corr).length = st.endD.length - 1 :=
          List.length_erase_of_mem hcorrend
        have l2 : ((st.endD.erase corr).erase (sib corr)).length
            = (st.endD.erase corr).length - 1 := List.length_erase_of_mem hfve1
        have l3 : 0 < (st.endD.erase corr).length := List.length_pos_of_mem hfve1
        have l4 : 0 < st.endD.length := List.length_pos_of_mem hcorrend
        dsimp only at hlen
        simp only [List.length_cons]
        omega
    | none =>
      cases hc2 : lookupKV st.secondD cf with
      | some corr =>
        have hpair2m : (cf, corr) ∈ st.secondD := lookupKV_mem hc2
        have hpair : (corr, cf) ∈ st.firstD := by
          rw [hswap] at hpair2m
          obtain ⟨⟨a, b⟩, hp, he⟩ := List.mem_map.mp hpair2m
          simp only [Prod.mk.injEq] at he
          obtain ⟨h1, h2⟩ := he
          subst h1
          subst h2
          exact hp
        have hnecf : corr ≠ cf := mentions_nodup_ne hndm hpair
        have hlook1 : lookupKV st.firstD corr = some cf := lookupKV_of_mem hndm hpair
        have hdel1 : delKV st.firstD corr = .ok (eraseKey st.firstD corr) := by
          unfold delKV
          rw [hlook1]
          simp
        have hs1 : eraseKey st.secondD cf = (eraseKey st.firstD corr).map (fun p => (p.2, p.1)) := by
          rw [hswap]
          exact swap_erase_comm hndm hpair
        have hf1nd : (pairMentions (eraseKey st.firstD corr)).Nodup :=
          (pairMentions_sublist (eraseKey_sublist _ _)).nodup hndm
        have hf1m := erase_mentions hndm hpair
        have hf1len : (eraseKey st.firstD corr).length < st.firstD.length :=
          eraseKey_length_of_lookup hlook1
        have hcorrend : corr ∈ st.endD := by
          rcases hment corr (mem_pairMentions_left hpair) with h | h
          · exact h
          · exact absurd h hnecf
        have hdelE1 : delEnd st.endD corr = .ok (st.endD.erase corr) := by
          unfold delEnd
          rw [if_pos hcorrend]
        have hfvend : sib corr ∈ st.endD := hsib corr hcorrend
        have hfvne : sib corr ≠ corr := sib_ne corr
        have hfve1 : sib corr ∈ st.endD.erase corr :=
          (List.Nodup.mem_erase_iff hnde).mpr ⟨hfvne, hfvend⟩
        have hdelE2 : delEnd (st.endD.erase corr) (sib corr)
            = .ok ((st.endD.erase corr).erase (sib corr)) := by
          unfold delEnd
          rw [if_pos hfve1]
        have hstep : leftLoop (fuel + 1) st cf seg
            = leftLoop fuel ⟨eraseKey st.firstD corr, eraseKey st.secondD cf,
                (st.endD.erase corr).erase (sib corr)⟩ (sib corr) (seg ++ [sib corr]) := by
          rw [leftLoop, hc]
          dsimp only
          rw [hc2]
          dsimp only
          rw [hdel1]
          simp only [exceptBind_ok]
          rw [hdelE1]
          simp only [exceptBind_ok]
          rw [hdelE2]
          simp only [exceptBind_ok]
        have hmem_e2 : ∀ j, j ∈ (st.endD.erase corr).erase (sib corr)
            ↔ (j ∈ st.endD ∧ j ≠ corr ∧ j ≠ sib corr) := by
          intro j
          rw [List.Nodup.mem_erase_iff (hnde.erase _), List.Nodup.mem_erase_iff hnde]
          tauto
        have hnde2 : ((st.endD.erase corr).erase (sib corr)).Nodup := (hnde.erase _).erase _
        have hsib2 : ∀ j ∈ (st.endD.erase corr).erase (sib corr),
            sib j ∈ (st.endD.erase corr).erase (sib corr) := by
          intro j hj
          obtain ⟨hj1, hj2, hj3⟩ := (hmem_e2 j).mp hj
          refine (hmem_e2 (sib j)).mpr ⟨hsib j hj1, ?_, ?_⟩
          · intro h
            exact hj3 (by rw [← h, sib_sib])
          · intro h
            have := congrArg sib h
            rw [sib_sib, sib_sib] at this
            exact hj2 this
        have hment2 : ∀ x ∈ pairMentions (eraseKey st.firstD corr),
            x ∈ (st.endD.erase corr).erase (sib corr) ∨ x = sib corr := by
          intro x hx
          obtain ⟨hx1, hx2, hx3⟩ := hf1m x hx
          rcases hment x hx1 with h | h
          · by_cases hxfv : x = sib corr
            · exact Or.inr hxfv
            · exact Or.inl ((hmem_e2 x).mpr ⟨h, hx2, hxfv⟩)
          · exact absurd h hx3
        have hfv2 : sib corr ∉ (st.endD.erase corr).erase (sib corr) := by
          intro h
          exact absurd rfl ((hmem_e2 _).mp h).2.2
        obtain ⟨st', ext', hrun, hinvp, hinve, hextnd, hextmem, hextsib, hiff, hlen, hmpost⟩ :=
          ih ⟨eraseKey st.firstD corr, eraseKey st.secondD cf,
            (st.endD.erase corr).erase (sib corr)⟩ (sib corr) (seg ++ [sib corr]) P
            (by dsimp only; omega)
            ⟨hf1nd, hs1⟩
            ⟨hnde2, fun x hx => hbnd x ((hmem_e2 x).mp hx).1, hsib2⟩
            hment2 hfv2
        refine ⟨st', sib corr :: ext', ?_, hinvp, hinve, ?_, ?_, ?_, ?_, ?_, hmpost⟩
        · rw [hstep, hrun]
          simp
        · refine List.nodup_cons.mpr ⟨?_, hextnd⟩
          intro h
          exact hfv2 (hextmem _ h)
        · intro x hx
          rcases List.mem_cons.mp hx with rfl | hx
          · exact hfvend
          · exact ((hmem_e2 x).mp (hextmem x hx)).1
        · intro x hx
          rcases List.mem_cons.mp hx with rfl | hx
          · intro hmem
            rcases List.mem_cons.mp hmem with h | h
            · rw [sib_sib] at h
              exact sib_ne corr h.symm
            · have := (hmem_e2 _).mp (hextmem _ h)
              rw [sib_sib] at this
              exact this.2.1 rfl
          · intro hmem
            rcases List.mem_cons.mp hmem with h | h
            · have hx2 := (hmem_e2 x).mp (hextmem x hx)
              have h2 := congrArg sib h
              rw [sib_sib, sib_sib] at h2
              exact hx2.2.1 h2
            · exact hextsib x hx h
        · intro j
          rw [hiff j, hmem_e2 j]
          constructor
          · rintro ⟨⟨hj1, hj2, hj3⟩, hj4, hj5⟩
            refine ⟨hj1, ?_, ?_⟩
            · intro h
              rcases List.mem_cons.mp h with h | h
              · exact hj3 h
              · exact hj4 h
            · intro h
              rcases List.mem_cons.mp h with h | h
              · have h2 := congrArg sib h
                rw [sib_sib, sib_sib] at h2
                exact hj2 h2
              · exact hj5 h
          · rintro ⟨hj1, hj2, hj3⟩
            have hjfv : j ≠ sib corr := fun h => hj2 (h ▸ List.mem_cons_self _ _)
            have hjcorr : j ≠ corr := by
              intro h
              exact hj3 (by rw [h]; exact List.mem_cons_self _ _)
            refine ⟨⟨hj1, hjcorr, hjfv⟩, ?_, ?_⟩
            · intro h
              exact hj2 (List.mem_cons_of_mem _ h)
            · intro h
              exact hj3 (List.mem_cons_of_mem _ h)
        · have l1 : (st.endD.erase corr).length = st.endD.length - 1 :=
            List.length_erase_of_mem hcorrend
          have l2 : ((st.endD.erase corr).erase (sib corr)).length
              = (st.endD.erase corr).length - 1 := List.length_erase_of_mem hfve1
          have l3 : 0 < (st.endD.erase corr).length := List.length_pos_of_mem hfve1
          have l4 : 0 < st.endD.length := List.length_pos_of_mem hcorrend
          dsimp only at hlen
          simp only [List.length_cons]
          omega
      | none =>
        refine ⟨st, [], ?_, ⟨hndm, hswap⟩, ⟨hnde, hbnd, hsib⟩, by simp, by simp,
          by simp, by simp, by simp, ?_⟩
        · rw [leftLoop, hc]
          dsimp only
          rw [hc2]
          simp [exceptPure]
        · intro x hx
          have hxcf : x ≠ cf := by
            intro h
            subst h
            have : x ∉ pairMentions st.firstD := by
              apply lookup2_none_iff.mp
              refine ⟨hc, ?_⟩
              rw [← hswap]
              exact hc2
            exact this hx
          rcases hment x hx with h | h
          · exact h
          · exact absurd h hxcf

end CombineSegments

namespace CombineSegments

theorem sib_of_even {j : ℕ} (h : j % 2 = 0) : sib j = j + 1 := by
  unfold sib
  rw [if_neg (by omega)]

theorem sib_of_even_succ {j : ℕ} (h : j % 2 = 0) : sib (j + 1) = j := by
  unfold sib
  rw [if_pos (by omega)]
  omega

theorem unionSegs_nil : unionSegs [] = ∅ := rfl

theorem unionSegs_cons (c : List ℕ) (cs : List (List ℕ)) :
    unionSegs (c :: cs) = curveSegs c ∪ unionSegs cs := rfl

theorem curveSegs_subset_unionSegs {c : List ℕ} {cs : List (List ℕ)}
    (h : c ∈ cs) : curveSegs c ⊆ unionSegs cs := by
  induction cs with
  | nil => simp at h
  | cons d t ih =>
    rw [unionSegs_cons]
    rcases List.mem_cons.mp h with rfl | h
    · exact Finset.subset_union_left
    · exact (ih h).trans Finset.subset_union_right

theorem mem_curveSegs {t : ℕ} {c : List ℕ} :
    t ∈ curveSegs c ↔ ∃ x ∈ c, segOf x = t := by
  unfold curveSegs
  simp [List.mem_map]

/-- The combinatorial heart of the per-iteration partition argument: the
curve seeded at segment `segOf cf` and extended by `extR` (right loop) and
`extL` (left loop) consumes one segment per extension step, all distinct,
and together with the surviving endpoints accounts for exactly the segments
available at the start of the iteration. -/
theorem assembleCore
    (e1 : List ℕ) (cf : ℕ) (P : ℕ) (extR extL : List ℕ) (st1e st2e : List ℕ)
    (hcf2 : cf % 2 = 0)
    (hinve : InvEnd e1 P)
    (hcfe : cf ∉ e1) (hcse : cf + 1 ∉ e1)
    (hndR : extR.Nodup) (hmemR : ∀ x ∈ extR, x ∈ e1)
    (hsibR : ∀ x ∈ extR, sib x ∉ extR)
    (hiffR : ∀ j, j ∈ st1e ↔ (j ∈ e1 ∧ j ∉ extR ∧ sib j ∉ extR))
    (hcf1 : cf ∉ st1e)
    (hndL : extL.Nodup) (hmemL : ∀ x ∈ extL, x ∈ st1e)
    (hsibL : ∀ x ∈ extL, sib x ∉ extL)
    (hiffL : ∀ j, j ∈ st2e ↔ (j ∈ st1e ∧ j ∉ extL ∧ sib j ∉ extL)) :
    ((cf :: (cf + 1) :: (extR ++ extL)).length
        = (curveSegs (cf :: (cf + 1) :: (extR ++ extL))).card + 1) ∧
    Disjoint (curveSegs (cf :: (cf + 1) :: (extR ++ extL))) (st2e.map segOf).toFinset ∧
    curveSegs (cf :: (cf + 1) :: (extR ++ extL)) ∪ (st2e.map segOf).toFinset
      = insert (segOf cf) (e1.map segOf).toFinset := by
  have hscf : sib cf = cf + 1 := sib_of_even hcf2
  have hscs : sib (cf + 1) = cf := sib_of_even_succ hcf2
  have hsub1 : ∀ x ∈ st1e, x ∈ e1 := fun x hx => ((hiffR x).mp hx).1
  have hsub2 : ∀ x ∈ st2e, x ∈ e1 := fun x hx => hsub1 x ((hiffL x).mp hx).1
  have hmemL1 : ∀ x ∈ extL, x ∈ e1 := fun x hx => hsub1 x (hmemL x hx)
  -- the tail of the curve: one endpoint per consumed segment
  set tail : List ℕ := (cf + 1) :: (extR ++ extL) with htail
  have hmemtail : ∀ x, x ∈ tail ↔ (x = cf + 1 ∨ x ∈ extR ∨ x ∈ extL) := by
    intro x
    simp [htail, List.mem_cons, List.mem_append]
  have hRL : ∀ x ∈ extR, x ∉ extL := by
    intro x hx hxl
    exact (((hiffR x).mp (hmemL x hxl)).2.1) hx
  have htailnd : tail.Nodup := by
    rw [htail]
    refine List.nodup_cons.mpr ⟨?_, ?_⟩
    · intro h
      rcases List.mem_append.mp h with h | h
      · exact hcse (hmemR _ h)
      · exact hcse (hmemL1 _ h)
    · exact List.Nodup.append hndR hndL (fun x hx hxl => hRL x hx hxl)
  -- segments are distinct along the tail
  have hinj : ∀ x ∈ tail, ∀ y ∈ tail, segOf x = segOf y → x = y := by
    intro x hx y hy hseg
    rcases (segOf_eq_iff x y).mp hseg with h | h
    · exact h.symm
    -- y = sib x: every case is impossible
    exfalso
    rcases (hmemtail x).mp hx with rfl | hxR | hxL
    · rw [hscs] at h
      rcases (hmemtail y).mp hy with h2 | h2 | h2
      · omega
      · rw [h] at h2
        exact hcfe (hmemR cf h2)
      · rw [h] at h2
        exact hcf1 (hmemL cf h2)
    · rcases (hmemtail y).mp hy with h2 | h2 | h2
      · rw [h2] at h
        have : x = cf := by
          have := congrArg sib h
          rw [sib_sib, hscs] at this
          exact this.symm
        rw [this] at hxR
        exact hcfe (hmemR _ hxR)
      · rw [h] at h2
        exact hsibR x hxR h2
      · have hy1 : y ∈ st1e := hmemL y h2
        have := ((hiffR y).mp hy1).2.2
        rw [h, sib_sib] at this
        exact this hxR
    · rcases (hmemtail y).mp hy with h2 | h2 | h2
      · rw [h2] at h
        have hx1 : x = cf := by
          have := congrArg sib h
          rw [sib_sib, hscs] at this
          exact this.symm
        rw [hx1] at hxL
        exact hcf1 (hmemL cf hxL)
      · have hx1 : x ∈ st1e := hmemL x hxL
        have := ((hiffR x).mp hx1).2.2
        rw [h] at h2
        exact this h2
      · rw [h] at h2
        exact hsibL x hxL h2
  have hmapnd : (tail.map segOf).Nodup := htailnd.map_on hinj
  have hcfin : segOf cf ∈ (tail.map segOf).toFinset := by
    rw [List.mem_toFinset, List.mem_map]
    exact ⟨cf + 1, by rw [hmemtail]; left; rfl, by rw [← hscf, segOf_sib]⟩
  have hcurve : curveSegs (cf :: tail) = (tail.map segOf).toFinset := by
    unfold curveSegs
    simp only [List.map_cons, List.toFinset_cons]
    exact Finset.insert_eq_self.mpr hcfin
  -- membership of the shrunken endpoint set, spelled out
  have hG : ∀ j, j ∈ st2e ↔ (j ∈ e1 ∧ j ∉ extR ∧ sib j ∉ extR ∧ j ∉ extL ∧ sib j ∉ extL) := by
    intro j
    rw [hiffL, hiffR]
    constructor
    · rintro ⟨⟨h1, h2, h3⟩, h4, h5⟩
      exact ⟨h1, h2, h3, h4, h5⟩
    · rintro ⟨h1, h2, h3, h4, h5⟩
      exact ⟨⟨h1, h2, h3⟩, h4, h5⟩
  refine ⟨?_, ?_, ?_⟩
  · -- point count = segment count + 1
    have hcard : (curveSegs (cf :: tail)).card = tail.length := by
      rw [hcurve, List.toFinset_card_of_nodup hmapnd, List.length_map]
    simp [hcard]
  · -- the curve's segments are disjoint from the surviving ones
    rw [Finset.disjoint_left]
    intro t ht hts
    rw [mem_curveSegs] at ht
    obtain ⟨x, hx, rfl⟩ := ht
    rw [List.mem_toFinset, List.mem_map] at hts
    obtain ⟨z, hz, hseg⟩ := hts
    have hzm := (hG z).mp hz
    rcases (segOf_eq_iff x z).mp hseg.symm with h | h
    · -- z = x up to identity: x is consumed, z survives
      rcases List.mem_cons.mp hx with rfl | hx
      · exact hcfe (h ▸ hzm.1)
      rcases (hmemtail x).mp hx with rfl | h2 | h2
      · exact hcse (h ▸ hzm.1)
      · exact hzm.2.1 (h ▸ h2)
      · exact hzm.2.2.2.1 (h ▸ h2)
    · -- z = sib x: the sibling endpoint is consumed too
      rcases List.mem_cons.mp hx with rfl | hx
      · rw [hscf] at h
        exact hcse (h ▸ hzm.1)
      rcases (hmemtail x).mp hx with rfl | h2 | h2
      · rw [hscs] at h
        exact hcfe (h ▸ hzm.1)
      · have : sib z ∈ extR := by rw [h, sib_sib]; exact h2
        exact hzm.2.2.1 this
      · have : sib z ∈ extL := by rw [h, sib_sib]; exact h2
        exact hzm.2.2.2.2 this
  · -- together they are exactly the segments available at iteration start
    apply Finset.ext
    intro t
    constructor
    · intro ht
      rcases Finset.mem_union.mp ht with ht | ht
      · rw [mem_curveSegs] at ht
        obtain ⟨x, hx, rfl⟩ := ht
        rcases List.mem_cons.mp hx with rfl | hx
        · exact Finset.mem_insert_self _ _
        rcases (hmemtail x).mp hx with rfl | h2 | h2
        · rw [← hscf, segOf_sib]
          exact Finset.mem_insert_self _ _
        · refine Finset.mem_insert_of_mem ?_
          rw [List.mem_toFinset, List.mem_map]
          exact ⟨x, hmemR x h2, rfl⟩
        · refine Finset.mem_insert_of_mem ?_
          rw [List.mem_toFinset, List.mem_map]
          exact ⟨x, hmemL1 x h2, rfl⟩
      · rw [List.mem_toFinset, List.mem_map] at ht
        obtain ⟨z, hz, rfl⟩ := ht
        refine Finset.mem_insert_of_mem ?_
        rw [List.mem_toFinset, List.mem_map]
        exact ⟨z, hsub2 z hz, rfl⟩
    · intro ht
      rcases Finset.mem_insert.mp ht with rfl | ht
      · refine Finset.mem_union_left _ ?_
        rw [mem_curveSegs]
        exact ⟨cf, List.mem_cons_self _ _, rfl⟩
      · rw [List.mem_toFinset, List.mem_map] at ht
        obtain ⟨z, hz, rfl⟩ := ht
        by_cases hz2 : z ∈ st2e
        · refine Finset.mem_union_right _ ?_
          rw [List.mem_toFinset, List.mem_map]
          exact ⟨z, hz2, rfl⟩
        · refine Finset.mem_union_left _ ?_
          rw [mem_curveSegs]
          rw [hG] at hz2
          push_neg at hz2
          by_cases hR : z ∈ extR
          · exact ⟨z, List.mem_cons_of_mem _ ((hmemtail z).mpr (Or.inr (Or.inl hR))), rfl⟩
          by_cases hRs : sib z ∈ extR
          · exact ⟨sib z, List.mem_cons_of_mem _ ((hmemtail _).mpr (Or.inr (Or.inl hRs))),
              segOf_sib z⟩
          by_cases hL : z ∈ extL
          · exact ⟨z, List.mem_cons_of_mem _ ((hmemtail z).mpr (Or.inr (Or.inr hL))), rfl⟩
          have hLs : sib z ∈ extL := hz2 hz hR hRs hL
          exact ⟨sib z, List.mem_cons_of_mem _ ((hmemtail _).mpr (Or.inr (Or.inr hLs))),
            segOf_sib z⟩

end CombineSegments

namespace CombineSegments

/-- One full iteration of the outer assembly loop, starting from the seed
segment `{cf, cf+1}`: the right and (unless a closed curve was found) left
extension loops succeed and produce a curve whose point count exceeds its
segment count by one, whose segments are disjoint from those still
available, and which together with the survivors accounts exactly for the
segments available at the start of the iteration. -/
theorem assembleOne (f s : List (ℕ × ℕ)) (e1 : List ℕ) (cf : ℕ) (P : ℕ)
    (hcf2 : cf % 2 = 0)
    (hinvp : InvPairs f s) (hinve : InvEnd e1 P)
    (hment : ∀ x ∈ pairMentions f, x ∈ e1 ∨ x = cf ∨ x = cf + 1)
    (hcfe : cf ∉ e1) (hcse : cf + 1 ∉ e1) :
    ∃ (st2 : St) (seg2 : List ℕ) (st1 : St) (seg1 : List ℕ) (skip : Bool),
      rightLoop (f.length + 1) ⟨f, s, e1⟩ cf (cf + 1) [cf, cf + 1] = .ok (st1, seg1, skip) ∧
      ((skip = true ∧ st2 = st1 ∧ seg2 = seg1) ∨
       (skip = false ∧ leftLoop (st1.firstD.length + 1) st1 cf seg1 = .ok (st2, seg2))) ∧
      InvPairs st2.firstD st2.secondD ∧
      InvEnd st2.endD P ∧
      (∀ x ∈ pairMentions st2.firstD, x ∈ st2.endD) ∧
      seg2.length = (curveSegs seg2).card + 1 ∧
      2 ≤ seg2.length ∧
      Disjoint (curveSegs seg2) (st2.endD.map segOf).toFinset ∧
      curveSegs seg2 ∪ (st2.endD.map segOf).toFinset
        = insert (segOf cf) (e1.map segOf).toFinset ∧
      st2.endD.length + 2 * seg2.length = e1.length + 4 := by
  obtain ⟨st1, extR, skip, hrun1, hinvp1, hinve1, hndR, hmemR, hsibR, hiffR, hlenR,
      hmpostR, hcfpostR⟩ :=
    rightLoop_spec (f.length + 1) ⟨f, s, e1⟩ cf (cf + 1) [cf, cf + 1] P
      (by dsimp only; omega) hinvp hinve hment hcfe hcse
  dsimp only at hlenR
  cases skip with
  | true =>
    obtain ⟨hA, hB, hC⟩ :=
      assembleCore e1 cf P extR [] st1.endD st1.endD hcf2 hinve hcfe hcse
        hndR hmemR hsibR hiffR hcfpostR (by simp) (by simp) (by simp) (by simp)
    rw [List.append_nil] at hA hB hC
    refine ⟨st1, [cf, cf + 1] ++ extR, st1, [cf, cf + 1] ++ extR, true, hrun1,
      Or.inl ⟨rfl, rfl, rfl⟩, hinvp1, hinve1, ?_, hA, by simp, hB, hC, ?_⟩
    · intro x hx
      rcases hmpostR x hx with h | h
      · exact h
      · simp at h
    · have hl : ([cf, cf + 1] ++ extR).length = extR.length + 2 := by
        simp
      omega
  | false =>
    obtain ⟨st2, extL, hrun2, hinvp2, hinve2, hndL, hmemL, hsibL, hiffL, hlenL,
        hmpostL⟩ :=
      leftLoop_spec (st1.firstD.length + 1) st1 cf ([cf, cf + 1] ++ extR) P
        (by omega) hinvp1 hinve1
        (fun x hx => by
          rcases hmpostR x hx with h | h
          · exact Or.inl h
          · exact Or.inr h.2)
        hcfpostR
    obtain ⟨hA, hB, hC⟩ :=
      assembleCore e1 cf P extR extL st1.endD st2.endD hcf2 hinve hcfe hcse
        hndR hmemR hsibR hiffR hcfpostR hndL hmemL hsibL hiffL
    refine ⟨st2, ([cf, cf + 1] ++ extR) ++ extL, st1, [cf, cf + 1] ++ extR, false, hrun1,
      Or.inr ⟨rfl, hrun2⟩, hinvp2, hinve2, hmpostL, hA, by simp, hB, hC, ?_⟩
    have hl : (([cf, cf + 1] ++ extR) ++ extL).length = extR.length + extL.length + 2 := by
      simp
      try omega
    omega

end CombineSegments

namespace CombineSegments

/-- The outer assembly loop, on a state satisfying the invariants, succeeds
and emits curves that partition the available segments, each curve holding
one more point than it has segments. -/
theorem outerLoop_spec :
    ∀ (fuel : ℕ) (st : St) (acc : List (List ℕ)) (P : ℕ),
      st.endD.length ≤ 2 * fuel →
      InvPairs st.firstD st.secondD →
      InvEnd st.endD P →
      (∀ x ∈ pairMentions st.firstD, x ∈ st.endD) →
      ∃ curves : List (List ℕ),
        outerLoop fuel st acc = .ok (acc ++ curves) ∧
        List.Pairwise (fun c d => Disjoint (curveSegs c) (curveSegs d)) curves ∧
        unionSegs curves = (st.endD.map segOf).toFinset ∧
        (∀ c ∈ curves, c.length = (curveSegs c).card + 1 ∧ 2 ≤ c.length) := by
  intro fuel
  induction fuel with
  | zero =>
    rintro ⟨f, s, endD⟩ acc P hfuel _ _ _
    cases endD with
    | nil =>
      refine ⟨[], ?_, by simp, by simp [unionSegs_nil], by simp⟩
      simp only [outerLoop, List.append_nil]
    | cons j rest => simp at hfuel
  | succ fuel ih =>
    rintro ⟨f, s, endD⟩ acc P hfuel ⟨hndm, hswap⟩ ⟨hnde, hbnd, hsib⟩ hment
    cases endD with
    | nil =>
      refine ⟨[], ?_, by simp, by simp [unionSegs_nil], by simp⟩
      simp only [outerLoop, List.append_nil]
    | cons j rest =>
      dsimp only at hfuel hment hnde hbnd hsib ⊢
      -- name the seed segment's even endpoint and discharge the parity split
      obtain ⟨cf, hcf2, hcfeq, hcseq, hskeq, hset, hsegcf⟩ :
          ∃ cf, cf % 2 = 0 ∧
            (if j % 2 = 1 then j - 1 else j) = cf ∧
            (if j % 2 = 1 then j else j + 1) = cf + 1 ∧
            (if j % 2 = 1 then j - 1 else j + 1) = sib j ∧
            (∀ x, (x = j ∨ x = sib j) ↔ (x = cf ∨ x = cf + 1)) ∧
            segOf cf = segOf j := by
        rcases Nat.mod_two_eq_zero_or_one j with hj | hj
        · have hsj : sib j = j + 1 := sib_of_even hj
          refine ⟨j, hj, if_neg (by omega), if_neg (by omega), ?_, ?_, rfl⟩
          · rw [if_neg (by omega), hsj]
          · intro x
            rw [hsj]
        · have hsj : sib j = j - 1 := by
            unfold sib
            rw [if_pos hj]
          refine ⟨j - 1, by omega, if_pos hj, ?_, ?_, ?_, ?_⟩
          · rw [if_pos hj]
            omega
          · rw [if_pos hj, hsj]
          · intro x
            rw [hsj]
            omega
          · rw [← hsj, segOf_sib]
      have hjmem : j ∈ j :: rest := List.mem_cons_self _ _
      have hjrest : j ∉ rest := (List.nodup_cons.mp hnde).1
      have hndrest : rest.Nodup := (List.nodup_cons.mp hnde).2
      have hsibjrest : sib j ∈ rest := by
        rcases List.mem_cons.mp (hsib j hjmem) with h | h
        · exact absurd h (sib_ne j)
        · exact h
      have hdelS : delEnd rest (sib j) = .ok (rest.erase (sib j)) := by
        unfold delEnd
        rw [if_pos hsibjrest]
      have he1mem : ∀ x, x ∈ rest.erase (sib j) ↔ (x ∈ rest ∧ x ≠ sib j) := by
        intro x
        rw [List.Nodup.mem_erase_iff hndrest]
        tauto
      have hinve1 : InvEnd (rest.erase (sib j)) P := by
        refine ⟨hndrest.erase _, ?_, ?_⟩
        · intro x hx
          exact hbnd x (List.mem_cons_of_mem _ ((he1mem x).mp hx).1)
        · intro x hx
          obtain ⟨hx1, hx2⟩ := (he1mem x).mp hx
          have hxj : x ≠ j := fun h => hjrest (h ▸ hx1)
          have hsxj : sib x ≠ j := by
            intro h
            exact hx2 (by rw [← h, sib_sib])
          have hsxm : sib x ∈ rest := by
            rcases List.mem_cons.mp (hsib x (List.mem_cons_of_mem _ hx1)) with h | h
            · exact absurd h hsxj
            · exact h
          refine (he1mem (sib x)).mpr ⟨hsxm, ?_⟩
          intro h
          have := congrArg sib h
          rw [sib_sib, sib_sib] at this
          exact hxj this
      have hnotin : ∀ x, (x = cf ∨ x = cf + 1) → x ∉ rest.erase (sib j) := by
        intro x hx h
        obtain ⟨h1, h2⟩ := (he1mem x).mp h
        rcases (hset x).mpr hx with rfl | rfl
        · exact hjrest h1
        · exact h2 rfl
      have hcfe1 : cf ∉ rest.erase (sib j) := hnotin cf (Or.inl rfl)
      have hcse1 : cf + 1 ∉ rest.erase (sib j) := hnotin (cf + 1) (Or.inr rfl)
      have hment1 : ∀ x ∈ pairMentions f, x ∈ rest.erase (sib j) ∨ x = cf ∨ x = cf + 1 := by
        intro x hx
        rcases List.mem_cons.mp (hment x hx) with rfl | h
        · right
          exact (hset x).mp (Or.inl rfl)
        · by_cases hxs : x = sib j
          · right
            exact (hset x).mp (Or.inr hxs)
          · left
            exact (he1mem x).mpr ⟨h, hxs⟩
      obtain ⟨st2, seg2, st1, seg1, skip, hrun1, hbranch, hinvp2, hinve2, hment2,
          hcard, hlen2, hdisj, hunion, hlen⟩ :=
        assembleOne f s (rest.erase (sib j)) cf P hcf2 ⟨hndm, hswap⟩ hinve1
          hment1 hcfe1 hcse1
      have he1len : (rest.erase (sib j)).length = rest.length - 1 :=
        List.length_erase_of_mem hsibjrest
      have hrpos : 0 < rest.length := List.length_pos_of_mem hsibjrest
      have hfuel2 : st2.endD.length ≤ 2 * fuel := by
        simp only [List.length_cons] at hfuel
        omega
      obtain ⟨curves, hrun3, hpair3, hunion3, hcard3⟩ :=
        ih st2 (acc ++ [seg2]) P hfuel2 hinvp2 hinve2 hment2
      have hsets : insert (segOf cf) (((rest.erase (sib j)).map segOf).toFinset)
          = (((j :: rest).map segOf).toFinset) := by
        apply Finset.ext
        intro t
        simp only [Finset.mem_insert, List.mem_toFinset, List.mem_map, List.mem_cons]
        constructor
        · rintro (rfl | ⟨z, hz, rfl⟩)
          · exact ⟨j, Or.inl rfl, hsegcf.symm⟩
          · exact ⟨z, Or.inr ((he1mem z).mp hz).1, rfl⟩
        · rintro ⟨z, hz, rfl⟩
          rcases hz with rfl | hz
          · exact Or.inl hsegcf.symm
          · by_cases hzs : z = sib j
            · subst hzs
              rw [segOf_sib]
              exact Or.inl hsegcf.symm
            · exact Or.inr ⟨z, (he1mem z).mpr ⟨hz, hzs⟩, rfl⟩
      refine ⟨seg2 :: curves, ?_, ?_, ?_, ?_⟩
      · rw [outerLoop]
        try dsimp only
        rw [hskeq, hdelS]
        try dsimp only
        rw [hcfeq, hcseq, hrun1]
        try dsimp only
        rcases hbranch with ⟨rfl, rfl, rfl⟩ | ⟨rfl, hrun2⟩
        · rw [if_pos rfl, hrun3]
          simp
        · simp only [Bool.false_eq_true, if_neg (by exact fun hh => hh)]
          rw [hrun2]
          dsimp only
          rw [hrun3]
          simp
      · refine List.pairwise_cons.mpr ⟨?_, hpair3⟩
        intro d hd
        have hsub := curveSegs_subset_unionSegs hd
        rw [hunion3] at hsub
        exact hdisj.mono_right hsub
      · rw [unionSegs_cons, hunion3, hunion, hsets]
      · intro c hc
        rcases List.mem_cons.mp hc with rfl | hc
        · exact ⟨hcard, hlen2⟩
        · exact hcard3 c hc

end CombineSegments

namespace CombineSegments

theorem lexLe_cons (a b : ℚ) (p q : Pt) :
    lexLe (a :: p) (b :: q) = if a < b then true else if b < a then false else lexLe p q :=
  rfl

theorem lexLe_refl (p : Pt) : lexLe p p = true := by
  induction p with
  | nil => rfl
  | cons a t ih =>
    rw [lexLe_cons, if_neg (lt_irrefl a), if_neg (lt_irrefl a)]
    exact ih

theorem lexLe_cons_iff {a b : ℚ} {p q : Pt} :
    lexLe (a :: p) (b :: q) = true ↔ (a < b ∨ (a = b ∧ lexLe p q = true)) := by
  rw [lexLe_cons]
  rcases lt_trichotomy a b with h | h | h
  · rw [if_pos h]
    simp [h]
  · subst h
    rw [if_neg (lt_irrefl a), if_neg (lt_irrefl a)]
    simp [lt_irrefl]
  · rw [if_neg (not_lt_of_gt h), if_pos h]
    simp [not_lt_of_gt h, ne_of_gt h]

theorem lexLe_total (p q : Pt) : lexLe p q = true ∨ lexLe q p = true := by
  induction p generalizing q with
  | nil => exact Or.inl rfl
  | cons a t ih =>
    cases q with
    | nil => exact Or.inr rfl
    | cons b u =>
      rw [lexLe_cons_iff, lexLe_cons_iff]
      rcases lt_trichotomy a b with h | h | h
      · exact Or.inl (Or.inl h)
      · rcases ih u with h2 | h2
        · exact Or.inl (Or.inr ⟨h, h2⟩)
        · exact Or.inr (Or.inr ⟨h.symm, h2⟩)
      · exact Or.inr (Or.inl h)

theorem lexLe_trans {p q r : Pt} (h1 : lexLe p q = true) (h2 : lexLe q r = true) :
    lexLe p r = true := by
  induction p generalizing q r with
  | nil => rfl
  | cons a t ih =>
    cases q with
    | nil => simp [lexLe] at h1
    | cons b u =>
      cases r with
      | nil => simp [lexLe] at h2
      | cons c v =>
        rw [lexLe_cons_iff] at h1 h2 ⊢
        rcases h1 with h1 | ⟨rfl, h1⟩
        · rcases h2 with h2 | ⟨rfl, h2⟩
          · exact Or.inl (h1.trans h2)
          · exact Or.inl h1
        · rcases h2 with h2 | ⟨rfl, h2⟩
          · exact Or.inl h2
          · exact Or.inr ⟨rfl, ih h1 h2⟩

theorem lexLe_antisymm {p q : Pt} (h1 : lexLe p q = true) (h2 : lexLe q p = true) :
    p = q := by
  induction p generalizing q with
  | nil =>
    cases q with
    | nil => rfl
    | cons b u => simp [lexLe] at h2
  | cons a t ih =>
    cases q with
    | nil => simp [lexLe] at h1
    | cons b u =>
      rw [lexLe_cons_iff] at h1 h2
      rcases h1 with h1 | ⟨rfl, h1⟩
      · rcases h2 with h2 | ⟨h2, _⟩
        · exact absurd h2 (not_lt_of_gt h1)
        · exact absurd h2.symm (ne_of_lt h1)
      · rcases h2 with h2 | ⟨_, h2⟩
        · exact absurd h2 (lt_irrefl a)
        · rw [ih h1 h2]

theorem sortedIdx_sorted (a : Arr3) : List.Sorted (idxLe a) (sortedIdx a) := by
  haveI : IsTotal ℕ (idxLe a) := ⟨fun i j => lexLe_total _ _⟩
  haveI : IsTrans ℕ (idxLe a) := ⟨fun i j k => lexLe_trans⟩
  exact List.sorted_insertionSort _ _

theorem zip_dropLast_tail (s : List ℕ) :
    List.zip s.dropLast s.tail = List.zip s s.tail := by
  induction s with
  | nil => rfl
  | cons x t ih =>
    cases t with
    | nil => rfl
    | cons y u =>
      simp only [List.dropLast_cons₂, List.tail_cons, List.zip_cons_cons]
      rw [List.tail_cons] at ih
      rw [ih]

theorem rollOne_zip {s : List ℕ} {z : ℕ} (hz : s.getLast? = some z) :
    List.zip (rollOne s) s = (z, s.headI) :: List.zip s s.tail := by
  cases s with
  | nil => simp at hz
  | cons x t =>
    unfold rollOne
    rw [hz]
    show List.zip (z :: (x :: t).dropLast) (x :: t) = _
    rw [List.zip_cons_cons]
    have h := zip_dropLast_tail (x :: t)
    rw [List.tail_cons] at h
    rw [show (x :: t).headI = x from rfl, h, List.tail_cons]

theorem filter_zip_adjPairs (cl : ℕ → ℕ → Bool) (s : List ℕ) :
    (List.zip s s.tail).filter (fun ij => cl ij.1 ij.2) = adjPairs cl s := by
  induction s with
  | nil => rfl
  | cons x t ih =>
    cases t with
    | nil => rfl
    | cons y u =>
      rw [List.tail_cons, List.zip_cons_cons, List.filter_cons]
      rw [List.tail_cons] at ih
      by_cases h : cl x y = true
      · simp only [h, if_true, adjPairs, ih]
      · simp only [Bool.not_eq_true] at h
        simp only [h, Bool.false_eq_true, if_false, adjPairs, ih]

theorem pairMentions_cons (x y : ℕ) (l : List (ℕ × ℕ)) :
    pairMentions ((x, y) :: l) = x :: y :: pairMentions l := by
  simp [pairMentions]

theorem adjPairs_mentions_subset (cl : ℕ → ℕ → Bool) :
    ∀ (s : List ℕ), ∀ x ∈ pairMentions (adjPairs cl s), x ∈ s := by
  intro s
  induction s with
  | nil => intro x hx; simp [adjPairs, pairMentions] at hx
  | cons a t ih =>
    cases t with
    | nil => intro x hx; simp [adjPairs, pairMentions] at hx
    | cons b u =>
      intro x hx
      by_cases h : cl a b = true
      · rw [show adjPairs cl (a :: b :: u)
            = (a, b) :: adjPairs cl (b :: u) by simp [adjPairs, h]] at hx
        rw [pairMentions_cons] at hx
        rcases List.mem_cons.mp hx with rfl | hx
        · exact List.mem_cons_self _ _
        rcases List.mem_cons.mp hx with rfl | hx
        · exact List.mem_cons_of_mem _ (List.mem_cons_self _ _)
        · exact List.mem_cons_of_mem _ (ih x hx)
      · rw [show adjPairs cl (a :: b :: u) = adjPairs cl (b :: u) by
          simp only [Bool.not_eq_true] at h
          simp [adjPairs, h]] at hx
        exact List.mem_cons_of_mem _ (ih x hx)

theorem adjPairs_head_mem (cl : ℕ → ℕ → Bool) {x : ℕ} {t : List ℕ}
    (hnd : (x :: t).Nodup) (hx : x ∈ pairMentions (adjPairs cl (x :: t))) :
    ∃ z u, t = z :: u ∧ cl x z = true := by
  cases t with
  | nil => simp [adjPairs, pairMentions] at hx
  | cons z u =>
    by_cases h : cl x z = true
    · exact ⟨z, u, rfl, h⟩
    · rw [show adjPairs cl (x :: z :: u) = adjPairs cl (z :: u) by
        simp only [Bool.not_eq_true] at h
        simp [adjPairs, h]] at hx
      exact absurd (adjPairs_mentions_subset cl (z :: u) x hx)
        (List.nodup_cons.mp hnd).1

theorem adjPairs_mentions_nodup (cl : ℕ → ℕ → Bool) :
    ∀ (s : List ℕ), s.Nodup →
      (∀ x y z, [x, y, z].Sublist s → ¬(cl x y = true ∧ cl y z = true)) →
      (pairMentions (adjPairs cl s)).Nodup := by
  intro s
  induction s with
  | nil => intro _ _; simp [adjPairs, pairMentions]
  | cons a t ih =>
    intro hnd htriple
    cases t with
    | nil => simp [adjPairs, pairMentions]
    | cons b u =>
      have hnd' : (b :: u).Nodup := (List.nodup_cons.mp hnd).2
      have htriple' : ∀ x y z, [x, y, z].Sublist (b :: u) →
          ¬(cl x y = true ∧ cl y z = true) :=
        fun x y z hsub => htriple x y z (hsub.cons _)
      have ihm := ih hnd' htriple'
      by_cases h : cl a b = true
      · rw [show adjPairs cl (a :: b :: u)
            = (a, b) :: adjPairs cl (b :: u) by simp [adjPairs, h]]
        rw [pairMentions_cons]
        refine List.nodup_cons.mpr ⟨?_, List.nodup_cons.mpr ⟨?_, ihm⟩⟩
        · intro hmem
          rcases List.mem_cons.mp hmem with h2 | h2
          · exact (List.nodup_cons.mp hnd).1 (h2 ▸ List.mem_cons_self _ _)
          · exact (List.nodup_cons.mp hnd).1
              (adjPairs_mentions_subset cl (b :: u) a h2)
        · intro hmem
          obtain ⟨z, u', rfl, hz⟩ := adjPairs_head_mem cl hnd' hmem
          refine htriple a b z ?_ ⟨h, hz⟩
          apply List.cons_sublist_cons.mpr
          apply List.cons_sublist_cons.mpr
          apply List.cons_sublist_cons.mpr
          exact List.nil_sublist u'
      · rw [show adjPairs cl (a :: b :: u) = adjPairs cl (b :: u) by
          simp only [Bool.not_eq_true] at h
          simp [adjPairs, h]]
        exact ihm

end CombineSegments

namespace CombineSegments

theorem allClose_self {tol : ℚ} (h : 0 < tol) (p : Pt) : allClose tol p p = true := by
  unfold allClose
  rw [List.all_eq_true]
  intro b hb
  rw [List.zipWith_same] at hb
  obtain ⟨x, hx, rfl⟩ := List.mem_map.mp hb
  have hr : ratSubLt x x tol = true := (ratSubLt_iff x x tol).mpr (by rw [sub_self]; exact h)
  simp [hr]

theorem equalIdxPairs_mem_bounds {a : Arr3} {tol : ℚ} {p : ℕ × ℕ}
    (hp : p ∈ equalIdxPairs a tol) : p.1 < numPoints a ∧ p.2 < numPoints a := by
  obtain ⟨x, y⟩ := p
  unfold equalIdxPairs at hp
  have hp' := List.mem_of_mem_filter hp
  obtain ⟨h1, h2⟩ := List.of_mem_zip hp'
  exact ⟨mem_sortedIdx.mp (rollOne_subset h1), mem_sortedIdx.mp h2⟩

/-- Under validity — a positive tolerance, no location with three endpoints,
and no two distinct locations within tolerance — every endpoint is recorded
in at most one equivalence pair, provided there are at least three
endpoints (so the wraparound comparison cannot duplicate a pair). -/
theorem matcher_valid (a : Arr3) (tol : ℚ)
    (htol : 0 < tol)
    (hP : 3 ≤ numPoints a)
    (h1 : ∀ i j k, i < numPoints a → j < numPoints a → k < numPoints a →
      i ≠ j → j ≠ k → i ≠ k →
      ¬(basePoint a i = basePoint a j ∧ basePoint a j = basePoint a k))
    (h2 : ∀ i j, i < numPoints a → j < numPoints a →
      basePoint a i ≠ basePoint a j →
      allClose tol (basePoint a i) (basePoint a j) = false) :
    (pairMentions (equalIdxPairs a tol)).Nodup := by
  have hciff : ∀ i j, i < numPoints a → j < numPoints a →
      (allClose tol (basePoint a i) (basePoint a j) = true ↔
        basePoint a i = basePoint a j) := by
    intro i j hi hj
    constructor
    · intro h
      by_contra hne
      rw [h2 i j hi hj hne] at h
      cases h
    · intro h
      rw [h]
      exact allClose_self htol _
  have hslen : (sortedIdx a).length = numPoints a := sortedIdx_length a
  have hsne : sortedIdx a ≠ [] := by
    intro h
    rw [h] at hslen
    simp at hslen
    omega
  have hz : (sortedIdx a).getLast? = some ((sortedIdx a).getLast hsne) :=
    List.getLast?_eq_getLast _ hsne
  have hsnd : (sortedIdx a).Nodup := sortedIdx_nodup a
  have hsorted := sortedIdx_sorted a
  -- the wraparound pair is never within tolerance when P ≥ 3
  have hwrap : allClose tol (basePoint a ((sortedIdx a).getLast hsne))
      (basePoint a (sortedIdx a).headI) = true → False := by
    intro hc
    obtain ⟨e0, t1, hs1⟩ : ∃ e0 t1, sortedIdx a = e0 :: t1 := by
      cases hcs : sortedIdx a with
      | nil => exact absurd hcs hsne
      | cons c t => exact ⟨c, t, rfl⟩
    obtain ⟨e1, t2, hs2⟩ : ∃ e1 t2, t1 = e1 :: t2 := by
      cases hct : t1 with
      | nil => rw [hs1, hct] at hslen; simp at hslen; omega
      | cons c t => exact ⟨c, t, rfl⟩
    obtain ⟨e2, t3, hs3⟩ : ∃ e2 t3, t2 = e2 :: t3 := by
      cases hct : t2 with
      | nil => rw [hs1, hs2, hct] at hslen; simp at hslen; omega
      | cons c t => exact ⟨c, t, rfl⟩
    have hheadI : (sortedIdx a).headI = e0 := by rw [hs1]; rfl
    have hhmem : (sortedIdx a).headI ∈ sortedIdx a := by
      rw [hheadI, hs1]
      exact List.mem_cons_self _ _
    have hzmem : (sortedIdx a).getLast hsne ∈ sortedIdx a := List.getLast_mem hsne
    have hpeq : basePoint a ((sortedIdx a).getLast hsne)
        = basePoint a (sortedIdx a).headI :=
      (hciff _ _ (mem_sortedIdx.mp hzmem) (mem_sortedIdx.mp hhmem)).mp hc
    have hhead : ∀ x ∈ sortedIdx a, idxLe a (sortedIdx a).headI x := by
      intro x hx
      rw [hheadI]
      rw [hs1] at hx
      rcases List.mem_cons.mp hx with rfl | hx
      · exact lexLe_refl _
      · have hpw : List.Pairwise (idxLe a) (e0 :: t1) := by
          rw [← hs1]
          exact hsorted
        exact (List.pairwise_cons.mp hpw).1 x hx
    have hlastle : ∀ x ∈ sortedIdx a, idxLe a x ((sortedIdx a).getLast hsne) := by
      intro x hx
      have happ : (sortedIdx a).dropLast ++ [(sortedIdx a).getLast hsne] = sortedIdx a :=
        List.dropLast_append_getLast hsne
      have hpw2 : List.Pairwise (idxLe a)
          ((sortedIdx a).dropLast ++ [(sortedIdx a).getLast hsne]) := by
        rw [happ]
        exact hsorted
      rw [← happ] at hx
      rcases List.mem_append.mp hx with hx | hx
      · exact (List.pairwise_append.mp hpw2).2.2 x hx _ (List.mem_singleton.mpr rfl)
      · rw [List.mem_singleton.mp hx]
        exact lexLe_refl _
    have hall : ∀ x ∈ sortedIdx a, basePoint a x = basePoint a (sortedIdx a).headI := by
      intro x hx
      have hup := hlastle x hx
      unfold idxLe at hup
      rw [hpeq] at hup
      have hdown := hhead x hx
      unfold idxLe at hdown
      exact lexLe_antisymm hup hdown
    have hm0 : e0 ∈ sortedIdx a := by
      rw [hs1]
      exact List.mem_cons_self _ _
    have hm1 : e1 ∈ sortedIdx a := by
      rw [hs1, hs2]
      exact List.mem_cons_of_mem _ (List.mem_cons_self _ _)
    have hm2 : e2 ∈ sortedIdx a := by
      rw [hs1, hs2, hs3]
      exact List.mem_cons_of_mem _ (List.mem_cons_of_mem _ (List.mem_cons_self _ _))
    have hndt := hsnd
    rw [hs1, hs2, hs3] at hndt
    simp only [List.nodup_cons, List.mem_cons, not_or] at hndt
    obtain ⟨⟨h01, h02, -⟩, ⟨h12, -⟩, -⟩ := hndt
    exact h1 e0 e1 e2 (mem_sortedIdx.mp hm0) (mem_sortedIdx.mp hm1) (mem_sortedIdx.mp hm2)
      h01 h12 h02
      ⟨(hall e0 hm0).trans (hall e1 hm1).symm, (hall e1 hm1).trans (hall e2 hm2).symm⟩
  -- hence the recorded pairs are exactly the adjacent ones, whose mentions
  -- cannot repeat under the no-three-coincide hypothesis
  have heqp : equalIdxPairs a tol
      = adjPairs (fun i j => allClose tol (basePoint a i) (basePoint a j)) (sortedIdx a) := by
    unfold equalIdxPairs
    rw [rollOne_zip hz, List.filter_cons, if_neg (fun hc => hwrap hc)]
    exact filter_zip_adjPairs (fun i j => allClose tol (basePoint a i) (basePoint a j))
      (sortedIdx a)
  rw [heqp]
  apply adjPairs_mentions_nodup _ _ hsnd
  intro x y z hsub hcl
  have hxs : x ∈ sortedIdx a := hsub.subset (by simp)
  have hys : y ∈ sortedIdx a := hsub.subset (by simp)
  have hzs : z ∈ sortedIdx a := hsub.subset (by simp)
  have hndt : ([x, y, z] : List ℕ).Nodup := hsnd.sublist hsub
  simp only [List.nodup_cons, List.mem_cons, List.mem_singleton, List.not_mem_nil,
    or_false, not_or, List.nodup_nil, and_true] at hndt
  obtain ⟨⟨hxy, hxz⟩, hyz, -⟩ := hndt
  exact h1 x y z (mem_sortedIdx.mp hxs) (mem_sortedIdx.mp hys) (mem_sortedIdx.mp hzs)
    hxy hyz hxz
    ⟨(hciff x y (mem_sortedIdx.mp hxs) (mem_sortedIdx.mp hys)).mp hcl.1,
     (hciff y z (mem_sortedIdx.mp hys) (mem_sortedIdx.mp hzs)).mp hcl.2⟩

end CombineSegments

namespace CombineSegments

theorem insertKV_append {d : List (ℕ × ℕ)} {k v : ℕ}
    (h : ∀ p ∈ d, p.1 ≠ k) : insertKV d k v = d ++ [(k, v)] := by
  induction d with
  | nil => rfl
  | cons p t ih =>
    obtain ⟨a, b⟩ := p
    have ha : a ≠ k := h (a, b) (List.mem_cons_self _ _)
    unfold insertKV
    rw [if_neg ha, ih (fun q hq => h q (List.mem_cons_of_mem _ hq))]
    rfl

theorem buildDict_aux (ps : List (ℕ × ℕ)) :
    ∀ d : List (ℕ × ℕ), ((d ++ ps).map Prod.fst).Nodup →
      ps.foldl (fun d p => insertKV d p.1 p.2) d = d ++ ps := by
  induction ps with
  | nil =>
    intro d _
    simp
  | cons p t ih =>
    intro d hnd
    obtain ⟨k, v⟩ := p
    rw [List.foldl_cons]
    have hk : ∀ q ∈ d, q.1 ≠ k := by
      intro q hq hqk
      rw [List.map_append] at hnd
      have hdisj := (List.nodup_append.mp hnd).2.2
      refine hdisj (a := k) ?_ ?_
      · rw [← hqk]
        exact List.mem_map_of_mem _ hq
      · exact List.mem_cons_self _ _
    rw [insertKV_append hk]
    have hnd2 : (((d ++ [(k, v)]) ++ t).map Prod.fst).Nodup := by
      rw [List.append_assoc]
      exact hnd
    rw [ih _ hnd2, List.append_assoc]
    rfl

theorem buildDict_eq_self {ps : List (ℕ × ℕ)} (h : (ps.map Prod.fst).Nodup) :
    buildDict ps = ps := by
  unfold buildDict
  have hb := buildDict_aux ps [] (by simpa using h)
  simpa using hb

theorem mem_fst_mentions {ps : List (ℕ × ℕ)} {x : ℕ} (h : x ∈ ps.map Prod.fst) :
    x ∈ pairMentions ps := by
  obtain ⟨p, hp, rfl⟩ := List.mem_map.mp h
  obtain ⟨u, v⟩ := p
  exact mem_pairMentions_left hp

theorem mem_snd_mentions {ps : List (ℕ × ℕ)} {x : ℕ} (h : x ∈ ps.map Prod.snd) :
    x ∈ pairMentions ps := by
  obtain ⟨p, hp, rfl⟩ := List.mem_map.mp h
  obtain ⟨u, v⟩ := p
  exact mem_pairMentions_right hp

theorem mentions_fst_nodup {ps : List (ℕ × ℕ)} (h : (pairMentions ps).Nodup) :
    (ps.map Prod.fst).Nodup := by
  induction ps with
  | nil => simp
  | cons p t ih =>
    obtain ⟨x, y⟩ := p
    rw [pairMentions_cons] at h
    simp only [List.map_cons]
    refine List.nodup_cons.mpr
      ⟨?_, ih (List.nodup_cons.mp (List.nodup_cons.mp h).2).2⟩
    intro hx
    exact (List.nodup_cons.mp h).1 (List.mem_cons_of_mem _ (mem_fst_mentions hx))

theorem mentions_snd_nodup {ps : List (ℕ × ℕ)} (h : (pairMentions ps).Nodup) :
    (ps.map Prod.snd).Nodup := by
  induction ps with
  | nil => simp
  | cons p t ih =>
    obtain ⟨x, y⟩ := p
    rw [pairMentions_cons] at h
    simp only [List.map_cons]
    refine List.nodup_cons.mpr
      ⟨?_, ih (List.nodup_cons.mp (List.nodup_cons.mp h).2).2⟩
    intro hy
    exact (List.nodup_cons.mp (List.nodup_cons.mp h).2).1 (mem_snd_mentions hy)

theorem firstDict_eq {a : Arr3} {tol : ℚ}
    (h : (pairMentions (equalIdxPairs a tol)).Nodup) :
    firstDict a tol = equalIdxPairs a tol :=
  buildDict_eq_self (mentions_fst_nodup h)

theorem secondDict_eq {a : Arr3} {tol : ℚ}
    (h : (pairMentions (equalIdxPairs a tol)).Nodup) :
    secondDict a tol = (equalIdxPairs a tol).map (fun p => (p.2, p.1)) := by
  unfold secondDict
  apply buildDict_eq_self
  have hm : ((equalIdxPairs a tol).map (fun p => (p.2, p.1))).map Prod.fst
      = (equalIdxPairs a tol).map Prod.snd := by
    rw [List.map_map]
    rfl
  rw [hm]
  exact mentions_snd_nodup h

theorem invEnd_init {P : ℕ} (hev : P % 2 = 0) : InvEnd ((List.range P).reverse) P := by
  refine ⟨List.nodup_reverse.mpr (List.nodup_range P), ?_, ?_⟩
  · intro x hx
    rw [List.mem_reverse, List.mem_range] at hx
    exact hx
  · intro j hj
    rw [List.mem_reverse, List.mem_range] at hj
    rw [List.mem_reverse, List.mem_range]
    unfold sib
    rcases Nat.mod_two_eq_zero_or_one j with h | h
    · rw [if_neg (by omega)]
      omega
    · rw [if_pos h]
      omega

theorem mentions_bound {a : Arr3} {tol : ℚ} {x : ℕ}
    (hx : x ∈ pairMentions (equalIdxPairs a tol)) : x < numPoints a := by
  obtain ⟨p, hp, he⟩ := mem_pairMentions.mp hx
  have hb := equalIdxPairs_mem_bounds hp
  rcases he with rfl | rfl
  · exact hb.1
  · exact hb.2

theorem flatMap_segs_length {segs : List (Pt × Pt)}
    (hdim : ∀ pq ∈ segs, pq.1.length = 2 ∧ pq.2.length = 2) :
    (segs.flatMap (fun s => s.1 ++ s.2)).length = 4 * segs.length := by
  induction segs with
  | nil => rfl
  | cons pq t ih =>
    rw [List.flatMap_cons, List.length_append, List.length_append,
      ih (fun q hq => hdim q (List.mem_cons_of_mem _ hq)),
      (hdim pq (List.mem_cons_self _ _)).1, (hdim pq (List.mem_cons_self _ _)).2,
      List.length_cons]
    ring

theorem segsArr_numPoints {segs : List (Pt × Pt)}
    (hdim : ∀ pq ∈ segs, pq.1.length = 2 ∧ pq.2.length = 2) :
    numPoints (segsArr 2 segs) = 2 * segs.length := by
  unfold numPoints segsArr
  dsimp only
  rw [flatMap_segs_length hdim]
  omega

theorem range_reverse_segOf (m : ℕ) :
    (((List.range (2 * m)).reverse.map segOf).toFinset) = Finset.range m := by
  apply Finset.ext
  intro t
  simp only [List.mem_toFinset, List.mem_map, List.mem_reverse, List.mem_range,
    Finset.mem_range]
  constructor
  · rintro ⟨z, hz, rfl⟩
    unfold segOf
    omega
  · intro ht
    refine ⟨2 * t, by omega, ?_⟩
    unfold segOf
    omega

/-- Whenever the matcher has recorded every endpoint at most once, the whole
assembly succeeds and the emitted curves partition the segments. -/
theorem runAssembly_valid (a : Arr3) (tol : ℚ)
    (hev : numPoints a % 2 = 0)
    (hmnd : (pairMentions (equalIdxPairs a tol)).Nodup) :
    ∃ curves : List (List ℕ),
      runAssembly a tol = .ok curves ∧
      List.Pairwise (fun c d => Disjoint (curveSegs c) (curveSegs d)) curves ∧
      unionSegs curves = (((List.range (numPoints a)).reverse.map segOf).toFinset) ∧
      (∀ c ∈ curves, c.length = (curveSegs c).card + 1 ∧ 2 ≤ c.length) := by
  have hfd : firstDict a tol = equalIdxPairs a tol := firstDict_eq hmnd
  have hsd : secondDict a tol = (equalIdxPairs a tol).map (fun p => (p.2, p.1)) :=
    secondDict_eq hmnd
  obtain ⟨curves, hrun, hp, hu, hc⟩ :=
    outerLoop_spec (numPoints a)
      ⟨firstDict a tol, secondDict a tol, (List.range (numPoints a)).reverse⟩
      [] (numPoints a)
      (by
        dsimp only
        rw [List.length_reverse, List.length_range]
        omega)
      ⟨by rw [hfd]; exact hmnd, by rw [hfd, hsd]⟩
      (invEnd_init hev)
      (by
        intro x hx
        dsimp only at hx ⊢
        rw [hfd] at hx
        rw [List.mem_reverse, List.mem_range]
        exact mentions_bound hx)
  refine ⟨curves, ?_, hp, hu, hc⟩
  unfold runAssembly initSt
  rw [hrun]
  simp

end CombineSegments

namespace CombineSegments

theorem generate_curves_partition_under_separation
    (segs : List (Pt × Pt)) (tol : ℚ)
    (htol : 0 < tol)
    (hdim : ∀ pq ∈ segs, pq.1.length = 2 ∧ pq.2.length = 2)
    (h1 : ∀ i j k, i < 2 * segs.length → j < 2 * segs.length → k < 2 * segs.length →
      i ≠ j → j ≠ k → i ≠ k →
      ¬(basePoint (segsArr 2 segs) i = basePoint (segsArr 2 segs) j ∧
        basePoint (segsArr 2 segs) j = basePoint (segsArr 2 segs) k))
    (h2 : ∀ i j, i < 2 * segs.length → j < 2 * segs.length →
      basePoint (segsArr 2 segs) i ≠ basePoint (segsArr 2 segs) j →
      allClose tol (basePoint (segsArr 2 segs) i) (basePoint (segsArr 2 segs) j) = false) :
    ∃ curves : List (List ℕ),
      generate_curves (segsArr 2 segs) tol
        = .ok (curves.map (fun c => c.map (basePoint (segsArr 2 segs))), none) ∧
      List.Pairwise (fun c d => Disjoint (curveSegs c) (curveSegs d)) curves ∧
      unionSegs curves = Finset.range segs.length ∧
      ∀ c ∈ curves, c.length = (curveSegs c).card + 1 ∧ 2 ≤ c.length := by
  have hnp : numPoints (segsArr 2 segs) = 2 * segs.length := segsArr_numPoints hdim
  have hdl : (segsArr 2 segs).data.length = 4 * segs.length := by
    unfold segsArr
    dsimp only
    exact flatMap_segs_length hdim
  have hcond : numPoints (segsArr 2 segs) * (segsArr 2 segs).n
      = (segsArr 2 segs).data.length := by
    rw [hnp, hdl]
    show 2 * segs.length * (2 : ℕ) = 4 * segs.length
    ring
  have hn0 : ¬ (segsArr 2 segs).n = 0 := by
    show ¬ (2 : ℕ) = 0
    omega
  by_cases hP2 : 2 ≤ segs.length
  · have hmnd := matcher_valid (segsArr 2 segs) tol htol
      (by rw [hnp]; omega)
      (by rw [hnp]; exact h1)
      (by rw [hnp]; exact h2)
    obtain ⟨curves, hrun, hp, hu, hc⟩ :=
      runAssembly_valid (segsArr 2 segs) tol (by rw [hnp]; omega) hmnd
    refine ⟨curves, ?_, hp, ?_, hc⟩
    · unfold generate_curves
      rw [if_pos hcond, if_neg hn0, hrun]
    · rw [hu, hnp, range_reverse_segOf]
  · -- at most one segment: direct computation
    cases segs with
    | nil =>
      refine ⟨[], ?_, by simp, by simp [unionSegs_nil], by simp⟩
      unfold generate_curves
      rw [if_pos hcond, if_neg hn0]
      have hnpl : numPoints (segsArr 2 ([] : List (Pt × Pt))) = 0 := by
        rw [hnp]
        rfl
      have hasm : runAssembly (segsArr 2 ([] : List (Pt × Pt))) tol = .ok [] := by
        unfold runAssembly initSt
        rw [hnpl]
        simp only [List.range_zero, List.reverse_nil, outerLoop]
      rw [hasm]
    | cons pq rest =>
      cases rest with
      | cons pq2 rest2 =>
        exfalso
        apply hP2
        simp only [List.length_cons]
        omega
      | nil =>
        have hnpl : numPoints (segsArr 2 [pq]) = 2 := by
          rw [hnp]
          rfl
        have hb01 : (0 : ℕ) < 2 * ([pq] : List (Pt × Pt)).length := by
          simp
        have hb11 : (1 : ℕ) < 2 * ([pq] : List (Pt × Pt)).length := by
          simp
        have hrange2 : List.range 2 = [0, 1] := rfl
        have hs2 : sortedIdx (segsArr 2 [pq])
            = if idxLe (segsArr 2 [pq]) 0 1 then [0, 1] else [1, 0] := by
          unfold sortedIdx
          rw [hnpl, hrange2]
          simp [List.insertionSort, List.orderedInsert]
        by_cases heq : basePoint (segsArr 2 [pq]) 0 = basePoint (segsArr 2 [pq]) 1
        · have hC1 : allClose tol (basePoint (segsArr 2 [pq]) 1)
              (basePoint (segsArr 2 [pq]) 0) = true := by
            rw [← heq]
            exact allClose_self htol _
          have hC2 : allClose tol (basePoint (segsArr 2 [pq]) 0)
              (basePoint (segsArr 2 [pq]) 1) = true := by
            rw [← heq]
            exact allClose_self htol _
          by_cases hle : idxLe (segsArr 2 [pq]) 0 1
          · have hpairs : equalIdxPairs (segsArr 2 [pq]) tol = [(1, 0), (0, 1)] := by
              unfold equalIdxPairs
              rw [hs2, if_pos hle]
              rw [show List.zip (rollOne [0, 1]) [0, 1] = [(1, 0), (0, 1)] from rfl]
              simp only [List.filter_cons, List.filter_nil]
              try dsimp only
              rw [hC1, hC2]
              rfl
            refine ⟨[[0, 1]], ?_, by simp,
              by simp only [List.length_cons, List.length_nil]; decide, by decide⟩
            unfold generate_curves
            rw [if_pos hcond, if_neg hn0]
            have hasm : runAssembly (segsArr 2 [pq]) tol = .ok [[0, 1]] := by
              unfold runAssembly initSt firstDict secondDict
              rw [hpairs, hnpl]
              decide
            rw [hasm]
          · have hpairs : equalIdxPairs (segsArr 2 [pq]) tol = [(0, 1), (1, 0)] := by
              unfold equalIdxPairs
              rw [hs2, if_neg hle]
              rw [show List.zip (rollOne [1, 0]) [1, 0] = [(0, 1), (1, 0)] from rfl]
              simp only [List.filter_cons, List.filter_nil]
              try dsimp only
              rw [hC2, hC1]
              rfl
            refine ⟨[[0, 1]], ?_, by simp,
              by simp only [List.length_cons, List.length_nil]; decide, by decide⟩
            unfold generate_curves
            rw [if_pos hcond, if_neg hn0]
            have hasm : runAssembly (segsArr 2 [pq]) tol = .ok [[0, 1]] := by
              unfold runAssembly initSt firstDict secondDict
              rw [hpairs, hnpl]
              decide
            rw [hasm]
        · have hF1 : allClose tol (basePoint (segsArr 2 [pq]) 1)
              (basePoint (segsArr 2 [pq]) 0) = false :=
            h2 1 0 hb11 hb01 (fun h => heq h.symm)
          have hF2 : allClose tol (basePoint (segsArr 2 [pq]) 0)
              (basePoint (segsArr 2 [pq]) 1) = false :=
            h2 0 1 hb01 hb11 heq
          have hpairs : equalIdxPairs (segsArr 2 [pq]) tol = [] := by
            unfold equalIdxPairs
            rw [hs2]
            by_cases hle : idxLe (segsArr 2 [pq]) 0 1
            · rw [if_pos hle]
              rw [show List.zip (rollOne [0, 1]) [0, 1] = [(1, 0), (0, 1)] from rfl]
              simp only [List.filter_cons, List.filter_nil]
              try dsimp only
              rw [hF1, hF2]
              rfl
            · rw [if_neg hle]
              rw [show List.zip (rollOne [1, 0]) [1, 0] = [(0, 1), (1, 0)] from rfl]
              simp only [List.filter_cons, List.filter_nil]
              try dsimp only
              rw [hF2, hF1]
              rfl
          refine ⟨[[0, 1]], ?_, by simp,
            by simp only [List.length_cons, List.length_nil]; decide, by decide⟩
          unfold generate_curves
          rw [if_pos hcond, if_neg hn0]
          have hasm : runAssembly (segsArr 2 [pq]) tol = .ok [[0, 1]] := by
            unfold runAssembly initSt firstDict secondDict
            rw [hpairs, hnpl]
            decide
          rw [hasm]

end CombineSegments

namespace CombineSegments

/-- C6 as stated is false: in the three-segment input below every location
is held by exactly one endpoint (all six endpoint locations are pairwise
distinct), so no location is shared by more than two endpoints; yet at
tolerance 10 the left endpoints `(0,0)`, `(5,0)`, `(10,0)` form a chain of
adjacent-within-tolerance sorted neighbours, the matcher records overlapping
pairs, the assembly raises a `KeyError`, and the function returns the empty
curve list — so no input segment appears in any output curve. -/
theorem generate_curves_chain_defeats_partition :
    (∀ i < 6, ∀ j < 6, i ≠ j →
      basePoint (segsArr 2 [([0,0],[100,100]), ([5,0],[200,200]), ([10,0],[300,300])]) i
        ≠ basePoint (segsArr 2 [([0,0],[100,100]), ([5,0],[200,200]), ([10,0],[300,300])]) j) ∧
    generate_curves (segsArr 2 [([0,0],[100,100]), ([5,0],[200,200]), ([10,0],[300,300])]) 10
      = .ok ([], some [5, 0]) := by
  constructor
  · decide
  · decide

/-- Witness for the amended C6 at a concrete separated input: two disjoint
segments are returned as two curves, one segment each. -/
theorem generate_curves_partition_under_separation_witness :
    ∃ curves : List (List ℕ),
      generate_curves (segsArr 2 [([0,0],[1,1]), ([5,5],[6,6])]) 1
        = .ok (curves.map (fun c =>
            c.map (basePoint (segsArr 2 [([0,0],[1,1]), ([5,5],[6,6])]))), none) ∧
      List.Pairwise (fun c d => Disjoint (curveSegs c) (curveSegs d)) curves ∧
      unionSegs curves = Finset.range 2 ∧
      ∀ c ∈ curves, c.length = (curveSegs c).card + 1 ∧ 2 ≤ c.length := by
  have H1 : ∀ i ∈ List.range 4, ∀ j ∈ List.range 4, ∀ k ∈ List.range 4,
      i ≠ j → j ≠ k → i ≠ k →
      ¬(basePoint (segsArr 2 [([0,0],[1,1]), ([5,5],[6,6])]) i =
          basePoint (segsArr 2 [([0,0],[1,1]), ([5,5],[6,6])]) j ∧
        basePoint (segsArr 2 [([0,0],[1,1]), ([5,5],[6,6])]) j =
          basePoint (segsArr 2 [([0,0],[1,1]), ([5,5],[6,6])]) k) := by decide
  have H2 : ∀ i ∈ List.range 4, ∀ j ∈ List.range 4,
      basePoint (segsArr 2 [([0,0],[1,1]), ([5,5],[6,6])]) i ≠
        basePoint (segsArr 2 [([0,0],[1,1]), ([5,5],[6,6])]) j →
      allClose 1 (basePoint (segsArr 2 [([0,0],[1,1]), ([5,5],[6,6])]) i)
        (basePoint (segsArr 2 [([0,0],[1,1]), ([5,5],[6,6])]) j) = false := by decide
  have h := generate_curves_partition_under_separation
    [([0,0],[1,1]), ([5,5],[6,6])] 1 (by decide) (by decide)
    (fun i j k hi hj hk => H1 i (List.mem_range.mpr hi) j (List.mem_range.mpr hj)
      k (List.mem_range.mpr hk))
    (fun i j hi hj => H2 i (List.mem_range.mpr hi) j (List.mem_range.mpr hj))
  simpa using h

end CombineSegments

namespace CombineSegments

/-- C3 as stated is false.  The three segments below form a single simple
cycle: the within-tolerance "same location" relation on the six endpoints
holds exactly for the pairs `{1,2}` (at `(20,99999)`), `{3,4}` (at
`(100000,100000)`) and `{0,5}` (`(0,0)` and `(50,0)`, within tolerance 100
on both axes), one shared location per joint, closing the cycle
segment 0 → segment 1 → segment 2 → segment 0.  Yet the point `(20,99999)`
sorts lexicographically between `(0,0)` and `(50,0)`, so the adjacency-only
matcher never compares the two endpoints of the `{0,5}` joint: the function
returns a single OPEN curve whose first and last points `(100000,100000)`
and `(0,0)` neither coincide nor are within tolerance. -/
theorem generate_curves_single_cycle_open :
    (∀ i ∈ List.range 6, ∀ j ∈ List.range 6,
      (allClose 100
          (basePoint (segsArr 2 [([0,0],[20,99999]), ([20,99999],[100000,100000]),
            ([100000,100000],[50,0])]) i)
          (basePoint (segsArr 2 [([0,0],[20,99999]), ([20,99999],[100000,100000]),
            ([100000,100000],[50,0])]) j) = true ↔
        (i = j ∨ (i = 1 ∧ j = 2) ∨ (i = 2 ∧ j = 1) ∨ (i = 3 ∧ j = 4) ∨ (i = 4 ∧ j = 3)
          ∨ (i = 0 ∧ j = 5) ∨ (i = 5 ∧ j = 0)))) ∧
    generate_curves (segsArr 2 [([0,0],[20,99999]), ([20,99999],[100000,100000]),
        ([100000,100000],[50,0])]) 100
      = .ok ([[[100000,100000],[50,0],[20,99999],[0,0]]], none) ∧
    ([100000,100000] : Pt) ≠ [0,0] ∧
    allClose 100 ([100000,100000] : Pt) [0,0] = false := by
  refine ⟨by decide, by decide, by decide, by decide⟩

end CombineSegments

namespace CombineSegments

theorem norm2_swap (a b : ℕ) : norm2 (a, b) = norm2 (b, a) := by
  unfold norm2
  dsimp only
  split_ifs with h1 h2 h2 <;> (simp only [Prod.mk.injEq]; try omega)

theorem norm2_cases {q : ℕ × ℕ} {a b : ℕ} (h : norm2 q = norm2 (a, b)) :
    q = (a, b) ∨ q = (b, a) := by
  obtain ⟨x, y⟩ := q
  unfold norm2 at h
  dsimp only at h
  split_ifs at h with h1 h2 h2 <;>
    (simp only [Prod.mk.injEq] at h ⊢; try omega)

theorem pairMentions_norm2 (l : List (ℕ × ℕ)) :
    (pairMentions l).Perm (pairMentions (l.map norm2)) := by
  induction l with
  | nil => simp [pairMentions]
  | cons q t ih =>
    obtain ⟨x, y⟩ := q
    rw [List.map_cons, pairMentions_cons]
    unfold norm2
    dsimp only
    split_ifs with h
    · rw [pairMentions_cons]
      exact (ih.cons y).cons x
    · rw [pairMentions_cons]
      exact (List.Perm.swap (x := x) (y := y) _).symm.trans ((ih.cons x).cons y)

theorem mentions_perm_of_norm2_perm {Q R : List (ℕ × ℕ)}
    (h : (Q.map norm2).Perm (R.map norm2)) :
    (pairMentions Q).Perm (pairMentions R) := by
  refine (pairMentions_norm2 Q).trans (List.Perm.trans ?_ (pairMentions_norm2 R).symm)
  unfold pairMentions
  exact h.flatMap_right _

theorem perm_cons_eraseKey {l : List (ℕ × ℕ)} {k v : ℕ}
    (hnd : (pairMentions l).Nodup) (h : (k, v) ∈ l) :
    l.Perm ((k, v) :: eraseKey l k) := by
  induction l with
  | nil => simp at h
  | cons p t ih =>
    obtain ⟨a, b⟩ := p
    rw [pairMentions_cons] at hnd
    by_cases hak : a = k
    · subst hak
      have hbv : b = v := by
        rcases List.mem_cons.mp h with h2 | h2
        · rw [Prod.mk.injEq] at h2
          exact h2.2.symm
        · exfalso
          exact (List.nodup_cons.mp hnd).1
            (List.mem_cons_of_mem _ (mem_pairMentions_left h2))
      subst hbv
      unfold eraseKey
      rw [if_pos rfl]
    · unfold eraseKey
      rw [if_neg hak]
      have h2 : (k, v) ∈ t := by
        rcases List.mem_cons.mp h with h2 | h2
        · rw [Prod.mk.injEq] at h2
          exact absurd h2.1.symm hak
        · exact h2
      have hnd' : (pairMentions t).Nodup :=
        (List.nodup_cons.mp (List.nodup_cons.mp hnd).2).2
      exact ((ih hnd' h2).cons _).trans (List.Perm.swap (k, v) (a, b) _)

theorem mentions_nodup_unique {l : List (ℕ × ℕ)} (h : (pairMentions l).Nodup)
    {p q : ℕ × ℕ} (hp : p ∈ l) (hq : q ∈ l)
    (hshare : p.1 = q.1 ∨ p.1 = q.2 ∨ p.2 = q.1 ∨ p.2 = q.2) : p = q := by
  induction l with
  | nil => simp at hp
  | cons r t ih =>
    obtain ⟨a, b⟩ := r
    rw [pairMentions_cons] at h
    have hna : a ∉ b :: pairMentions t := (List.nodup_cons.mp h).1
    have hnb : b ∉ pairMentions t := (List.nodup_cons.mp (List.nodup_cons.mp h).2).1
    have hnt : (pairMentions t).Nodup := (List.nodup_cons.mp (List.nodup_cons.mp h).2).2
    rcases List.mem_cons.mp hp with rfl | hp
    · rcases List.mem_cons.mp hq with rfl | hq
      · rfl
      · exfalso
        obtain ⟨x, y⟩ := q
        dsimp only at hshare
        rcases hshare with h1 | h1 | h1 | h1
        · exact hna (List.mem_cons_of_mem _ (by rw [h1]; exact mem_pairMentions_left hq))
        · exact hna (List.mem_cons_of_mem _ (by rw [h1]; exact mem_pairMentions_right hq))
        · exact hnb (by rw [h1]; exact mem_pairMentions_left hq)
        · exact hnb (by rw [h1]; exact mem_pairMentions_right hq)
    · rcases List.mem_cons.mp hq with rfl | hq
      · exfalso
        obtain ⟨x, y⟩ := p
        dsimp only at hshare
        rcases hshare with h1 | h1 | h1 | h1
        · exact hna (List.mem_cons_of_mem _ (by rw [← h1]; exact mem_pairMentions_left hp))
        · exact hnb (by rw [← h1]; exact mem_pairMentions_left hp)
        · exact hna (List.mem_cons_of_mem _ (by rw [← h1]; exact mem_pairMentions_right hp))
        · exact hnb (by rw [← h1]; exact mem_pairMentions_right hp)
      · exact ih hnt hp hq

end CombineSegments

namespace CombineSegments

theorem chain_last_snd :
    ∀ (ws : List ℕ) (cs0 c : ℕ), ws.getLast? = some c →
      c ∈ (chainClasses cs0 ws).map Prod.snd := by
  intro ws
  induction ws with
  | nil => intro cs0 c h; simp at h
  | cons w t ih =>
    intro cs0 c h
    cases t with
    | nil =>
      simp at h
      subst h
      simp [chainClasses]
    | cons w' t' =>
      rw [List.getLast?_cons_cons] at h
      show c ∈ ((cs0, w) :: chainClasses (sib w) (w' :: t')).map Prod.snd
      rw [List.map_cons]
      exact List.mem_cons_of_mem _ (ih (sib w) c h)

/-- The right-extension loop walks a whole chain of recorded equivalence
classes ending at the starting endpoint `cf` and closes the curve, consuming
every class and every available endpoint. -/
theorem rightLoop_chain :
    ∀ (ws : List ℕ) (fuel : ℕ) (st : St) (cf cs : ℕ) (seg : List ℕ),
      st.firstD.length < fuel →
      st.secondD = st.firstD.map (fun p => (p.2, p.1)) →
      (st.firstD.map norm2).Perm ((chainClasses cs ws).map norm2) →
      (pairMentions (chainClasses cs ws)).Nodup →
      st.endD.Nodup →
      (∀ x, x ∈ st.endD ↔
        (x ∈ pairMentions (chainClasses cs ws) ∧ x ≠ cs ∧ x ≠ cf)) →
      ws.getLast? = some cf →
      ∃ f1 s1,
        rightLoop fuel st cf cs seg
          = .ok (⟨f1, s1, []⟩, seg ++ ws.dropLast.map sib, true) := by
  intro ws
  induction ws with
  | nil =>
    intro fuel st cf cs seg _ _ _ _ _ _ hlast
    simp at hlast
  | cons w t ih =>
    intro fuel st cf cs seg hfuel hswap hQ hCnd hEnd hendD hlast
    cases fuel with
    | zero => exact absurd hfuel (by omega)
    | succ fuel =>
    have hCm : pairMentions (chainClasses cs (w :: t))
        = cs :: w :: pairMentions (chainClasses (sib w) t) := by
      show pairMentions ((cs, w) :: chainClasses (sib w) t) = _
      rw [pairMentions_cons]
    have hMperm : (pairMentions st.firstD).Perm
        (pairMentions (chainClasses cs (w :: t))) :=
      mentions_perm_of_norm2_perm hQ
    have hndm : (pairMentions st.firstD).Nodup := (hMperm.nodup_iff).mpr hCnd
    have hCnd' : (cs :: w :: pairMentions (chainClasses (sib w) t)).Nodup := by
      rw [← hCm]
      exact hCnd
    have hcsw : cs ≠ w := by
      intro h
      exact (List.nodup_cons.mp hCnd').1 (h ▸ List.mem_cons_self _ _)
    have hnds : (pairMentions st.secondD).Nodup := by
      rw [hswap]
      exact swap_nodup hndm
    -- the head class is present in one of the two orientations
    have hchainQ : (chainClasses cs (w :: t)).map norm2
        = norm2 (cs, w) :: (chainClasses (sib w) t).map norm2 := by
      show ((cs, w) :: chainClasses (sib w) t).map norm2 = _
      rw [List.map_cons]
    obtain ⟨q, hqmem, hqn⟩ : ∃ q ∈ st.firstD, norm2 q = norm2 (cs, w) := by
      have hm : norm2 (cs, w) ∈ st.firstD.map norm2 := by
        rw [hQ.mem_iff, hchainQ]
        exact List.mem_cons_self _ _
      obtain ⟨q, hq, he⟩ := List.mem_map.mp hm
      exact ⟨q, hq, he⟩
    cases t with
    | nil =>
      -- single class (cs, cf): the loop closes immediately
      simp only [List.getLast?_singleton, Option.some.injEq] at hlast
      subst hlast
      have hnil : st.endD = [] := by
        rw [List.eq_nil_iff_forall_not_mem]
        intro x hx
        obtain ⟨hx1, hx2, hx3⟩ := (hendD x).mp hx
        rw [hCm] at hx1
        rcases List.mem_cons.mp hx1 with rfl | hx1
        · exact hx2 rfl
        rcases List.mem_cons.mp hx1 with rfl | hx1
        · exact hx3 rfl
        · simp [pairMentions, chainClasses] at hx1
      rcases norm2_cases hqn with rfl | rfl
      · -- q = (cs, cf) in first_equal_dict
        have hlook : lookupKV st.firstD cs = some w := lookupKV_of_mem hndm hqmem
        have hpair2 : (w, cs) ∈ st.secondD := by
          rw [hswap]
          exact List.mem_map.mpr ⟨(cs, w), hqmem, rfl⟩
        have hlook2 : lookupKV st.secondD w = some cs := lookupKV_of_mem hnds hpair2
        have hdel2 : delKV st.secondD w = .ok (eraseKey st.secondD w) := by
          unfold delKV
          rw [hlook2]
          simp
        refine ⟨eraseKey st.firstD cs, eraseKey st.secondD w, ?_⟩
        rw [rightLoop, hlook]
        dsimp only
        rw [hdel2]
        simp only [exceptBind_ok, if_pos rfl, if_true, exceptPure]
        rw [hnil]
        simp
      · -- q = (cf, cs): found through second_equal_dict
        have hlookA : lookupKV st.firstD cs = none := by
          cases hc : lookupKV st.firstD cs with
          | none => rfl
          | some v =>
            have hv : (cs, v) ∈ st.firstD := lookupKV_mem hc
            have := mentions_nodup_unique hndm hv hqmem (Or.inr (Or.inl rfl))
            rw [Prod.mk.injEq] at this
            exact absurd this.1 hcsw
        have hpair2 : (cs, w) ∈ st.secondD := by
          rw [hswap]
          exact List.mem_map.mpr ⟨(w, cs), hqmem, rfl⟩
        have hlookB : lookupKV st.secondD cs = some w := lookupKV_of_mem hnds hpair2
        have hlookw : lookupKV st.firstD w = some cs := lookupKV_of_mem hndm hqmem
        have hdel1 : delKV st.firstD w = .ok (eraseKey st.firstD w) := by
          unfold delKV
          rw [hlookw]
          simp
        refine ⟨eraseKey st.firstD w, eraseKey st.secondD cs, ?_⟩
        rw [rightLoop, hlookA]
        dsimp only
        rw [hlookB]
        dsimp only
        rw [hdel1]
        simp only [exceptBind_ok, if_pos rfl, if_true, exceptPure]
        rw [hnil]
        simp
    | cons w' t' =>
      -- at least one more class: consume (cs, w) and continue from sib w
      rw [List.getLast?_cons_cons] at hlast
      have hM' : pairMentions (chainClasses (sib w) (w' :: t'))
          = sib w :: w' :: pairMentions (chainClasses (sib w') t') := by
        show pairMentions ((sib w, w') :: chainClasses (sib w') t') = _
        rw [pairMentions_cons]
      -- the closing endpoint cf is a second component in the remaining chain
      obtain ⟨pcf, hpcf, hpcf2⟩ : ∃ p ∈ chainClasses (sib w) (w' :: t'), p.2 = cf := by
        have := chain_last_snd (w' :: t') (sib w) cf hlast
        obtain ⟨p, hp, he⟩ := List.mem_map.mp this
        exact ⟨p, hp, he⟩
      have hpcfmem : pcf ∈ chainClasses cs (w :: w' :: t') :=
        List.mem_cons_of_mem _ hpcf
      have hheadmem : ((cs, w) : ℕ × ℕ) ∈ chainClasses cs (w :: w' :: t') :=
        List.mem_cons_self _ _
      have hwcf : ¬ w = cf := by
        intro h
        have huniq := mentions_nodup_unique hCnd hheadmem hpcfmem
          (Or.inr (Or.inr (Or.inr (by dsimp only; rw [hpcf2, h]))))
        have : (cs, w) ∈ chainClasses (sib w) (w' :: t') := by
          rw [huniq]
          exact hpcf
        have hcs : cs ∈ pairMentions (chainClasses (sib w) (w' :: t')) :=
          mem_pairMentions_left this
        exact (List.nodup_cons.mp hCnd').1 (List.mem_cons_of_mem _ hcs)
      have hheadmem' : ((sib w, w') : ℕ × ℕ) ∈ chainClasses cs (w :: w' :: t') := by
        refine List.mem_cons_of_mem _ ?_
        show (sib w, w') ∈ (sib w, w') :: chainClasses (sib w') t'
        exact List.mem_cons_self _ _
      have hfvcf : ¬ sib w = cf := by
        intro h
        have huniq : ((sib w, w') : ℕ × ℕ) = pcf :=
          mentions_nodup_unique hCnd hheadmem' hpcfmem
            (Or.inr (Or.inl (by dsimp only; rw [hpcf2]; exact h)))
        have hww' : w' = cf := by
          rw [← hpcf2, ← huniq]
        have hne : sib w ≠ w' := mentions_nodup_ne hCnd hheadmem'
        exact hne (h.trans hww'.symm)
      -- membership facts for the available-endpoint dictionary
      have hwend : w ∈ st.endD := by
        refine (hendD w).mpr ⟨?_, fun h => hcsw h.symm, hwcf⟩
        rw [hCm]
        exact List.mem_cons_of_mem _ (List.mem_cons_self _ _)
      have hfvM : sib w ∈ pairMentions (chainClasses (sib w) (w' :: t')) := by
        rw [hM']
        exact List.mem_cons_self _ _
      have hfvcs : sib w ≠ cs := by
        intro h
        exact (List.nodup_cons.mp hCnd').1
          (List.mem_cons_of_mem _ (by rw [← h]; exact hfvM))
      have hfvend : sib w ∈ st.endD := by
        refine (hendD (sib w)).mpr ⟨?_, hfvcs, hfvcf⟩
        rw [hCm]
        exact List.mem_cons_of_mem _ (List.mem_cons_of_mem _ hfvM)
      have hdelE1 : delEnd st.endD w = .ok (st.endD.erase w) := by
        unfold delEnd
        rw [if_pos hwend]
      have hfve1 : sib w ∈ st.endD.erase w :=
        (List.Nodup.mem_erase_iff hEnd).mpr ⟨sib_ne w, hfvend⟩
      have hdelE2 : delEnd (st.endD.erase w) (sib w)
          = .ok ((st.endD.erase w).erase (sib w)) := by
        unfold delEnd
        rw [if_pos hfve1]
      have hcsM : cs ∉ pairMentions (chainClasses (sib w) (w' :: t')) := by
        intro h
        exact (List.nodup_cons.mp hCnd').1 (List.mem_cons_of_mem _ h)
      have hwM : w ∉ pairMentions (chainClasses (sib w) (w' :: t')) :=
        (List.nodup_cons.mp (List.nodup_cons.mp hCnd').2).1
      have hMnd : (pairMentions (chainClasses (sib w) (w' :: t'))).Nodup :=
        (List.nodup_cons.mp (List.nodup_cons.mp hCnd').2).2
      have hendD2 : ∀ x, x ∈ (st.endD.erase w).erase (sib w) ↔
          (x ∈ pairMentions (chainClasses (sib w) (w' :: t')) ∧ x ≠ sib w ∧ x ≠ cf) := by
        intro x
        rw [List.Nodup.mem_erase_iff (hEnd.erase _), List.Nodup.mem_erase_iff hEnd,
          hendD x, hCm]
        constructor
        · rintro ⟨hx1, hx2, hx3, hx4, hx5⟩
          rcases List.mem_cons.mp hx3 with rfl | hx3
          · exact absurd rfl hx4
          rcases List.mem_cons.mp hx3 with rfl | hx3
          · exact absurd rfl hx2
          · exact ⟨hx3, hx1, hx5⟩
        · rintro ⟨hx1, hx2, hx3⟩
          refine ⟨hx2, ?_,
            List.mem_cons_of_mem _ (List.mem_cons_of_mem _ hx1), ?_, hx3⟩
          · intro h
            exact hwM (h ▸ hx1)
          · intro h
            exact hcsM (h ▸ hx1)
      rcases norm2_cases hqn with rfl | rfl
      · -- the head class is recorded as (cs, w) in first_equal_dict
        have hlook : lookupKV st.firstD cs = some w := lookupKV_of_mem hndm hqmem
        have hpair2 : (w, cs) ∈ st.secondD := by
          rw [hswap]
          exact List.mem_map.mpr ⟨(cs, w), hqmem, rfl⟩
        have hlook2 : lookupKV st.secondD w = some cs := lookupKV_of_mem hnds hpair2
        have hdel2 : delKV st.secondD w = .ok (eraseKey st.secondD w) := by
          unfold delKV
          rw [hlook2]
          simp
        have hs1 : eraseKey st.secondD w
            = (eraseKey st.firstD cs).map (fun p => (p.2, p.1)) := by
          rw [hswap]
          exact swap_erase_comm hndm hqmem
        have hstep : rightLoop (fuel + 1) st cf cs seg
            = rightLoop fuel ⟨eraseKey st.firstD cs,
                (eraseKey st.firstD cs).map (fun p => (p.2, p.1)),
                (st.endD.erase w).erase (sib w)⟩ cf (sib w) (seg ++ [sib w]) := by
          rw [rightLoop, hlook]
          dsimp only
          rw [hdel2]
          simp only [exceptBind_ok]
          rw [if_neg hwcf, hdelE1]
          simp only [exceptBind_ok]
          rw [if_neg hfvcf, hdelE2]
          simp only [exceptBind_ok]
          rw [hs1]
        have hperm : st.firstD.Perm ((cs, w) :: eraseKey st.firstD cs) :=
          perm_cons_eraseKey hndm hqmem
        have hQ2 : ((eraseKey st.firstD cs).map norm2).Perm
            ((chainClasses (sib w) (w' :: t')).map norm2) := by
          have h1 : (st.firstD.map norm2).Perm
              (norm2 (cs, w) :: (eraseKey st.firstD cs).map norm2) := hperm.map _
          have h2 := h1.symm.trans hQ
          rw [hchainQ] at h2
          exact h2.cons_inv
        have hlen : (eraseKey st.firstD cs).length < fuel := by
          have := eraseKey_length_of_lookup hlook
          omega
        obtain ⟨f1, s1, hrec⟩ := ih fuel ⟨eraseKey st.firstD cs,
            (eraseKey st.firstD cs).map (fun p => (p.2, p.1)),
            (st.endD.erase w).erase (sib w)⟩ cf (sib w) (seg ++ [sib w])
          hlen rfl hQ2 hMnd ((hEnd.erase _).erase _) hendD2 hlast
        refine ⟨f1, s1, ?_⟩
        rw [hstep, hrec]
        rw [show (w :: w' :: t').dropLast = w :: (w' :: t').dropLast from rfl]
        simp
      · -- the head class is recorded as (w, cs) in first_equal_dict
        have hlookA : lookupKV st.firstD cs = none := by
          cases hc : lookupKV st.firstD cs with
          | none => rfl
          | some v =>
            have hv : (cs, v) ∈ st.firstD := lookupKV_mem hc
            have huniq := mentions_nodup_unique hndm hv hqmem (Or.inr (Or.inl rfl))
            rw [Prod.mk.injEq] at huniq
            exact absurd huniq.1 hcsw
        have hpair2 : (cs, w) ∈ st.secondD := by
          rw [hswap]
          exact List.mem_map.mpr ⟨(w, cs), hqmem, rfl⟩
        have hlookB : lookupKV st.secondD cs = some w := lookupKV_of_mem hnds hpair2
        have hlookw : lookupKV st.firstD w = some cs := lookupKV_of_mem hndm hqmem
        have hdel1 : delKV st.firstD w = .ok (eraseKey st.firstD w) := by
          unfold delKV
          rw [hlookw]
          simp
        have hs1 : eraseKey st.secondD cs
            = (eraseKey st.firstD w).map (fun p => (p.2, p.1)) := by
          rw [hswap]
          exact swap_erase_comm hndm hqmem
        have hstep : rightLoop (fuel + 1) st cf cs seg
            = rightLoop fuel ⟨eraseKey st.firstD w,
                (eraseKey st.firstD w).map (fun p => (p.2, p.1)),
                (st.endD.erase w).erase (sib w)⟩ cf (sib w) (seg ++ [sib w]) := by
          rw [rightLoop, hlookA]
          dsimp only
          rw [hlookB]
          dsimp only
          rw [hdel1]
          simp only [exceptBind_ok]
          rw [if_neg hwcf, hdelE1]
          simp only [exceptBind_ok]
          rw [if_neg hfvcf, hdelE2]
          simp only [exceptBind_ok]
          rw [hs1]
        have hperm : st.firstD.Perm ((w, cs) :: eraseKey st.firstD w) :=
          perm_cons_eraseKey hndm hqmem
        have hQ2 : ((eraseKey st.firstD w).map norm2).Perm
            ((chainClasses (sib w) (w' :: t')).map norm2) := by
          have h1 : (st.firstD.map norm2).Perm
              (norm2 (w, cs) :: (eraseKey st.firstD w).map norm2) := hperm.map _
          have h2 := h1.symm.trans hQ
          rw [hchainQ] at h2
          rw [norm2_swap cs w] at h2
          exact h2.cons_inv
        have hlen : (eraseKey st.firstD w).length < fuel := by
          have := eraseKey_length_of_lookup hlookw
          omega
        obtain ⟨f1, s1, hrec⟩ := ih fuel ⟨eraseKey st.firstD w,
            (eraseKey st.firstD w).map (fun p => (p.2, p.1)),
            (st.endD.erase w).erase (sib w)⟩ cf (sib w) (seg ++ [sib w])
          hlen rfl hQ2 hMnd ((hEnd.erase _).erase _) hendD2 hlast
        refine ⟨f1, s1, ?_⟩
        rw [hstep, hrec]
        rw [show (w :: w' :: t').dropLast = w :: (w' :: t').dropLast from rfl]
        simp

end CombineSegments

namespace CombineSegments

theorem sublist_order {x y : ℕ} : ∀ {s : List ℕ}, x ∈ s → y ∈ s → x ≠ y →
    [x, y].Sublist s ∨ [y, x].Sublist s := by
  intro s
  induction s with
  | nil => intro hx; simp at hx
  | cons a t ih =>
    intro hx hy hne
    by_cases hxa : x = a
    · subst hxa
      have hyt : y ∈ t := by
        rcases List.mem_cons.mp hy with h2 | h2
        · exact absurd h2.symm hne
        · exact h2
      exact Or.inl (List.cons_sublist_cons.mpr (List.singleton_sublist.mpr hyt))
    · by_cases hya : y = a
      · subst hya
        have hxt : x ∈ t := by
          rcases List.mem_cons.mp hx with h2 | h2
          · exact absurd h2 hxa
          · exact h2
        exact Or.inr (List.cons_sublist_cons.mpr (List.singleton_sublist.mpr hxt))
      · have hxt : x ∈ t := by
          rcases List.mem_cons.mp hx with h2 | h2
          · exact absurd h2 hxa
          · exact h2
        have hyt : y ∈ t := by
          rcases List.mem_cons.mp hy with h2 | h2
          · exact absurd h2 hya
          · exact h2
        rcases ih hxt hyt hne with h | h
        · exact Or.inl (h.cons _)
        · exact Or.inr (h.cons _)

theorem adjacent_of_no_middle {x y : ℕ} : ∀ {s : List ℕ},
    [x, y].Sublist s → (∀ w, ¬ [x, w, y].Sublist s) → (x, y) ∈ List.zip s s.tail := by
  intro s
  induction s with
  | nil => intro h; simp at h
  | cons a t ih =>
    intro hsub hmid
    cases t with
    | nil =>
      have hlen := hsub.length_le
      simp at hlen
    | cons b u =>
      cases hsub with
      | cons h =>
        rename_i h
        have hmem : (x, y) ∈ List.zip (b :: u) (b :: u).tail :=
          ih h (fun w hw => hmid w (hw.cons _))
        rw [List.tail_cons, List.zip_cons_cons]
        rw [List.tail_cons] at hmem
        exact List.mem_cons_of_mem _ hmem
      | cons₂ h =>
        rename_i h
        by_cases hyb : y = b
        · subst hyb
          rw [List.tail_cons, List.zip_cons_cons]
          exact List.mem_cons_self _ _
        · exfalso
          have hyu : y ∈ u := by
            have hmem := h.subset (List.mem_singleton.mpr rfl)
            rcases List.mem_cons.mp hmem with h2 | h2
            · exact absurd h2 hyb
            · exact h2
          refine hmid b ?_
          apply List.cons_sublist_cons.mpr
          apply List.cons_sublist_cons.mpr
          exact List.singleton_sublist.mpr hyu

/-- Matcher completeness under validity: a pair of endpoints at exactly the
same location is always recorded (in one of the two orientations), because
no third point can sort between them. -/
theorem pair_recorded (a : Arr3) (tol : ℚ)
    (htol : 0 < tol)
    {x y : ℕ} (hx : x < numPoints a) (hy : y < numPoints a) (hne : x ≠ y)
    (heq : basePoint a x = basePoint a y)
    (h1 : ∀ i j k2, i < numPoints a → j < numPoints a → k2 < numPoints a →
      i ≠ j → j ≠ k2 → i ≠ k2 →
      ¬(basePoint a i = basePoint a j ∧ basePoint a j = basePoint a k2)) :
    (x, y) ∈ equalIdxPairs a tol ∨ (y, x) ∈ equalIdxPairs a tol := by
  have hxs : x ∈ sortedIdx a := mem_sortedIdx.mpr hx
  have hys : y ∈ sortedIdx a := mem_sortedIdx.mpr hy
  have hsne : sortedIdx a ≠ [] := by
    intro h
    rw [h] at hxs
    simp at hxs
  have hz : (sortedIdx a).getLast? = some ((sortedIdx a).getLast hsne) :=
    List.getLast?_eq_getLast _ hsne
  have key : ∀ u v, u ∈ sortedIdx a → v ∈ sortedIdx a → u ≠ v →
      basePoint a u = basePoint a v → [u, v].Sublist (sortedIdx a) →
      (u, v) ∈ equalIdxPairs a tol := by
    intro u v hu hv huv hpeq hsub
    have hmid : ∀ w, ¬ [u, w, v].Sublist (sortedIdx a) := by
      intro w hw
      have hpw : List.Pairwise (idxLe a) [u, w, v] :=
        (sortedIdx_sorted a).sublist hw
      have hndw : ([u, w, v] : List ℕ).Nodup := (sortedIdx_nodup a).sublist hw
      have h1w : idxLe a u w := (List.pairwise_cons.mp hpw).1 w (by simp)
      have h2w : idxLe a w v :=
        (List.pairwise_cons.mp (List.pairwise_cons.mp hpw).2).1 v (by simp)
      unfold idxLe at h1w h2w
      rw [← hpeq] at h2w
      have hpuw : basePoint a u = basePoint a w := lexLe_antisymm h1w h2w
      have hwmem : w ∈ sortedIdx a := hw.subset (by simp)
      simp only [List.nodup_cons, List.mem_cons, List.mem_singleton, List.not_mem_nil,
        or_false, not_or, List.nodup_nil, and_true] at hndw
      obtain ⟨⟨huw, huv2⟩, hwv, -⟩ := hndw
      exact h1 u w v (mem_sortedIdx.mp hu) (mem_sortedIdx.mp hwmem) (mem_sortedIdx.mp hv)
        huw hwv huv2 ⟨hpuw, hpuw.symm.trans hpeq⟩
    have hadj : (u, v) ∈ List.zip (sortedIdx a) (sortedIdx a).tail :=
      adjacent_of_no_middle hsub hmid
    unfold equalIdxPairs
    refine List.mem_filter.mpr ⟨?_, ?_⟩
    · rw [rollOne_zip hz]
      exact List.mem_cons_of_mem _ hadj
    · show allClose tol (basePoint a u) (basePoint a v) = true
      rw [hpeq]
      exact allClose_self htol _
  rcases sublist_order hxs hys hne with h | h
  · exact Or.inl (key x y hxs hys hne heq h)
  · exact Or.inr (key y x hys hxs (fun hh => hne hh.symm) heq.symm h)

end CombineSegments

namespace CombineSegments

theorem nodup_of_mentions_nodup {l : List (ℕ × ℕ)} (h : (pairMentions l).Nodup) :
    l.Nodup := by
  induction l with
  | nil => simp
  | cons p t ih =>
    obtain ⟨x, y⟩ := p
    rw [pairMentions_cons] at h
    refine List.nodup_cons.mpr ⟨?_, ih (List.nodup_cons.mp (List.nodup_cons.mp h).2).2⟩
    intro hmem
    exact (List.nodup_cons.mp h).1
      (List.mem_cons_of_mem _ (mem_pairMentions_left hmem))

theorem basePoint_segsArr_pair :
    ∀ (segs : List (Pt × Pt)),
      (∀ pq ∈ segs, pq.1.length = 2 ∧ pq.2.length = 2) →
      ∀ i, i < segs.length →
        basePoint (segsArr 2 segs) (2 * i) = (segs.getD i ([], [])).1 ∧
        basePoint (segsArr 2 segs) (2 * i + 1) = (segs.getD i ([], [])).2 := by
  intro segs
  induction segs with
  | nil => intro _ i hi; simp at hi
  | cons pq t ihs =>
    intro hdim i hi
    obtain ⟨hp2, hq2⟩ := hdim pq (List.mem_cons_self _ _)
    have hflat : (segsArr 2 (pq :: t)).data = (pq.1 ++ pq.2) ++ (segsArr 2 t).data := by
      show (pq :: t).flatMap (fun s => s.1 ++ s.2) = _
      rw [List.flatMap_cons]
      rfl
    have hlen4 : (pq.1 ++ pq.2).length = 4 := by
      rw [List.length_append, hp2, hq2]
    cases i with
    | zero =>
      constructor
      · show ((segsArr 2 (pq :: t)).data.drop (2 * 0 * 2)).take 2 = _
        rw [hflat]
        simp only [Nat.mul_zero, Nat.zero_mul, List.drop_zero]
        rw [List.append_assoc, List.take_left' hp2]
        rfl
      · show ((segsArr 2 (pq :: t)).data.drop ((2 * 0 + 1) * 2)).take 2 = _
        rw [hflat, List.append_assoc]
        rw [show (2 * 0 + 1) * 2 = 2 from rfl]
        rw [List.drop_left' hp2, List.take_left' hq2]
        rfl
    | succ i =>
      have hi' : i < t.length := by
        simp only [List.length_cons] at hi
        omega
      obtain ⟨ih1, ih2⟩ := ihs (fun q hq => hdim q (List.mem_cons_of_mem _ hq)) i hi'
      constructor
      · show ((segsArr 2 (pq :: t)).data.drop (2 * (i + 1) * 2)).take 2 = _
        rw [hflat]
        rw [show 2 * (i + 1) * 2 = 4 + 2 * i * 2 from by ring, ← List.drop_drop]
        rw [List.drop_left' hlen4]
        exact ih1
      · show ((segsArr 2 (pq :: t)).data.drop ((2 * (i + 1) + 1) * 2)).take 2 = _
        rw [hflat]
        rw [show (2 * (i + 1) + 1) * 2 = 4 + (2 * i + 1) * 2 from by ring, ← List.drop_drop,
          List.drop_left' hlen4]
        exact ih2

theorem chainClasses_reg :
    ∀ (n j : ℕ),
      chainClasses (2 * j + 1) ((List.range n).map (fun i => 2 * (j + 1 + i)))
        = (List.range n).map (fun i => (2 * (j + i) + 1, 2 * (j + i) + 2)) := by
  intro n
  induction n with
  | zero => intro j; rfl
  | succ n ihn =>
    intro j
    rw [List.range_succ_eq_map, List.map_cons, List.map_cons, List.map_map, List.map_map]
    show chainClasses (2 * j + 1) (2 * (j + 1 + 0) :: _) = _
    rw [show chainClasses (2 * j + 1) (2 * (j + 1 + 0) :: ((List.range n).map
        ((fun i => 2 * (j + 1 + i)) ∘ (· + 1))))
      = (2 * j + 1, 2 * (j + 1 + 0)) :: chainClasses (sib (2 * (j + 1 + 0)))
          ((List.range n).map ((fun i => 2 * (j + 1 + i)) ∘ (· + 1))) from rfl]
    have hsib : sib (2 * (j + 1 + 0)) = 2 * (j + 1) + 1 := by
      rw [sib_of_even (by omega)]
    rw [hsib]
    have hmap1 : (List.range n).map ((fun i => 2 * (j + 1 + i)) ∘ (· + 1))
        = (List.range n).map (fun i => 2 * ((j + 1) + 1 + i)) := by
      apply List.map_congr_left
      intro x _
      show 2 * (j + 1 + (x + 1)) = 2 * (j + 1 + 1 + x)
      ring
    rw [hmap1, ihn (j + 1)]
    have hmap2 : (List.range n).map ((fun i => (2 * (j + i) + 1, 2 * (j + i) + 2)) ∘ (· + 1))
        = (List.range n).map (fun i => (2 * ((j + 1) + i) + 1, 2 * ((j + 1) + i) + 2)) := by
      apply List.map_congr_left
      intro x _
      show (2 * (j + (x + 1)) + 1, 2 * (j + (x + 1)) + 2) = _
      have h1 : j + (x + 1) = j + 1 + x := by omega
      rw [h1]
    rw [hmap2]
    have hh : (2 * j + 1, 2 * (j + 1 + 0)) = (2 * (j + 0) + 1, 2 * (j + 0) + 2) := by
      simp only [Prod.mk.injEq]
      omega
    rw [hh]

theorem mentions_pair_ne {l : List (ℕ × ℕ)} (h : (pairMentions l).Nodup)
    {x y : ℕ} (hm : (x, y) ∈ l) : x ≠ y := by
  induction l with
  | nil => simp at hm
  | cons p t ih =>
    obtain ⟨a, b⟩ := p
    rw [pairMentions_cons] at h
    rcases List.mem_cons.mp hm with he | hmt
    · rw [Prod.mk.injEq] at he
      obtain ⟨rfl, rfl⟩ := he
      intro hxy
      subst hxy
      exact (List.nodup_cons.mp h).1 (List.mem_cons_self _ _)
    · exact ih (List.nodup_cons.mp (List.nodup_cons.mp h).2).2 hmt

theorem norm2_nodup_of_mentions_nodup {l : List (ℕ × ℕ)}
    (h : (pairMentions l).Nodup) : (l.map norm2).Nodup := by
  induction l with
  | nil => simp
  | cons p t ih =>
    obtain ⟨x, y⟩ := p
    rw [pairMentions_cons] at h
    rw [List.map_cons]
    refine List.nodup_cons.mpr
      ⟨?_, ih (List.nodup_cons.mp (List.nodup_cons.mp h).2).2⟩
    intro hmem
    obtain ⟨q, hq, he⟩ := List.mem_map.mp hmem
    rcases norm2_cases he with rfl | rfl
    · exact (List.nodup_cons.mp h).1
        (List.mem_cons_of_mem _ (mem_pairMentions_left hq))
    · exact (List.nodup_cons.mp h).1
        (List.mem_cons_of_mem _ (mem_pairMentions_right hq))

theorem outerLoop_endD_nil (fuel : ℕ) (f s : List (ℕ × ℕ)) (acc : List (List ℕ)) :
    outerLoop fuel ⟨f, s, []⟩ acc = .ok acc := by
  cases fuel with
  | zero => rfl
  | succ n => rfl

theorem chainClasses_cycle (m : ℕ) :
    chainClasses (2 * m + 3) ((List.range (m + 2)).map (fun i => 2 * i))
      = (2 * m + 3, 0) :: (List.range (m + 1)).map (fun j => (2 * j + 1, 2 * j + 2)) := by
  have h0 : (List.range (m + 2)).map (fun i => 2 * i)
      = 0 :: (List.range (m + 1)).map (fun i => 2 * (0 + 1 + i)) := by
    rw [show m + 2 = (m + 1) + 1 from rfl, List.range_succ_eq_map, List.map_cons,
      List.map_map]
    congr 1
    apply List.map_congr_left
    intro x _
    show 2 * (Nat.succ x) = 2 * (0 + 1 + x)
    omega
  rw [h0]
  show (2 * m + 3, 0) :: chainClasses (sib 0)
      ((List.range (m + 1)).map (fun i => 2 * (0 + 1 + i))) = _
  have hs0 : sib 0 = 2 * 0 + 1 := rfl
  rw [hs0, chainClasses_reg (m + 1) 0]
  congr 1
  apply List.map_congr_left
  intro x _
  show (2 * (0 + x) + 1, 2 * (0 + x) + 2) = (2 * x + 1, 2 * x + 2)
  rw [Nat.zero_add]

theorem cycle_mentions :
    ∀ n : ℕ, pairMentions ((List.range n).map (fun j => (2 * j + 1, 2 * j + 2)))
      = (List.range (2 * n)).map (fun z => z + 1) := by
  intro n
  induction n with
  | zero => rfl
  | succ n ih =>
    rw [List.range_succ, List.map_append]
    simp only [List.map_cons, List.map_nil]
    rw [show pairMentions ((List.range n).map (fun j => (2 * j + 1, 2 * j + 2))
          ++ [(2 * n + 1, 2 * n + 2)])
        = pairMentions ((List.range n).map (fun j => (2 * j + 1, 2 * j + 2)))
          ++ [2 * n + 1, 2 * n + 2] from by
      simp only [pairMentions, List.flatMap_append, List.flatMap_cons,
        List.flatMap_nil, List.append_nil]]
    rw [ih]
    rw [show 2 * (n + 1) = 2 * n + 1 + 1 from by ring, List.range_succ,
      List.range_succ, List.map_append, List.map_append]
    simp only [List.map_cons, List.map_nil, List.append_assoc]
    rfl

theorem cycle_run (m : ℕ) (v : ℕ → Pt) (tol : ℚ) (segs : List (Pt × Pt))
    (htol : 0 < tol)
    (hsl : segs.length = m + 2)
    (hdims : ∀ pq ∈ segs, pq.1.length = 2 ∧ pq.2.length = 2)
    (hbpE : ∀ i, i < m + 2 → basePoint (segsArr 2 segs) (2 * i) = v i)
    (hbpO : ∀ i, i < m + 2 →
      basePoint (segsArr 2 segs) (2 * i + 1) = v ((i + 1) % (m + 2)))
    (hvinj : ∀ p q, p < m + 2 → q < m + 2 → v p = v q → p = q)
    (hsep : ∀ p q, p < m + 2 → q < m + 2 → p ≠ q →
      allClose tol (v p) (v q) = false) :
    generate_curves (segsArr 2 segs) tol
      = .ok ([v (m + 1) :: v 0 :: (List.range (m + 1)).map (fun i => v (i + 1))],
          none) := by
  have hNP0 : numPoints (segsArr 2 segs) = 2 * segs.length := segsArr_numPoints hdims
  have hNP : numPoints (segsArr 2 segs) = 2 * (m + 2) := by
    rw [hNP0, hsl]
  have hdataL : (segsArr 2 segs).data.length = 4 * segs.length := by
    unfold segsArr
    dsimp only
    exact flatMap_segs_length hdims
  have hcond : numPoints (segsArr 2 segs) * (segsArr 2 segs).n
      = (segsArr 2 segs).data.length := by
    rw [hNP0, hdataL]
    show 2 * segs.length * (2 : ℕ) = 4 * segs.length
    ring
  have hn0 : ¬ (segsArr 2 segs).n = 0 := by
    show ¬ (2 : ℕ) = 0
    omega
  -- which endpoint index carries which vertex
  have hbpv : ∀ x, x < 2 * (m + 2) → ∃ p, p < m + 2 ∧
      basePoint (segsArr 2 segs) x = v p ∧
      ((x % 2 = 0 ∧ p = x / 2) ∨ (x % 2 = 1 ∧ p = (x / 2 + 1) % (m + 2))) := by
    intro x hx
    rcases Nat.mod_two_eq_zero_or_one x with h2 | h2
    · refine ⟨x / 2, by omega, ?_, Or.inl ⟨h2, rfl⟩⟩
      calc basePoint (segsArr 2 segs) x
          = basePoint (segsArr 2 segs) (2 * (x / 2)) := by
            rw [show 2 * (x / 2) = x from by omega]
        _ = v (x / 2) := hbpE (x / 2) (by omega)
    · refine ⟨(x / 2 + 1) % (m + 2), Nat.mod_lt _ (by omega), ?_, Or.inr ⟨h2, rfl⟩⟩
      calc basePoint (segsArr 2 segs) x
          = basePoint (segsArr 2 segs) (2 * (x / 2) + 1) := by
            rw [show 2 * (x / 2) + 1 = x from by omega]
        _ = v ((x / 2 + 1) % (m + 2)) := hbpO (x / 2) (by omega)
  -- two endpoints share a location exactly when they are the two terminals
  -- meeting at a cycle vertex
  have hchar : ∀ x y, x < 2 * (m + 2) → y < 2 * (m + 2) → x ≠ y →
      basePoint (segsArr 2 segs) x = basePoint (segsArr 2 segs) y →
      ∃ j z, j < m + 2 ∧ z < m + 2 ∧ (j + 1) % (m + 2) = z ∧
        ((x = 2 * j + 1 ∧ y = 2 * z) ∨ (y = 2 * j + 1 ∧ x = 2 * z)) := by
    intro x y hx hy hne heq
    obtain ⟨p, hp, hvp, hpc⟩ := hbpv x hx
    obtain ⟨q, hq, hvq, hqc⟩ := hbpv y hy
    have hpq : p = q := hvinj p q hp hq (by rw [← hvp, ← hvq, heq])
    subst hpq
    rcases hpc with ⟨hx2, hpx⟩ | ⟨hx2, hpx⟩ <;> rcases hqc with ⟨hy2, hqy⟩ | ⟨hy2, hqy⟩
    · exact absurd (by omega) hne
    · exact ⟨y / 2, p, by omega, hp, hqy.symm, Or.inr ⟨by omega, by omega⟩⟩
    · exact ⟨x / 2, p, by omega, hp, hpx.symm, Or.inl ⟨by omega, by omega⟩⟩
    · exfalso
      have hmx : (x / 2 + 1) % (m + 2) = if x / 2 + 1 = m + 2 then 0 else x / 2 + 1 := by
        split_ifs with h
        · rw [h, Nat.mod_self]
        · exact Nat.mod_eq_of_lt (by omega)
      have hmy : (y / 2 + 1) % (m + 2) = if y / 2 + 1 = m + 2 then 0 else y / 2 + 1 := by
        split_ifs with h
        · rw [h, Nat.mod_self]
        · exact Nat.mod_eq_of_lt (by omega)
      rw [hmx] at hpx
      rw [hmy] at hqy
      split_ifs at hpx hqy <;> omega
  have hpar : ∀ x y, x < 2 * (m + 2) → y < 2 * (m + 2) → x ≠ y →
      basePoint (segsArr 2 segs) x = basePoint (segsArr 2 segs) y →
      x % 2 ≠ y % 2 := by
    intro x y hx hy hne heq
    obtain ⟨j, z, hj, hz, hmod, hc⟩ := hchar x y hx hy hne heq
    rcases hc with ⟨h1, h2⟩ | ⟨h1, h2⟩ <;> omega
  have h1glob : ∀ i j k2, i < numPoints (segsArr 2 segs) →
      j < numPoints (segsArr 2 segs) → k2 < numPoints (segsArr 2 segs) →
      i ≠ j → j ≠ k2 → i ≠ k2 →
      ¬(basePoint (segsArr 2 segs) i = basePoint (segsArr 2 segs) j ∧
        basePoint (segsArr 2 segs) j = basePoint (segsArr 2 segs) k2) := by
    rw [hNP]
    rintro i j k2 hi hj hk hij hjk hik ⟨e1, e2⟩
    have p1 := hpar i j hi hj hij e1
    have p2 := hpar j k2 hj hk hjk e2
    have p3 := hpar i k2 hi hk hik (e1.trans e2)
    omega
  have h2glob : ∀ i j, i < numPoints (segsArr 2 segs) →
      j < numPoints (segsArr 2 segs) →
      basePoint (segsArr 2 segs) i ≠ basePoint (segsArr 2 segs) j →
      allClose tol (basePoint (segsArr 2 segs) i)
        (basePoint (segsArr 2 segs) j) = false := by
    rw [hNP]
    intro i j hi hj hne
    obtain ⟨p, hp, hvp, -⟩ := hbpv i hi
    obtain ⟨q, hq, hvq, -⟩ := hbpv j hj
    rw [hvp, hvq] at hne ⊢
    have hpq : p ≠ q := by
      rintro rfl
      exact hne rfl
    exact hsep p q hp hq hpq
  have hmnd : (pairMentions (equalIdxPairs (segsArr 2 segs) tol)).Nodup :=
    matcher_valid (segsArr 2 segs) tol htol (by rw [hNP]; omega) h1glob h2glob
  -- every coincident pair of the cycle is recorded by the matcher
  have hpairE : ∀ j z, j < m + 2 → (j + 1) % (m + 2) = z →
      norm2 (2 * j + 1, 2 * z) ∈ (equalIdxPairs (segsArr 2 segs) tol).map norm2 := by
    intro j z hj hmod
    have hzlt : z < m + 2 := by
      rw [← hmod]
      exact Nat.mod_lt _ (by omega)
    have hx : 2 * j + 1 < numPoints (segsArr 2 segs) := by
      rw [hNP]
      omega
    have hy : 2 * z < numPoints (segsArr 2 segs) := by
      rw [hNP]
      omega
    have hne : 2 * j + 1 ≠ 2 * z := by omega
    have heq : basePoint (segsArr 2 segs) (2 * j + 1)
        = basePoint (segsArr 2 segs) (2 * z) := by
      rw [hbpO j hj, hbpE z hzlt, hmod]
    rcases pair_recorded (segsArr 2 segs) tol htol hx hy hne heq h1glob with h | h
    · exact List.mem_map.mpr ⟨_, h, rfl⟩
    · exact List.mem_map.mpr ⟨_, h, norm2_swap _ _⟩
  have hpairCH : ∀ j z, j < m + 2 → (j + 1) % (m + 2) = z →
      (2 * j + 1, 2 * z) ∈ (2 * m + 3, 0) ::
        (List.range (m + 1)).map (fun j => (2 * j + 1, 2 * j + 2)) := by
    intro j z hj hmod
    by_cases hjm : j = m + 1
    · subst hjm
      have hz0 : z = 0 := by
        rw [← hmod, show m + 1 + 1 = m + 2 from rfl, Nat.mod_self]
      subst hz0
      rw [show ((2 * (m + 1) + 1 : ℕ), (2 * 0 : ℕ)) = ((2 * m + 3 : ℕ), (0 : ℕ)) from by
        simp only [Prod.mk.injEq]
        exact ⟨by ring, by ring⟩]
      exact List.mem_cons_self _ _
    · have hzj : z = j + 1 := by
        rw [← hmod, Nat.mod_eq_of_lt (by omega)]
      subst hzj
      refine List.mem_cons_of_mem _
        (List.mem_map.mpr ⟨j, List.mem_range.mpr (by omega), ?_⟩)
      simp only [Prod.mk.injEq]
      exact ⟨trivial, by ring⟩
  have hCHpair : ∀ c ∈ (2 * m + 3, 0) ::
      (List.range (m + 1)).map (fun j => (2 * j + 1, 2 * j + 2)),
      ∃ j z, j < m + 2 ∧ (j + 1) % (m + 2) = z ∧ c = (2 * j + 1, 2 * z) := by
    intro c hc
    rcases List.mem_cons.mp hc with rfl | hc2
    · refine ⟨m + 1, 0, by omega, ?_, ?_⟩
      · rw [show m + 1 + 1 = m + 2 from rfl]
        exact Nat.mod_self _
      · simp only [Prod.mk.injEq]
        exact ⟨by ring, by ring⟩
    · obtain ⟨j, hjr, rfl⟩ := List.mem_map.mp hc2
      rw [List.mem_range] at hjr
      refine ⟨j, j + 1, by omega, Nat.mod_eq_of_lt (by omega), ?_⟩
      simp only [Prod.mk.injEq]
      exact ⟨trivial, by ring⟩
  -- the chain mention list and its properties
  have hCHm : pairMentions ((2 * m + 3, 0) ::
      (List.range (m + 1)).map (fun j => (2 * j + 1, 2 * j + 2)))
      = (2 * m + 3) :: 0 :: (List.range (2 * (m + 1))).map (fun z => z + 1) := by
    rw [pairMentions_cons, cycle_mentions]
  have hCHnd : (pairMentions ((2 * m + 3, 0) ::
      (List.range (m + 1)).map (fun j => (2 * j + 1, 2 * j + 2)))).Nodup := by
    rw [hCHm]
    refine List.nodup_cons.mpr ⟨?_, List.nodup_cons.mpr ⟨?_, ?_⟩⟩
    · intro hmem
      rcases List.mem_cons.mp hmem with h | h
      · omega
      · obtain ⟨z, hz, he⟩ := List.mem_map.mp h
        rw [List.mem_range] at hz
        omega
    · intro hmem
      obtain ⟨z, hz, he⟩ := List.mem_map.mp hmem
      omega
    · exact List.Nodup.map (fun a b hab => by omega) (List.nodup_range _)
  have hCHset : ∀ x, x ∈ pairMentions ((2 * m + 3, 0) ::
      (List.range (m + 1)).map (fun j => (2 * j + 1, 2 * j + 2))) ↔ x < 2 * m + 4 := by
    intro x
    rw [hCHm]
    simp only [List.mem_cons, List.mem_map, List.mem_range]
    constructor
    · rintro (rfl | rfl | ⟨z, hz, rfl⟩) <;> omega
    · intro hx
      by_cases h3 : x = 2 * m + 3
      · exact Or.inl h3
      by_cases h0 : x = 0
      · exact Or.inr (Or.inl h0)
      · exact Or.inr (Or.inr ⟨x - 1, by omega, by omega⟩)
  -- the recorded pairs are, up to orientation, exactly the chain classes
  have hmemiff : ∀ q, q ∈ (equalIdxPairs (segsArr 2 segs) tol).map norm2 ↔
      q ∈ ((2 * m + 3, 0) ::
        (List.range (m + 1)).map (fun j => (2 * j + 1, 2 * j + 2))).map norm2 := by
    intro q
    constructor
    · intro hq
      obtain ⟨pr, hpE, rfl⟩ := List.mem_map.mp hq
      obtain ⟨x, y⟩ := pr
      have hb := equalIdxPairs_mem_bounds hpE
      have hxy : x ≠ y := mentions_pair_ne hmnd hpE
      have hcl : allClose tol (basePoint (segsArr 2 segs) x)
          (basePoint (segsArr 2 segs) y) = true := by
        unfold equalIdxPairs at hpE
        exact (List.mem_filter.mp hpE).2
      have hbeq : basePoint (segsArr 2 segs) x = basePoint (segsArr 2 segs) y := by
        by_contra hbne
        rw [h2glob x y hb.1 hb.2 hbne] at hcl
        cases hcl
      obtain ⟨j, z, hj, hz, hmod, hc⟩ := hchar x y (by rw [← hNP]; exact hb.1)
        (by rw [← hNP]; exact hb.2) hxy hbeq
      rcases hc with ⟨rfl, rfl⟩ | ⟨rfl, rfl⟩
      · exact List.mem_map.mpr ⟨(2 * j + 1, 2 * z), hpairCH j z hj hmod, rfl⟩
      · rw [norm2_swap]
        exact List.mem_map.mpr ⟨(2 * j + 1, 2 * z), hpairCH j z hj hmod, rfl⟩
    · intro hq
      obtain ⟨c, hcCH, rfl⟩ := List.mem_map.mp hq
      obtain ⟨j, z, hj, hmod, rfl⟩ := hCHpair c hcCH
      exact hpairE j z hj hmod
  have hQperm : ((equalIdxPairs (segsArr 2 segs) tol).map norm2).Perm
      (((2 * m + 3, 0) ::
        (List.range (m + 1)).map (fun j => (2 * j + 1, 2 * j + 2))).map norm2) :=
    (List.perm_ext_iff_of_nodup (norm2_nodup_of_mentions_nodup hmnd)
      (norm2_nodup_of_mentions_nodup hCHnd)).mpr hmemiff
  -- drive the assembler: one outer iteration closes the whole cycle
  have hinit : initSt (segsArr 2 segs) tol
      = ⟨equalIdxPairs (segsArr 2 segs) tol,
          (equalIdxPairs (segsArr 2 segs) tol).map (fun p => (p.2, p.1)),
          (2 * m + 3) :: (List.range (2 * m + 3)).reverse⟩ := by
    unfold initSt
    rw [firstDict_eq hmnd, secondDict_eq hmnd, hNP]
    rw [show 2 * (m + 2) = (2 * m + 3) + 1 from by ring, List.range_succ,
      List.reverse_append]
    rfl
  have hj2 : (2 * m + 3) % 2 = 1 := by omega
  have hcfeq : (if (2 * m + 3) % 2 = 1 then (2 * m + 3) - 1 else (2 * m + 3))
      = 2 * m + 2 := by
    rw [if_pos hj2]
    omega
  have hcseq : (if (2 * m + 3) % 2 = 1 then (2 * m + 3) else (2 * m + 3) + 1)
      = 2 * m + 3 := if_pos hj2
  have hskeq : (if (2 * m + 3) % 2 = 1 then (2 * m + 3) - 1 else (2 * m + 3) + 1)
      = 2 * m + 2 := by
    rw [if_pos hj2]
    omega
  have hdelS : delEnd ((List.range (2 * m + 3)).reverse) (2 * m + 2)
      = .ok ((List.range (2 * m + 2)).reverse) := by
    rw [show 2 * m + 3 = (2 * m + 2) + 1 from rfl, List.range_succ,
      List.reverse_append]
    show delEnd ((2 * m + 2) :: (List.range (2 * m + 2)).reverse) (2 * m + 2) = _
    unfold delEnd
    rw [if_pos (List.mem_cons_self _ _), List.erase_cons_head]
  have hWlast : (((List.range (m + 2)).map (fun i => 2 * i)).getLast?
      = some (2 * m + 2)) := by
    rw [show ((List.range (m + 2)).map (fun i => 2 * i))
        = ((List.range (m + 1)).map (fun i => 2 * i)) ++ [2 * m + 2] from by
      rw [show m + 2 = (m + 1) + 1 from rfl, List.range_succ, List.map_append]
      simp only [List.map_cons, List.map_nil]
      rw [show 2 * (m + 1) = 2 * m + 2 from by ring]]
    exact List.getLast?_concat _
  obtain ⟨f1, s1, hrl⟩ :=
    rightLoop_chain ((List.range (m + 2)).map (fun i => 2 * i))
      ((equalIdxPairs (segsArr 2 segs) tol).length + 1)
      ⟨equalIdxPairs (segsArr 2 segs) tol,
        (equalIdxPairs (segsArr 2 segs) tol).map (fun p => (p.2, p.1)),
        (List.range (2 * m + 2)).reverse⟩
      (2 * m + 2) (2 * m + 3) [2 * m + 2, 2 * m + 3]
      (Nat.lt_succ_self _)
      rfl
      (by rw [chainClasses_cycle]; exact hQperm)
      (by rw [chainClasses_cycle]; exact hCHnd)
      (List.nodup_reverse.mpr (List.nodup_range _))
      (by
        intro x
        show x ∈ (List.range (2 * m + 2)).reverse ↔ _
        rw [chainClasses_cycle, List.mem_reverse, List.mem_range]
        constructor
        · intro hlt
          exact ⟨(hCHset x).mpr (by omega), by omega, by omega⟩
        · rintro ⟨hmem, h1x, h2x⟩
          have := (hCHset x).mp hmem
          omega)
      hWlast
  -- the two-index seed extended by the whole chain: the final curve
  have hcseg : [2 * m + 2, 2 * m + 3] ++
      ((((List.range (m + 2)).map (fun i => 2 * i)).dropLast).map sib)
      = (2 * m + 2) :: (2 * m + 3) :: (List.range (m + 1)).map (fun i => 2 * i + 1) := by
    rw [show (((List.range (m + 2)).map (fun i => 2 * i)).dropLast)
        = (List.range (m + 1)).map (fun i => 2 * i) from by
      rw [show m + 2 = (m + 1) + 1 from rfl, List.range_succ, List.map_append]
      simp only [List.map_cons, List.map_nil]
      exact List.dropLast_concat]
    rw [List.map_map]
    rw [show (List.range (m + 1)).map (sib ∘ fun i => 2 * i)
        = (List.range (m + 1)).map (fun i => 2 * i + 1) from by
      apply List.map_congr_left
      intro x _
      show sib (2 * x) = 2 * x + 1
      exact sib_of_even (Nat.mul_mod_right 2 x)]
    rfl
  have hrun : runAssembly (segsArr 2 segs) tol
      = .ok [(2 * m + 2) :: (2 * m + 3) :: (List.range (m + 1)).map (fun i => 2 * i + 1)] := by
    show outerLoop (numPoints (segsArr 2 segs)) (initSt (segsArr 2 segs) tol) [] = _
    rw [hNP, hinit, show 2 * (m + 2) = (2 * m + 3) + 1 from by ring]
    rw [outerLoop]
    try dsimp only
    rw [hskeq, hdelS]
    try dsimp only
    rw [hcfeq, hcseq, hrl]
    try dsimp only
    rw [if_pos rfl]
    rw [outerLoop_endD_nil, List.nil_append, hcseg]
  -- read off the coordinates of the emitted curve
  have hbpm2 : basePoint (segsArr 2 segs) (2 * m + 2) = v (m + 1) := by
    rw [show 2 * m + 2 = 2 * (m + 1) from by ring]
    exact hbpE (m + 1) (by omega)
  have hbpm3 : basePoint (segsArr 2 segs) (2 * m + 3) = v 0 := by
    rw [show 2 * m + 3 = 2 * (m + 1) + 1 from by ring, hbpO (m + 1) (by omega)]
    rw [show m + 1 + 1 = m + 2 from rfl, Nat.mod_self]
  have hcurve : ((2 * m + 2) :: (2 * m + 3) ::
        (List.range (m + 1)).map (fun i => 2 * i + 1)).map (basePoint (segsArr 2 segs))
      = v (m + 1) :: v 0 :: (List.range (m + 1)).map (fun i => v (i + 1)) := by
    rw [List.map_cons, List.map_cons, hbpm2, hbpm3, List.map_map]
    rw [show (List.range (m + 1)).map ((basePoint (segsArr 2 segs)) ∘ fun i => 2 * i + 1)
        = (List.range (m + 1)).map (fun i => v (i + 1)) from by
      apply List.map_congr_left
      intro x hx
      rw [List.mem_range] at hx
      show basePoint (segsArr 2 segs) (2 * x + 1) = v (x + 1)
      rw [hbpO x (by omega), Nat.mod_eq_of_lt (by omega)]]
  unfold generate_curves
  rw [if_pos hcond, if_neg hn0, hrun]
  show Except.ok ([((2 * m + 2) :: (2 * m + 3) ::
      (List.range (m + 1)).map (fun i => 2 * i + 1)).map (basePoint (segsArr 2 segs))],
    none) = _
  rw [hcurve]

/-- C3 (amended): for segments listed in cycle order — segment `i` joining
vertex `v i` to vertex `v ((i+1) % k)`, `k ≥ 2`, with all vertices at
pairwise distinct locations separated by more than the (positive) tolerance
on some axis — `generate_curves` returns exactly one curve with no topology
diagnostic, the curve has `k + 1` points, and its first and last points
coincide.  (As stated over arbitrary single cycles the claim fails: see the
counterexample, where an unrelated vertex falls lexicographically between
two coincident endpoints and the adjacency-only matcher misses their pair,
leaving the emitted curve open.) -/
theorem generate_curves_canonical_cycle_closed
    (k : ℕ) (v : ℕ → Pt) (tol : ℚ)
    (hk : 2 ≤ k) (htol : 0 < tol)
    (hdim : ∀ i, i < k → (v i).length = 2)
    (hvne : ∀ i, i < k → ∀ j, j < k → i ≠ j → v i ≠ v j)
    (hsep : ∀ i, i < k → ∀ j, j < k → i ≠ j → allClose tol (v i) (v j) = false) :
    ∃ curve : List Pt,
      generate_curves
          (segsArr 2 ((List.range k).map (fun i => (v i, v ((i + 1) % k))))) tol
        = .ok ([curve], none) ∧
      curve.length = k + 1 ∧
      curve.head? = curve.getLast? := by
  obtain ⟨m, rfl⟩ : ∃ m, k = m + 2 := ⟨k - 2, by omega⟩
  have hsl : ((List.range (m + 2)).map
      (fun i => (v i, v ((i + 1) % (m + 2))))).length = m + 2 := by
    rw [List.length_map, List.length_range]
  have hdims : ∀ pq ∈ (List.range (m + 2)).map
      (fun i => (v i, v ((i + 1) % (m + 2)))),
      pq.1.length = 2 ∧ pq.2.length = 2 := by
    intro pq hpq
    obtain ⟨i, hi, rfl⟩ := List.mem_map.mp hpq
    rw [List.mem_range] at hi
    exact ⟨hdim i hi, hdim _ (Nat.mod_lt _ (by omega))⟩
  have hgetD : ∀ i, i < m + 2 →
      ((List.range (m + 2)).map (fun i => (v i, v ((i + 1) % (m + 2))))).getD i ([], [])
        = (v i, v ((i + 1) % (m + 2))) := by
    intro i hi
    rw [List.getD_eq_getElem _ _ (by rw [List.length_map, List.length_range]; omega)]
    rw [List.getElem_map, List.getElem_range]
  have hbpE : ∀ i, i < m + 2 →
      basePoint (segsArr 2 ((List.range (m + 2)).map
        (fun i => (v i, v ((i + 1) % (m + 2)))))) (2 * i) = v i := by
    intro i hi
    rw [(basePoint_segsArr_pair _ hdims i (by rw [hsl]; omega)).1, hgetD i hi]
  have hbpO : ∀ i, i < m + 2 →
      basePoint (segsArr 2 ((List.range (m + 2)).map
        (fun i => (v i, v ((i + 1) % (m + 2)))))) (2 * i + 1)
        = v ((i + 1) % (m + 2)) := by
    intro i hi
    rw [(basePoint_segsArr_pair _ hdims i (by rw [hsl]; omega)).2, hgetD i hi]
  have hvinj : ∀ p q, p < m + 2 → q < m + 2 → v p = v q → p = q := by
    intro p q hp hq heq
    by_contra hne
    exact hvne p hp q hq hne heq
  have hrun := cycle_run m v tol
    ((List.range (m + 2)).map (fun i => (v i, v ((i + 1) % (m + 2)))))
    htol hsl hdims hbpE hbpO hvinj
    (fun p q hp hq hne => hsep p hp q hq hne)
  refine ⟨v (m + 1) :: v 0 :: (List.range (m + 1)).map (fun i => v (i + 1)),
    hrun, ?_, ?_⟩
  · simp only [List.length_cons, List.length_map, List.length_range]
  · have hsplit : (List.range (m + 1)).map (fun i => v (i + 1))
        = ((List.range m).map (fun i => v (i + 1))) ++ [v (m + 1)] := by
      rw [show m + 1 = m + 1 from rfl, List.range_succ, List.map_append]
      simp only [List.map_cons, List.map_nil]
    have hg : (v (m + 1) :: v 0 ::
        (List.range (m + 1)).map (fun i => v (i + 1))).getLast? = some (v (m + 1)) := by
      rw [hsplit]
      rw [show v (m + 1) :: v 0 ::
          (((List.range m).map (fun i => v (i + 1))) ++ [v (m + 1)])
          = (v (m + 1) :: v 0 :: (List.range m).map (fun i => v (i + 1)))
            ++ [v (m + 1)] from rfl]
      exact List.getLast?_concat _
    rw [hg]
    rfl

theorem generate_curves_canonical_cycle_closed_witness :
    ∃ curve : List Pt,
      generate_curves
          (segsArr 2 ((List.range 4).map
            (fun i => ((fun n => [[(0 : ℚ), 0], [1, 0], [1, 1], [0, 1]].getD n []) i,
              (fun n => [[(0 : ℚ), 0], [1, 0], [1, 1], [0, 1]].getD n [])
                ((i + 1) % 4))))) 1
        = .ok ([curve], none) ∧
      curve.length = 4 + 1 ∧
      curve.head? = curve.getLast? :=
  generate_curves_canonical_cycle_closed 4
    (fun n => [[(0 : ℚ), 0], [1, 0], [1, 1], [0, 1]].getD n []) 1
    (by decide) (by decide) (by decide) (by decide) (by decide)

end CombineSegments
